import Mathlib

/-!
A shallow embedding of `topic.go` (package `xmind`).

The Go program keeps one mind-map sheet as a graph of heap-allocated `Topic`
records that all share one `map[TopicID]*Topic` (the resource index).  The
embedding makes the heap explicit:

* a pointer `*Topic` is an address, a natural number; `nil` is `Option.none`;
* the heap is a total function from addresses to records together with the
  allocation frontier `next`;
* the shared map is an association list with at most one entry per key;
* `GetId()`, the constants `TopicIdLen` / `StructLogicRight` and the struct
  declarations are outside `topic.go`; the first three are parameters (`Env`),
  and the number of identifiers drawn so far is part of the state;
* a Go run-time panic (nil dereference, write to a nil map, index out of range)
  and an exhausted recursion budget are both `Option.none`.

`UpSheet` and the unexported helper `upChildren` are not part of the embedding.
-/

namespace Xmind

/-! ## Data model -/

abbrev TopicID := String
abbrev StructureClass := String
/-- The Go type is `uint8`; only the four named values are distinguished. -/
abbrev AddMode := Nat

def rootKey : TopicID := "root"
def CentKey : TopicID := ""
def lastKey : TopicID := "last"
def incrKey : TopicID := "incr"

def SubMode : AddMode := 0
def BeforeMode : AddMode := 1
def AfterMode : AddMode := 2
def ParentMode : AddMode := 3

/-- Modelled from the spec: the identifier source `GetId` and the constants `TopicIdLen`
and `StructLogicRight` are declared outside `topic.go`; they are taken as parameters.
`GetId n` is the identifier returned by the `n`-th call of `GetId()` (counting from zero);
`TopicIdLen` is the fixed length of content identifiers. -/
structure Env where
  TopicIdLen : Nat
  GetId : Nat → TopicID
  StructLogicRight : StructureClass

/-- Modelled from the spec: the struct `Topic` is declared outside `topic.go`; these are
the fields that `topic.go` reads or writes.  Defaults are the Go zero values.  `Children`
is the `*Children` pointer together with its `Attached` slice (`none` is the nil pointer);
`resources` tells whether the field holds the sheet's shared map (`true`) or is nil
(`false`); `incr` is the `*int` field with the integer it points to. -/
structure Topic where
  ID : TopicID := ""
  Title : String := ""
  StructureClass : String := ""
  RootTopic : Option Nat := none
  Children : Option (List Nat) := none
  parent : Option Nat := none
  resources : Bool := false
  incr : Option Int := none

/-- Go `len` of a string counts bytes. -/
def goLen (s : String) : Nat := s.utf8ByteSize

/-! ### The shared map -/

def mapGet : List (TopicID × Nat) → TopicID → Option Nat
  | [], _ => none
  | (k1, v) :: m, k => if k1 = k then some v else mapGet m k

def mapDel (m : List (TopicID × Nat)) (k : TopicID) : List (TopicID × Nat) :=
  m.filter (fun e => decide (e.1 ≠ k))

def mapSet (m : List (TopicID × Nat)) (k : TopicID) (v : Nat) : List (TopicID × Nat) :=
  (k, v) :: mapDel m k

/-! ### Program state -/

/-- The heap of topics, the allocation frontier (addresses below `next` are allocated), the
one map shared by the topics of the sheet, and the number of identifiers drawn so far. -/
structure State where
  heap : Nat → Topic
  next : Nat
  res : List (TopicID × Nat)
  idc : Nat

def State.setTopic (s : State) (p : Nat) (t : Topic) : State :=
  { s with heap := fun q => if q = p then t else s.heap q }

def State.setChildren (s : State) (p : Nat) (c : Option (List Nat)) : State :=
  s.setTopic p { s.heap p with Children := c }

def State.setParent (s : State) (p : Nat) (q : Option Nat) : State :=
  s.setTopic p { s.heap p with parent := q }

/-- Read `st.resources[k]`; a nil map has no entries. -/
def lookup (s : State) (p : Nat) (k : TopicID) : Option Nat :=
  if (s.heap p).resources then mapGet s.res k else none

/-- Run `delete(st.resources, k)`; deleting from a nil map does nothing. -/
def delRes (s : State) (p : Nat) (k : TopicID) : State :=
  if (s.heap p).resources then { s with res := mapDel s.res k } else s

/-- Go `int` is 64 bits wide and wraps around. -/
def wrap64 (x : Int) : Int := (x + 2 ^ 63) % 2 ^ 64 - 2 ^ 63

/-! ## Operations -/

/-- `NewSheet`: the sheet root is allocated at address 0, the central topic at 1 and the
holder of the auto-numbering counter at 2.  Returns the central topic. -/
def NewSheet (env : Env) (sheetTitle centralTopicTitle : String)
    (structureClass : List StructureClass) : State × Option Nat :=
  let sc := match structureClass with
    | [] => env.StructLogicRight
    | c :: _ => c
  let sheet : Topic :=
    { ID := env.GetId 0, Title := sheetTitle, RootTopic := some 1, resources := true,
      parent := none }
  let cent : Topic :=
    { ID := env.GetId 1, Title := centralTopicTitle, StructureClass := sc, resources := true,
      parent := some 0 }
  let holder : Topic := { incr := some 0 }
  ({ heap := fun q => if q = 0 then sheet else if q = 1 then cent else if q = 2 then holder
                      else {}
     next := 3
     res := mapSet (mapSet (mapSet (mapSet [] rootKey 0) CentKey 1) lastKey 1) incrKey 2
     idc := 2 }, some 1)

/-- `On`. -/
def On (s : State) (st : Option Nat) (componentId : List TopicID) : State × Option Nat :=
  match st with
  | none => (s, none)
  | some p =>
    if (s.heap p).resources = false then (s, some p)
    else
      let cid := match componentId with
        | [] => CentKey
        | c :: _ => c
      match mapGet s.res cid with
      | some topic => ({ s with res := mapSet s.res lastKey topic }, some topic)
      | none => (s, mapGet s.res lastKey)

/-- `Parent`. -/
def Parent (s : State) (st : Option Nat) (componentId : List TopicID) : Option Nat :=
  match st with
  | none => none
  | some p =>
    match componentId with
    | [] => (s.heap p).parent
    | c :: _ =>
      match lookup s p c with
      | some topic => (s.heap topic).parent
      | none => none

/-- Lines 141-147 of `Add`: synthesize a title when the given one is empty.  A nil `incr`
pointer in the holder is a nil dereference. -/
def autoTitle (s : State) (p : Nat) (title : String) : Option (State × String) :=
  if title = "" then
    match lookup s p incrKey with
    | some h =>
      match (s.heap h).incr with
      | none => none
      | some v =>
        let v1 := wrap64 (v + 1)
        some (s.setTopic h { s.heap h with incr := some v1 }, "Topic " ++ toString v1)
    | none => some (s, title)
  else some (s, title)

def swapAt (l : List Nat) (i j : Nat) : List Nat :=
  (l.set i (l.getD j 0)).set j (l.getD i 0)

/-- The loop of lines 189-194, entered with `i = len(tps) - 1`. -/
def beforeLoop (heap : Nat → Topic) (stID : TopicID) : Nat → List Nat → List Nat
  | 0, tps => tps
  | i + 1, tps =>
    let tps1 := swapAt tps (i + 1) i
    if (heap (tps1.getD (i + 1) 0)).ID = stID then tps1 else beforeLoop heap stID i tps1

/-- The loop of lines 196-201, entered with `i = len(tps) - 1`. -/
def afterLoop (heap : Nat → Topic) (stID : TopicID) : Nat → List Nat → List Nat
  | 0, tps => tps
  | i + 1, tps =>
    if (heap (tps.getD i 0)).ID = stID then tps
    else afterLoop heap stID i (swapAt tps (i + 1) i)

/-- Lines 154-156 of `Add`: draw an identifier, allocate the new topic with parent `p` and
register it.  Writing to a nil map panics. -/
def allocTopic (env : Env) (s : State) (p : Nat) (title : String) : Option State :=
  if (s.heap p).resources = false then none
  else
    let id := env.GetId s.idc
    let tp := s.next
    some { heap := fun q => if q = tp then
                     { ID := id, Title := title, resources := true, parent := some p }
                   else s.heap q
           next := tp + 1
           res := mapSet s.res id tp
           idc := s.idc + 1 }

/-- Lines 160-165 of `Add`. -/
def addSub (s : State) (p tp : Nat) : State :=
  match (s.heap p).Children with
  | none => s.setChildren p (some [tp])
  | some l => s.setChildren p (some (l ++ [tp]))

/-- Lines 173-177 of `Add`: every child of `tp` gets `tp` as its parent. -/
def reparentChildren (s : State) (tp : Nat) : State :=
  match (s.heap tp).Children with
  | none => s
  | some k => if 0 < k.length then k.foldl (fun a tc => a.setParent tc (some tp)) s else s

/-- Lines 170-178 of `Add`. -/
def addParent (s : State) (p tp : Nat) : State :=
  let stTitle := (s.heap p).Title
  let tpTitle := (s.heap tp).Title
  let s1 := s.setTopic p { s.heap p with Title := tpTitle }
  let s2 := s1.setTopic tp { s1.heap tp with Title := stTitle }
  let s3 := s2.setChildren tp (s2.heap p).Children
  let s4 := s3.setChildren p (some [tp])
  reparentChildren s4 tp

/-- Lines 181-207 of `Add`; `par` is `st.parent`, which line 135 found non-nil. -/
def addSibling (s : State) (p tp par : Nat) (mode : AddMode) : State :=
  let s1 := s.setParent tp (s.heap p).parent
  match (s1.heap par).Children with
  | none => s1.setChildren par (some [tp])
  | some l =>
    let tps := l ++ [tp]
    if mode = BeforeMode then
      s1.setChildren par (some (beforeLoop s1.heap (s1.heap p).ID (tps.length - 1) tps))
    else if mode = AfterMode then
      s1.setChildren par (some (afterLoop s1.heap (s1.heap p).ID (tps.length - 1) tps))
    else s1

/-- `Add`.  The result is `none` when the Go code panics. -/
def Add (env : Env) (s : State) (st : Option Nat) (title : String) (modes : List AddMode) :
    Option (State × Option Nat) :=
  match st with
  | none => some (s, none)
  | some p =>
    match (s.heap p).parent with
    | none => some (s, some p)
    | some par =>
      match autoTitle s p title with
      | none => none
      | some (s1, title1) =>
        let mode := match modes with
          | [] => SubMode
          | m :: _ => m
        match allocTopic env s1 p title1 with
        | none => none
        | some s2 =>
          let tp := s1.next
          if mode = SubMode ∨ lookup s2 p CentKey = some p then some (addSub s2 p tp, some p)
          else if mode = ParentMode then some (addParent s2 p tp, some tp)
          else some (addSibling s2 p tp par mode, some p)

/-- `RemoveChildren`; `fuel` bounds the depth of the recursion. -/
def RemoveChildren : Nat → State → Option Nat → Option State
  | 0, _, _ => none
  | _ + 1, s, none => some s
  | fuel + 1, s, some p =>
    match (s.heap p).Children with
    | none => some s
    | some l =>
      match l.foldlM (fun a tp => RemoveChildren fuel (delRes a p (a.heap tp).ID) (some tp)) s with
      | none => none
      | some s1 => some (s1.setChildren p none)

/-- The loop of lines 236-244 of `RemoveByID` over the slice read when the loop was entered:
`i` is the loop index, `cur` the write position.  `topic.Children.Attached` is read again
from the heap at every write. -/
def removeLoop (fuel : Nat) (st topic : Nat) (componentId : TopicID) :
    List Nat → Nat → Nat → State → Option (State × Nat)
  | [], _, cur, s => some (s, cur)
  | tp :: rest, i, cur, s =>
    if (s.heap tp).ID ≠ componentId then
      match (s.heap topic).Children with
      | none => none
      | some arr =>
        if i < arr.length ∧ cur < arr.length then
          removeLoop fuel st topic componentId rest (i + 1) (cur + 1)
            (s.setChildren topic (some (arr.set cur (arr.getD i 0))))
        else none
    else
      match RemoveChildren fuel (delRes s st (s.heap tp).ID) (some tp) with
      | none => none
      | some s1 => removeLoop fuel st topic componentId rest (i + 1) cur s1

/-- `RemoveByID`; `fuel` is the recursion budget handed to `RemoveChildren`. -/
def RemoveByID (fuel : Nat) (s : State) (st : Option Nat) (componentId : TopicID) :
    Option (State × Option Nat) :=
  match st with
  | none => some (s, none)
  | some p =>
    if componentId = CentKey then some (s, some p)
    else
      match Parent s (some p) [componentId] with
      | none => some (s, some p)
      | some topic =>
        match (s.heap topic).Children with
        | none => some (s, some p)
        | some l =>
          if l.length = 0 then some (s, some p)
          else
            match removeLoop fuel p topic componentId l 0 0 s with
            | none => none
            | some (s1, cur) =>
              match (s1.heap topic).Children with
              | none => none
              | some arr =>
                if cur = arr.length then some (s1, some p)
                else
                  let s2 := if cur = 0 then s1.setChildren topic none
                            else s1.setChildren topic (some (arr.take cur))
                  some (On s2 (some p) [CentKey])

/-- `CId`.  Go visits the entries of a map in an unspecified order; `order` is the order in
which this call visits the keys. -/
def CId (env : Env) (s : State) (order : List TopicID) (st : Option Nat) (title : String) :
    TopicID :=
  if title = "" then CentKey
  else
    match st with
    | none => lastKey
    | some p =>
      match order.find? (fun id =>
          match lookup s p id with
          | some topic => decide (goLen id = env.TopicIdLen ∧ (s.heap topic).Title = title)
          | none => false) with
      | some id => id
      | none => lastKey

/-- `CIds`, with the visiting order of the map as in `CId`. -/
def CIds (env : Env) (s : State) (order : List TopicID) (st : Option Nat) (title : String) :
    List TopicID :=
  if title = "" then [CentKey]
  else
    let res := match st with
      | none => []
      | some p =>
        order.filter (fun id =>
          match lookup s p id with
          | some topic => decide (goLen id = env.TopicIdLen ∧ (s.heap topic).Title = title)
          | none => false)
    if res.length = 0 then [lastKey] else res

/-- `OnTitle`. -/
def OnTitle (env : Env) (s : State) (order : List TopicID) (st : Option Nat) (title : String) :
    State × Option Nat :=
  On s st [CId env s order st title]

/-- `Remove`. -/
def Remove (env : Env) (fuel : Nat) (s : State) (order : List TopicID) (st : Option Nat)
    (title : String) : Option (State × Option Nat) :=
  RemoveByID fuel s st (CId env s order st title)

/-- An order in which a `range` over the shared map can visit its keys: every key once. -/
def IterOrder (s : State) (order : List TopicID) : Prop :=
  order.Nodup ∧ ∀ k, k ∈ order ↔ (mapGet s.res k).isSome

/-! ## A concrete identifier source used for worked examples -/

def demoId : Nat → TopicID
  | 0 => "id000000"
  | 1 => "id000001"
  | 2 => "id000002"
  | 3 => "id000003"
  | 4 => "id000004"
  | 5 => "id000005"
  | 6 => "id000006"
  | _ => "id00000x"

def demoEnv : Env := { TopicIdLen := 8, GetId := demoId, StructLogicRight := "logic.right" }

/-! ## Sheets: reachable states and their invariant -/

/-- One edge of the tree: `c` is in the child list of `p`. -/
def Child (s : State) (p c : Nat) : Prop :=
  ∃ l, (s.heap p).Children = some l ∧ c ∈ l

/-- The topic `q` is `p` itself or a descendant of `p` through child lists. -/
def InSubtree (s : State) (p q : Nat) : Prop :=
  Relation.ReflTransGen (Child s) p q

/-- The topic `q` is a proper descendant of `p`. -/
def Descendant (s : State) (p q : Nat) : Prop :=
  ∃ c, Child s p c ∧ InSubtree s c q

/-- Assumptions on the identifier source at sheet creation: content identifiers have the
fixed length `TopicIdLen`, which is the length of no sentinel key, and the two identifiers
drawn by `NewSheet` are distinct. -/
def EnvOK (env : Env) : Prop :=
  env.TopicIdLen ≠ 0 ∧ env.TopicIdLen ≠ 4 ∧ goLen (env.GetId 0) = env.TopicIdLen ∧
    goLen (env.GetId 1) = env.TopicIdLen ∧ env.GetId 0 ≠ env.GetId 1

/-- The `n`-th identifier is fresh: of the fixed length and different from all earlier ones. -/
def FreshId (env : Env) (n : Nat) : Prop :=
  goLen (env.GetId n) = env.TopicIdLen ∧ ∀ j, j < n → env.GetId j ≠ env.GetId n

instance (env : Env) : Decidable (EnvOK env) := by
  unfold EnvOK; infer_instance

instance (env : Env) (n : Nat) : Decidable (FreshId env n) := by
  unfold FreshId; infer_instance

/-- A receiver a caller can hold: nil or a topic allocated so far. -/
def Recv (s : State) (st : Option Nat) : Prop :=
  match st with
  | none => True
  | some p => p < s.next

instance (s : State) (st : Option Nat) : Decidable (Recv s st) := by
  unfold Recv; cases st <;> infer_instance

/-- States of one sheet: those reached from `NewSheet` by calls of the exported operations
on any receiver, in runs where `GetId` keeps returning fresh identifiers.  `Remove` and
`OnTitle` may visit the map in any order. -/
inductive Reach (env : Env) : State → Prop
  | newSheet (sheetTitle centralTopicTitle : String) (sc : List StructureClass)
      (henv : EnvOK env) : Reach env (NewSheet env sheetTitle centralTopicTitle sc).1
  | add {s s1 : State} {r : Option Nat} (h : Reach env s) (st : Option Nat) (title : String)
      (modes : List AddMode) (hst : Recv s st) (hid : FreshId env s.idc)
      (e : Add env s st title modes = some (s1, r)) : Reach env s1
  | onId {s : State} (h : Reach env s) (st : Option Nat) (cids : List TopicID)
      (hst : Recv s st) : Reach env (On s st cids).1
  | onTitle {s : State} (h : Reach env s) (order : List TopicID) (st : Option Nat)
      (title : String) (hst : Recv s st) : Reach env (OnTitle env s order st title).1
  | removeByID {s s1 : State} {r : Option Nat} (h : Reach env s) (fuel : Nat)
      (st : Option Nat) (cid : TopicID) (hst : Recv s st)
      (e : RemoveByID fuel s st cid = some (s1, r)) : Reach env s1
  | remove {s s1 : State} {r : Option Nat} (h : Reach env s) (fuel : Nat)
      (order : List TopicID) (st : Option Nat) (title : String) (hst : Recv s st)
      (e : Remove env fuel s order st title = some (s1, r)) : Reach env s1
  | removeChildren {s s1 : State} (h : Reach env s) (fuel : Nat) (st : Option Nat)
      (hst : Recv s st) (e : RemoveChildren fuel s st = some s1) : Reach env s1

/-- The topic `c` can be reached from the central topic through child lists. -/
def Attached (s : State) (c : Nat) : Prop := InSubtree s 1 c

/-- Every edge of the tree goes down in `rk`. -/
def RankOK (rk : Nat → Nat) (s : State) : Prop :=
  ∀ p c, Child s p c → rk c < rk p

/-- The invariant of a sheet. -/
structure Inv (env : Env) (s : State) : Prop where
  next_ge : 3 ≤ s.next
  idc_eq : s.idc + 1 = s.next
  len_ne0 : env.TopicIdLen ≠ 0
  len_ne4 : env.TopicIdLen ≠ 4
  id_len : ∀ i, i < s.idc → goLen (env.GetId i) = env.TopicIdLen
  id_inj : ∀ i j, i < s.idc → j < s.idc → env.GetId i = env.GetId j → i = j
  res_root : mapGet s.res rootKey = some 0
  res_cent : mapGet s.res CentKey = some 1
  res_incr : mapGet s.res incrKey = some 2
  res_last : ∃ l, mapGet s.res lastKey = some l ∧ l < s.next
  res_id : ∀ k p, mapGet s.res k = some p →
    k = rootKey ∨ k = CentKey ∨ k = lastKey ∨ k = incrKey ∨
      (3 ≤ p ∧ p < s.next ∧ (s.heap p).ID = k)
  root_par : (s.heap 0).parent = none
  root_topic : (s.heap 0).RootTopic = some 1
  root_ch : (s.heap 0).Children = none
  root_res : (s.heap 0).resources = true
  cent_par : (s.heap 1).parent = some 0
  cent_res : (s.heap 1).resources = true
  hold_par : (s.heap 2).parent = none
  hold_ch : (s.heap 2).Children = none
  hold_res : (s.heap 2).resources = false
  hold_incr : (s.heap 2).incr ≠ none
  node_id : ∀ p, 3 ≤ p → p < s.next → (s.heap p).ID = env.GetId (p - 1)
  node_res : ∀ p, 3 ≤ p → p < s.next → (s.heap p).resources = true
  node_par : ∀ p, 3 ≤ p → p < s.next →
    ∃ q, (s.heap p).parent = some q ∧ 1 ≤ q ∧ q < s.next ∧ q ≠ 2 ∧ q ≠ p
  ch_nodup : ∀ p l, (s.heap p).Children = some l → l.Nodup ∧ l ≠ []
  ch_mem : ∀ p c, Child s p c →
    3 ≤ c ∧ c < s.next ∧ (s.heap c).parent = some p ∧ mapGet s.res (s.heap c).ID = some c
  rank : ∃ rk : Nat → Nat, RankOK rk s

/-- Two states with the same tree: they differ at most in titles and in the value of the
counter. -/
structure SameShape (s s1 : State) : Prop where
  next_eq : s1.next = s.next
  idc_eq : s1.idc = s.idc
  res_eq : s1.res = s.res
  id_eq : ∀ q, (s1.heap q).ID = (s.heap q).ID
  par_eq : ∀ q, (s1.heap q).parent = (s.heap q).parent
  ch_eq : ∀ q, (s1.heap q).Children = (s.heap q).Children
  rs_eq : ∀ q, (s1.heap q).resources = (s.heap q).resources
  rt_eq : ∀ q, (s1.heap q).RootTopic = (s.heap q).RootTopic
  incr_ne : ∀ q, (s.heap q).incr ≠ none → (s1.heap q).incr ≠ none

/-- The state after lines 154-156 of `Add`. -/
def allocState (env : Env) (s : State) (p : Nat) (title : String) : State :=
  { heap := fun q => if q = s.next then
                { ID := env.GetId s.idc, Title := title, resources := true, parent := some p }
              else s.heap q
    next := s.next + 1
    res := mapSet s.res (env.GetId s.idc) s.next
    idc := s.idc + 1 }

/-- The heap after lines 170-178 of `Add`, before the parent links are updated. -/
def wrapHeap (s : State) (p tp : Nat) (q : Nat) : Topic :=
  if q = p then { s.heap p with Title := (s.heap tp).Title, Children := some [tp] }
  else if q = tp then
    { s.heap tp with Title := (s.heap p).Title, Children := (s.heap p).Children }
  else s.heap q

/-- The state `s1` is `s` with the child lists of the topics in `C` set to nil and the
identifiers of the topics in `D` deleted from the index; nothing else differs. -/
structure Purged (s s1 : State) (C D : Nat → Prop) : Prop where
  next_eq : s1.next = s.next
  idc_eq : s1.idc = s.idc
  heap_in : ∀ q, C q → s1.heap q = { s.heap q with Children := none }
  heap_out : ∀ q, ¬ C q → s1.heap q = s.heap q
  res_in : ∀ k, (∃ d, D d ∧ (s.heap d).ID = k) → mapGet s1.res k = none
  res_out : ∀ k, (¬ ∃ d, D d ∧ (s.heap d).ID = k) → mapGet s1.res k = mapGet s.res k

/-- Every topic that has children holds the shared map. -/
def HasRes (s : State) : Prop :=
  ∀ q c, Child s q c → (s.heap q).resources = true

/-- The topic `q` lies in the subtree of one of the topics in `l`. -/
def Below (s : State) (l : List Nat) (q : Nat) : Prop :=
  ∃ r, r ∈ l ∧ InSubtree s r q

/-- The state `RemoveByID` returns after a removal: `s2` is the state after the cascade,
`l` the children that `P` keeps; the focus is set to the central topic. -/
def removedState (s2 : State) (P : Nat) (l : List Nat) : State :=
  { s2.setChildren P (if l = [] then none else some l) with
    res := mapSet s2.res lastKey 1 }

/-! ## Worked example states -/

/-- The sheet `NewSheet("S", "C")`. -/
def demoS0 : State := (NewSheet demoEnv "S" "C" []).1

/-- The state an operation leaves behind (the initial sheet when it panics). -/
def stateOf (r : Option (State × Option Nat)) : State := (r.getD (demoS0, none)).1

/-- The central topic has the child A (address 3). -/
def demoA : State := stateOf (Add demoEnv demoS0 (some 1) "A" [])

/-- The central topic has the children A, B (addresses 3, 4). -/
def demoAB : State := stateOf (Add demoEnv demoA (some 1) "B" [])

/-- The central topic has the children A, B, C (addresses 3, 4, 5). -/
def demoABC : State := stateOf (Add demoEnv demoAB (some 1) "C" [])

/-- The chain central → A → B (addresses 3, 4). -/
def demoChain : State := stateOf (Add demoEnv demoA (some 3) "B" [])

/-- The central topic has the single child "Old" (address 3). -/
def demoOld : State := stateOf (Add demoEnv demoS0 (some 1) "Old" [])

/-- The chain central → A → B with the focus on B (address 4). -/
def demoFocus : State := (On demoChain (some 1) ["id000003"]).1

/-! ## Further notions used by the claims on lookup and auto-numbering -/

/-- The keys of the shared map. -/
def mapKeys (m : List (TopicID × Nat)) : List TopicID := m.map Prod.fst

/-- The key `k` is a title match for `t`: it has the length of a content identifier and the
topic stored under it has the title `t`. -/
def TitleMatch (env : Env) (s : State) (t : String) (k : TopicID) : Prop :=
  goLen k = env.TopicIdLen ∧ ∃ p, mapGet s.res k = some p ∧ (s.heap p).Title = t

/-- Whether this `Add` call synthesizes a title: the title is empty and the receiver has a
parent (1), or not (0). -/
def autoCount (s : State) (st : Option Nat) (title : String) : Nat :=
  match st with
  | none => 0
  | some p => if title = "" ∧ (s.heap p).parent ≠ none then 1 else 0

/-- States of one sheet together with the number of `Add` calls so far that were made with
an empty title on a receiver that has a parent. -/
inductive ReachN (env : Env) : Nat → State → Prop
  | newSheet (sheetTitle centralTopicTitle : String) (sc : List StructureClass)
      (henv : EnvOK env) : ReachN env 0 (NewSheet env sheetTitle centralTopicTitle sc).1
  | add {n : Nat} {s s1 : State} {r : Option Nat} (h : ReachN env n s) (st : Option Nat)
      (title : String) (modes : List AddMode) (hst : Recv s st) (hid : FreshId env s.idc)
      (e : Add env s st title modes = some (s1, r)) : ReachN env (n + autoCount s st title) s1
  | onId {n : Nat} {s : State} (h : ReachN env n s) (st : Option Nat) (cids : List TopicID)
      (hst : Recv s st) : ReachN env n (On s st cids).1
  | onTitle {n : Nat} {s : State} (h : ReachN env n s) (order : List TopicID)
      (st : Option Nat) (title : String) (hst : Recv s st) :
      ReachN env n (OnTitle env s order st title).1
  | removeByID {n : Nat} {s s1 : State} {r : Option Nat} (h : ReachN env n s) (fuel : Nat)
      (st : Option Nat) (cid : TopicID) (hst : Recv s st)
      (e : RemoveByID fuel s st cid = some (s1, r)) : ReachN env n s1
  | remove {n : Nat} {s s1 : State} {r : Option Nat} (h : ReachN env n s) (fuel : Nat)
      (order : List TopicID) (st : Option Nat) (title : String) (hst : Recv s st)
      (e : Remove env fuel s order st title = some (s1, r)) : ReachN env n s1
  | removeChildren {n : Nat} {s s1 : State} (h : ReachN env n s) (fuel : Nat)
      (st : Option Nat) (hst : Recv s st) (e : RemoveChildren fuel s st = some s1) :
      ReachN env n s1

/-- The decimal value of a list of digit characters. -/
def digitsValue (l : List Char) : Nat :=
  l.foldl (fun acc c => 10 * acc + (c.toNat - 48)) 0

/-- The central topic has two children titled "Dup" (addresses 3, 4). -/
def demoDup : State :=
  stateOf (Add demoEnv (stateOf (Add demoEnv demoS0 (some 1) "Dup" [])) (some 1) "Dup" [])

/-- The sheet after one auto-titled `Add` on the central topic (address 3, "Topic 1"). -/
def demoAuto : State := stateOf (Add demoEnv demoS0 (some 1) "" [])

/-- The test that `CId` and `CIds` make on the key `id` (lines 296 and 316). -/
def titleTest (env : Env) (s : State) (p : Nat) (title : String) (id : TopicID) : Bool :=
  match lookup s p id with
  | some topic => decide (goLen id = env.TopicIdLen ∧ (s.heap topic).Title = title)
  | none => false

/-- The sheet `demoAuto` after a further `Add` with the title "X" on the central topic
(addresses 3 "Topic 1" and 4 "X"). -/
def demoAutoX : State := stateOf (Add demoEnv demoAuto (some 1) "X" [])

/-! ## Basic facts about the shared map and the insertion loops -/

theorem mapGet_mapDel_same (m : List (TopicID × Nat)) (k : TopicID) : mapGet (mapDel m k) k = none := by
  induction m with
  | nil => rfl
  | cons e m ih =>
    obtain ⟨k1, v⟩ := e
    by_cases h : k1 = k
    · simp [mapDel, List.filter, h] at ih ⊢
      exact ih
    · simp [mapDel, List.filter, h, mapGet] at ih ⊢
      exact ih

theorem mapGet_mapDel_ne (m : List (TopicID × Nat)) {k k2 : TopicID} (hne : k2 ≠ k) :
    mapGet (mapDel m k) k2 = mapGet m k2 := by
  induction m with
  | nil => rfl
  | cons e m ih =>
    obtain ⟨k1, v⟩ := e
    by_cases h : k1 = k
    · have h2 : k1 ≠ k2 := fun e => hne (e ▸ h)
      simp [mapDel, List.filter, h, mapGet, h2] at ih ⊢
      subst h
      simp [mapGet, h2]
      exact ih
    · simp [mapDel, List.filter, h, mapGet] at ih ⊢
      rw [ih]

theorem mapGet_mapSet_same (m : List (TopicID × Nat)) (k : TopicID) (v : Nat) :
    mapGet (mapSet m k v) k = some v := by
  simp [mapSet, mapGet]

theorem mapGet_mapSet_ne (m : List (TopicID × Nat)) {k k2 : TopicID} (v : Nat) (hne : k2 ≠ k) :
    mapGet (mapSet m k v) k2 = mapGet m k2 := by
  have h : k ≠ k2 := fun e => hne e.symm
  simp [mapSet, mapGet, h, mapGet_mapDel_ne m hne]

theorem swapAt_adjacent (pre : List Nat) (a b : Nat) (tail : List Nat) :
    swapAt (pre ++ a :: b :: tail) (pre.length + 1) pre.length = pre ++ b :: a :: tail := by
  induction pre with
  | nil => simp [swapAt]
  | cons x pre ih =>
    simp only [swapAt] at ih ⊢
    simp only [List.cons_append, List.length_cons, List.getD_cons_succ, List.set_cons_succ, ih]

theorem getD_append_mid (pre : List Nat) (a : Nat) (tail : List Nat) :
    (pre ++ a :: tail).getD pre.length 0 = a := by
  induction pre with
  | nil => simp
  | cons x pre ih => simpa using ih

theorem getD_append_mid1 (pre : List Nat) (a b : Nat) (tail : List Nat) :
    (pre ++ a :: b :: tail).getD (pre.length + 1) 0 = b := by
  have := getD_append_mid (pre ++ [a]) b tail
  simpa using this

/-- Before-loop: the new element travels left until it has passed the element carrying `id`. -/
theorem beforeLoop_spec (heap : Nat → Topic) (id : TopicID) (pre : List Nat) (b x : Nat)
    (hb : (heap b).ID = id) :
    ∀ (post tail : List Nat), (∀ c ∈ post, (heap c).ID ≠ id) →
      beforeLoop heap id (pre.length + 1 + post.length) (pre ++ b :: (post ++ x :: tail))
        = pre ++ x :: b :: (post ++ tail) := by
  intro post
  induction post using List.reverseRecOn with
  | nil =>
    intro tail _
    simp only [List.length_nil, Nat.add_zero, List.nil_append, beforeLoop]
    rw [swapAt_adjacent, getD_append_mid1]
    simp [hb]
  | append_singleton post c ih =>
    intro tail hpost
    have hc : (heap c).ID ≠ id := hpost c (by simp)
    have e1 : pre ++ b :: (post ++ [c] ++ x :: tail) = (pre ++ b :: post) ++ c :: x :: tail := by simp
    have e2 : pre.length + 1 + (post ++ [c]).length = (pre ++ b :: post).length + 1 := by
      simp; omega
    rw [e1, e2]
    simp only [beforeLoop]
    rw [swapAt_adjacent, getD_append_mid1]
    simp only [hc, if_false]
    have e3 : (pre ++ b :: post).length = pre.length + 1 + post.length := by simp; omega
    have e4 : (pre ++ b :: post) ++ x :: c :: tail = pre ++ b :: (post ++ x :: (c :: tail)) := by simp
    rw [e3, e4, ih (c :: tail) (fun d hd => hpost d (by simp [hd]))]
    simp

theorem afterLoop_spec (heap : Nat → Topic) (id : TopicID) (pre : List Nat) (b x : Nat)
    (hb : (heap b).ID = id) :
    ∀ (post tail : List Nat), (∀ c ∈ post, (heap c).ID ≠ id) →
      afterLoop heap id (pre.length + 1 + post.length) (pre ++ b :: (post ++ x :: tail))
        = pre ++ b :: x :: (post ++ tail) := by
  intro post
  induction post using List.reverseRecOn with
  | nil =>
    intro tail _
    simp only [List.length_nil, Nat.add_zero, List.nil_append, afterLoop]
    rw [getD_append_mid]
    simp [hb]
  | append_singleton post c ih =>
    intro tail hpost
    have hc : (heap c).ID ≠ id := hpost c (by simp)
    have e1 : pre ++ b :: (post ++ [c] ++ x :: tail) = (pre ++ b :: post) ++ c :: x :: tail := by simp
    have e2 : pre.length + 1 + (post ++ [c]).length = (pre ++ b :: post).length + 1 := by
      simp; omega
    rw [e1, e2]
    simp only [afterLoop]
    rw [swapAt_adjacent, getD_append_mid]
    simp only [hc, if_false]
    have e3 : (pre ++ b :: post).length = pre.length + 1 + post.length := by simp; omega
    have e4 : (pre ++ b :: post) ++ x :: c :: tail = pre ++ b :: (post ++ x :: (c :: tail)) := by simp
    rw [e3, e4, ih (c :: tail) (fun d hd => hpost d (by simp [hd]))]
    simp

/-- When no element carries `id`, the new element travels to the front. -/
theorem beforeLoop_front (heap : Nat → Topic) (id : TopicID) (x : Nat) :
    ∀ (l tail : List Nat), (∀ c ∈ l, (heap c).ID ≠ id) →
      beforeLoop heap id l.length (l ++ x :: tail) = x :: (l ++ tail) := by
  intro l
  induction l using List.reverseRecOn with
  | nil => intro tail _; simp [beforeLoop]
  | append_singleton l c ih =>
    intro tail hl
    have hc : (heap c).ID ≠ id := hl c (by simp)
    have e1 : l ++ [c] ++ x :: tail = l ++ c :: x :: tail := by simp
    have e2 : (l ++ [c]).length = l.length + 1 := by simp
    rw [e1, e2]
    simp only [beforeLoop]
    rw [swapAt_adjacent, getD_append_mid1]
    simp only [hc, if_false]
    rw [ih (c :: tail) (fun d hd => hl d (by simp [hd]))]
    simp

theorem afterLoop_front (heap : Nat → Topic) (id : TopicID) (x : Nat) :
    ∀ (l tail : List Nat), (∀ c ∈ l, (heap c).ID ≠ id) →
      afterLoop heap id l.length (l ++ x :: tail) = x :: (l ++ tail) := by
  intro l
  induction l using List.reverseRecOn with
  | nil => intro tail _; simp [afterLoop]
  | append_singleton l c ih =>
    intro tail hl
    have hc : (heap c).ID ≠ id := hl c (by simp)
    have e1 : l ++ [c] ++ x :: tail = l ++ c :: x :: tail := by simp
    have e2 : (l ++ [c]).length = l.length + 1 := by simp
    rw [e1, e2]
    simp only [afterLoop]
    rw [getD_append_mid]
    simp only [hc, if_false]
    rw [swapAt_adjacent, ih (c :: tail) (fun d hd => hl d (by simp [hd]))]
    simp

/-! ## State updates -/

@[simp] theorem setTopic_heap (s : State) (p : Nat) (t : Topic) (q : Nat) :
    (s.setTopic p t).heap q = if q = p then t else s.heap q := rfl
@[simp] theorem setTopic_next (s : State) (p : Nat) (t : Topic) : (s.setTopic p t).next = s.next := rfl
@[simp] theorem setTopic_res (s : State) (p : Nat) (t : Topic) : (s.setTopic p t).res = s.res := rfl
@[simp] theorem setTopic_idc (s : State) (p : Nat) (t : Topic) : (s.setTopic p t).idc = s.idc := rfl

@[simp] theorem setChildren_heap (s : State) (p : Nat) (c : Option (List Nat)) (q : Nat) :
    (s.setChildren p c).heap q = if q = p then { s.heap p with Children := c } else s.heap q := rfl
@[simp] theorem setChildren_next (s : State) (p : Nat) (c : Option (List Nat)) :
    (s.setChildren p c).next = s.next := rfl
@[simp] theorem setChildren_res (s : State) (p : Nat) (c : Option (List Nat)) :
    (s.setChildren p c).res = s.res := rfl
@[simp] theorem setChildren_idc (s : State) (p : Nat) (c : Option (List Nat)) :
    (s.setChildren p c).idc = s.idc := rfl

@[simp] theorem setParent_heap (s : State) (p : Nat) (c : Option Nat) (q : Nat) :
    (s.setParent p c).heap q = if q = p then { s.heap p with parent := c } else s.heap q := rfl
@[simp] theorem setParent_next (s : State) (p : Nat) (c : Option Nat) :
    (s.setParent p c).next = s.next := rfl
@[simp] theorem setParent_res (s : State) (p : Nat) (c : Option Nat) :
    (s.setParent p c).res = s.res := rfl
@[simp] theorem setParent_idc (s : State) (p : Nat) (c : Option Nat) :
    (s.setParent p c).idc = s.idc := rfl

theorem goLen_rootKey : goLen rootKey = 4 := by decide
theorem goLen_CentKey : goLen CentKey = 0 := by decide
theorem goLen_lastKey : goLen lastKey = 4 := by decide
theorem goLen_incrKey : goLen incrKey = 4 := by decide

/-- A key of the fixed content length is no sentinel key. -/
theorem not_sentinel_of_len {env : Env} (h0 : env.TopicIdLen ≠ 0) (h4 : env.TopicIdLen ≠ 4)
    {k : TopicID} (hk : goLen k = env.TopicIdLen) :
    k ≠ rootKey ∧ k ≠ CentKey ∧ k ≠ lastKey ∧ k ≠ incrKey := by
  refine ⟨?_, ?_, ?_, ?_⟩ <;> intro e <;> subst e
  · rw [goLen_rootKey] at hk; exact h4 hk.symm
  · rw [goLen_CentKey] at hk; exact h0 hk.symm
  · rw [goLen_lastKey] at hk; exact h4 hk.symm
  · rw [goLen_incrKey] at hk; exact h4 hk.symm

theorem Inv.node_len {env : Env} {s : State} (h : Inv env s) {p : Nat} (h3 : 3 ≤ p) (hp : p < s.next) :
    goLen (s.heap p).ID = env.TopicIdLen := by
  rw [h.node_id p h3 hp]
  exact h.id_len _ (by have := h.idc_eq; omega)

theorem Inv.node_not_sentinel {env : Env} {s : State} (h : Inv env s) {p : Nat} (h3 : 3 ≤ p) (hp : p < s.next) :
    (s.heap p).ID ≠ rootKey ∧ (s.heap p).ID ≠ CentKey ∧ (s.heap p).ID ≠ lastKey ∧
      (s.heap p).ID ≠ incrKey :=
  not_sentinel_of_len h.len_ne0 h.len_ne4 (h.node_len h3 hp)

/-- Created topics carry pairwise distinct identifiers. -/
theorem Inv.node_id_inj {env : Env} {s : State} (h : Inv env s) {p q : Nat} (hp3 : 3 ≤ p) (hp : p < s.next)
    (hq3 : 3 ≤ q) (hq : q < s.next) (e : (s.heap p).ID = (s.heap q).ID) : p = q := by
  rw [h.node_id p hp3 hp, h.node_id q hq3 hq] at e
  have := h.id_inj _ _ (by have := h.idc_eq; omega) (by have := h.idc_eq; omega) e
  omega

/-- Every value stored in the index is an allocated topic. -/
theorem Inv.res_lt {env : Env} {s : State} (h : Inv env s) {k : TopicID} {p : Nat} (hk : mapGet s.res k = some p) :
    p < s.next := by
  have h3 := h.next_ge
  rcases h.res_id k p hk with e | e | e | e | e
  · subst e; rw [h.res_root] at hk; cases hk; omega
  · subst e; rw [h.res_cent] at hk; cases hk; omega
  · subst e
    obtain ⟨l, hl, hl2⟩ := h.res_last
    rw [hl] at hk; cases hk; exact hl2
  · subst e; rw [h.res_incr] at hk; cases hk; omega
  · exact e.2.1


theorem inv_NewSheet {env : Env} (henv : EnvOK env) (a b : String) (sc : List StructureClass) :
    Inv env (NewSheet env a b sc).1 := by
  obtain ⟨h0, h4, l0, l1, hne⟩ := henv
  have k1 : rootKey ≠ CentKey := by decide
  have k2 : rootKey ≠ lastKey := by decide
  have k3 : rootKey ≠ incrKey := by decide
  have k4 : CentKey ≠ lastKey := by decide
  have k5 : CentKey ≠ incrKey := by decide
  have k6 : lastKey ≠ incrKey := by decide
  refine
    { next_ge := by simp [NewSheet]
      idc_eq := by simp [NewSheet]
      len_ne0 := h0
      len_ne4 := h4
      id_len := ?_
      id_inj := ?_
      res_root := ?_
      res_cent := ?_
      res_incr := ?_
      res_last := ⟨1, ?_, by simp [NewSheet]⟩
      res_id := ?_
      root_par := by simp [NewSheet]
      root_topic := by simp [NewSheet]
      root_ch := by simp [NewSheet]
      root_res := by simp [NewSheet]
      cent_par := by simp [NewSheet]
      cent_res := by simp [NewSheet]
      hold_par := by simp [NewSheet]
      hold_ch := by simp [NewSheet]
      hold_res := by simp [NewSheet]
      hold_incr := by simp [NewSheet]
      node_id := fun p h3 hp => by simp [NewSheet] at hp; omega
      node_res := fun p h3 hp => by simp [NewSheet] at hp; omega
      node_par := fun p h3 hp => by simp [NewSheet] at hp; omega
      ch_nodup := ?_
      ch_mem := ?_
      rank := ⟨fun _ => 0, ?_⟩ }
  · intro i hi
    simp [NewSheet] at hi
    interval_cases i <;> assumption
  · intro i j hi hj e
    simp [NewSheet] at hi hj
    interval_cases i <;> interval_cases j <;> first | rfl | exact absurd e hne | exact absurd e.symm hne
  · simp only [NewSheet]
    rw [mapGet_mapSet_ne _ _ k3, mapGet_mapSet_ne _ _ k2, mapGet_mapSet_ne _ _ k1,
      mapGet_mapSet_same]
  · simp only [NewSheet]
    rw [mapGet_mapSet_ne _ _ k5, mapGet_mapSet_ne _ _ k4, mapGet_mapSet_same]
  · simp only [NewSheet]
    rw [mapGet_mapSet_same]
  · simp only [NewSheet]
    rw [mapGet_mapSet_ne _ _ k6, mapGet_mapSet_same]
  · intro k p hk
    simp only [NewSheet] at hk
    by_cases e4 : k = incrKey
    · exact Or.inr (Or.inr (Or.inr (Or.inl e4)))
    rw [mapGet_mapSet_ne _ _ e4] at hk
    by_cases e3 : k = lastKey
    · exact Or.inr (Or.inr (Or.inl e3))
    rw [mapGet_mapSet_ne _ _ e3] at hk
    by_cases e2 : k = CentKey
    · exact Or.inr (Or.inl e2)
    rw [mapGet_mapSet_ne _ _ e2] at hk
    by_cases e1 : k = rootKey
    · exact Or.inl e1
    rw [mapGet_mapSet_ne _ _ e1] at hk
    simp [mapGet] at hk
  · intro p l hl
    simp only [NewSheet] at hl
    split_ifs at hl
  · rintro p c ⟨l, hl, -⟩
    simp only [NewSheet] at hl
    split_ifs at hl
  · rintro p c ⟨l, hl, -⟩
    simp only [NewSheet] at hl
    split_ifs at hl

/-! ## Preservation of the invariant: navigation and title changes -/

theorem inv_setLast {env : Env} {s : State} (h : Inv env s) {t : Nat} (ht : t < s.next) :
    Inv env { s with res := mapSet s.res lastKey t } := by
  have k2 : rootKey ≠ lastKey := by decide
  have k4 : CentKey ≠ lastKey := by decide
  have k6 : incrKey ≠ lastKey := by decide
  refine { h with
    res_root := ?_, res_cent := ?_, res_incr := ?_, res_last := ⟨t, ?_, ht⟩, res_id := ?_,
    ch_mem := ?_ }
  · show mapGet (mapSet s.res lastKey t) rootKey = some 0
    rw [mapGet_mapSet_ne _ _ k2]; exact h.res_root
  · show mapGet (mapSet s.res lastKey t) CentKey = some 1
    rw [mapGet_mapSet_ne _ _ k4]; exact h.res_cent
  · show mapGet (mapSet s.res lastKey t) incrKey = some 2
    rw [mapGet_mapSet_ne _ _ k6]; exact h.res_incr
  · exact mapGet_mapSet_same _ _ _
  · intro k p hk
    by_cases e : k = lastKey
    · exact Or.inr (Or.inr (Or.inl e))
    · change mapGet (mapSet s.res lastKey t) k = some p at hk
      rw [mapGet_mapSet_ne _ _ e] at hk
      exact h.res_id k p hk
  · intro p c hc
    obtain ⟨c3, cn, cp, ci⟩ := h.ch_mem p c hc
    refine ⟨c3, cn, cp, ?_⟩
    show mapGet (mapSet s.res lastKey t) (s.heap c).ID = some c
    rw [mapGet_mapSet_ne _ _ (h.node_not_sentinel c3 cn).2.2.1]
    exact ci

theorem inv_On {env : Env} {s : State} (h : Inv env s) (st : Option Nat)
    (cids : List TopicID) : Inv env (On s st cids).1 := by
  unfold On
  cases st with
  | none => exact h
  | some p =>
    simp only
    split_ifs
    · exact h
    · split
      · next topic ht => exact inv_setLast h (h.res_lt ht)
      · exact h

theorem SameShape.child {s s1 : State} (e : SameShape s s1) (p c : Nat) :
    Child s1 p c ↔ Child s p c := by
  unfold Child; rw [e.ch_eq]

theorem inv_of_sameShape {env : Env} {s s1 : State} (h : Inv env s) (e : SameShape s s1) :
    Inv env s1 := by
  obtain ⟨rk, hrk⟩ := h.rank
  refine
    { next_ge := by rw [e.next_eq]; exact h.next_ge
      idc_eq := by rw [e.next_eq, e.idc_eq]; exact h.idc_eq
      len_ne0 := h.len_ne0
      len_ne4 := h.len_ne4
      id_len := by rw [e.idc_eq]; exact h.id_len
      id_inj := by rw [e.idc_eq]; exact h.id_inj
      res_root := by rw [e.res_eq]; exact h.res_root
      res_cent := by rw [e.res_eq]; exact h.res_cent
      res_incr := by rw [e.res_eq]; exact h.res_incr
      res_last := by rw [e.res_eq, e.next_eq]; exact h.res_last
      res_id := by
        intro k p hk
        rw [e.res_eq] at hk
        rw [e.next_eq, e.id_eq]
        exact h.res_id k p hk
      root_par := by rw [e.par_eq]; exact h.root_par
      root_topic := by rw [e.rt_eq]; exact h.root_topic
      root_ch := by rw [e.ch_eq]; exact h.root_ch
      root_res := by rw [e.rs_eq]; exact h.root_res
      cent_par := by rw [e.par_eq]; exact h.cent_par
      cent_res := by rw [e.rs_eq]; exact h.cent_res
      hold_par := by rw [e.par_eq]; exact h.hold_par
      hold_ch := by rw [e.ch_eq]; exact h.hold_ch
      hold_res := by rw [e.rs_eq]; exact h.hold_res
      hold_incr := e.incr_ne 2 h.hold_incr
      node_id := by
        intro p h3 hp
        rw [e.next_eq] at hp
        rw [e.id_eq]; exact h.node_id p h3 hp
      node_res := by
        intro p h3 hp
        rw [e.next_eq] at hp
        rw [e.rs_eq]; exact h.node_res p h3 hp
      node_par := by
        intro p h3 hp
        rw [e.next_eq] at hp ⊢
        rw [e.par_eq]; exact h.node_par p h3 hp
      ch_nodup := by
        intro p l hl
        rw [e.ch_eq] at hl; exact h.ch_nodup p l hl
      ch_mem := by
        intro p c hc
        rw [e.child] at hc
        rw [e.next_eq, e.par_eq, e.id_eq, e.res_eq]
        exact h.ch_mem p c hc
      rank := ⟨rk, fun p c hc => hrk p c ((e.child p c).1 hc)⟩ }

theorem sameShape_refl (s : State) : SameShape s s :=
  ⟨rfl, rfl, rfl, fun _ => rfl, fun _ => rfl, fun _ => rfl, fun _ => rfl, fun _ => rfl,
    fun _ h => h⟩

/-- Title synthesis changes the counter only. -/
theorem autoTitle_sameShape {s s1 : State} {p : Nat} {title t1 : String}
    (e : autoTitle s p title = some (s1, t1)) : SameShape s s1 := by
  unfold autoTitle at e
  split_ifs at e
  · split at e
    · next h hh =>
      split at e
      · cases e
      · next v hv =>
        simp only [Option.some.injEq, Prod.mk.injEq] at e
        obtain ⟨rfl, -⟩ := e
        refine ⟨rfl, rfl, rfl, ?_, ?_, ?_, ?_, ?_, ?_⟩ <;> intro q <;>
          by_cases hq : q = h <;> simp [hq]
    · simp only [Option.some.injEq, Prod.mk.injEq] at e
      obtain ⟨rfl, -⟩ := e
      exact sameShape_refl s
  · simp only [Option.some.injEq, Prod.mk.injEq] at e
    obtain ⟨rfl, -⟩ := e
    exact sameShape_refl s

/-- In a sheet, title synthesis does not panic. -/
theorem autoTitle_isSome {env : Env} {s : State} (h : Inv env s) (p : Nat) (title : String) :
    ∃ s1 t1, autoTitle s p title = some (s1, t1) ∧ (title ≠ "" → t1 = title) := by
  unfold autoTitle
  split_ifs with ht
  · unfold lookup
    split_ifs
    · rw [h.res_incr]
      simp only
      cases hv : (s.heap 2).incr with
      | none => exact absurd hv h.hold_incr
      | some v => exact ⟨_, _, rfl, fun hne => absurd ht hne⟩
    · exact ⟨_, _, rfl, fun _ => rfl⟩
  · exact ⟨_, _, rfl, fun _ => rfl⟩

/-! ## Preservation of the invariant: insertion -/


/-! ### Fields untouched by an update -/

theorem setChildren_ID (s : State) (p : Nat) (c : Option (List Nat)) (q : Nat) :
    ((s.setChildren p c).heap q).ID = (s.heap q).ID := by
  by_cases e : q = p <;> simp [e]
theorem setChildren_Title (s : State) (p : Nat) (c : Option (List Nat)) (q : Nat) :
    ((s.setChildren p c).heap q).Title = (s.heap q).Title := by
  by_cases e : q = p <;> simp [e]
theorem setChildren_parent (s : State) (p : Nat) (c : Option (List Nat)) (q : Nat) :
    ((s.setChildren p c).heap q).parent = (s.heap q).parent := by
  by_cases e : q = p <;> simp [e]
theorem setChildren_resources (s : State) (p : Nat) (c : Option (List Nat)) (q : Nat) :
    ((s.setChildren p c).heap q).resources = (s.heap q).resources := by
  by_cases e : q = p <;> simp [e]
theorem setChildren_RootTopic (s : State) (p : Nat) (c : Option (List Nat)) (q : Nat) :
    ((s.setChildren p c).heap q).RootTopic = (s.heap q).RootTopic := by
  by_cases e : q = p <;> simp [e]
theorem setChildren_incr (s : State) (p : Nat) (c : Option (List Nat)) (q : Nat) :
    ((s.setChildren p c).heap q).incr = (s.heap q).incr := by
  by_cases e : q = p <;> simp [e]
theorem setChildren_Children (s : State) (p : Nat) (c : Option (List Nat)) (q : Nat) :
    ((s.setChildren p c).heap q).Children = if q = p then c else (s.heap q).Children := by
  by_cases e : q = p <;> simp [e]

theorem setParent_ID (s : State) (p : Nat) (c : Option Nat) (q : Nat) :
    ((s.setParent p c).heap q).ID = (s.heap q).ID := by
  by_cases e : q = p <;> simp [e]
theorem setParent_Title (s : State) (p : Nat) (c : Option Nat) (q : Nat) :
    ((s.setParent p c).heap q).Title = (s.heap q).Title := by
  by_cases e : q = p <;> simp [e]
theorem setParent_Children (s : State) (p : Nat) (c : Option Nat) (q : Nat) :
    ((s.setParent p c).heap q).Children = (s.heap q).Children := by
  by_cases e : q = p <;> simp [e]
theorem setParent_resources (s : State) (p : Nat) (c : Option Nat) (q : Nat) :
    ((s.setParent p c).heap q).resources = (s.heap q).resources := by
  by_cases e : q = p <;> simp [e]
theorem setParent_RootTopic (s : State) (p : Nat) (c : Option Nat) (q : Nat) :
    ((s.setParent p c).heap q).RootTopic = (s.heap q).RootTopic := by
  by_cases e : q = p <;> simp [e]
theorem setParent_incr (s : State) (p : Nat) (c : Option Nat) (q : Nat) :
    ((s.setParent p c).heap q).incr = (s.heap q).incr := by
  by_cases e : q = p <;> simp [e]
theorem setParent_parent (s : State) (p : Nat) (c : Option Nat) (q : Nat) :
    ((s.setParent p c).heap q).parent = if q = p then c else (s.heap q).parent := by
  by_cases e : q = p <;> simp [e]

theorem allocTopic_eq (env : Env) (s : State) (p : Nat) (title : String)
    (hr : (s.heap p).resources = true) :
    allocTopic env s p title = some (allocState env s p title) := by
  simp [allocTopic, hr, allocState]

theorem child_allocState {env : Env} {s : State} {p : Nat} {title : String}
    {q c : Nat} (hc : Child (allocState env s p title) q c) : q ≠ s.next ∧ Child s q c := by
  obtain ⟨l, hl, hc⟩ := hc
  by_cases hq : q = s.next
  · subst hq
    simp [allocState] at hl
  · simp only [allocState, hq, if_false] at hl
    exact ⟨hq, l, hl, hc⟩

theorem inv_allocState {env : Env} {s : State} (h : Inv env s) (hid : FreshId env s.idc)
    {p : Nat} (hp1 : 1 ≤ p) (hpn : p < s.next) (hp2 : p ≠ 2) (title : String) :
    Inv env (allocState env s p title) := by
  obtain ⟨rk, hrk⟩ := h.rank
  have hn3 := h.next_ge
  have hidc := h.idc_eq
  have hns := not_sentinel_of_len h.len_ne0 h.len_ne4 hid.1
  have hold : ∀ q, q < s.next → (allocState env s p title).heap q = s.heap q := by
    intro q hq
    have : q ≠ s.next := by omega
    simp [allocState, this]
  have hnew : (allocState env s p title).heap s.next =
      { ID := env.GetId s.idc, Title := title, resources := true, parent := some p } := by
    simp [allocState]
  have hres : ∀ k, k ≠ env.GetId s.idc →
      mapGet (allocState env s p title).res k = mapGet s.res k := by
    intro k hk
    simp only [allocState]
    exact mapGet_mapSet_ne _ _ hk
  refine
    { next_ge := by simp only [allocState]; omega
      idc_eq := by simp only [allocState]; omega
      len_ne0 := h.len_ne0
      len_ne4 := h.len_ne4
      id_len := ?_
      id_inj := ?_
      res_root := by rw [hres _ hns.1.symm]; exact h.res_root
      res_cent := by rw [hres _ hns.2.1.symm]; exact h.res_cent
      res_incr := by rw [hres _ hns.2.2.2.symm]; exact h.res_incr
      res_last := ?_
      res_id := ?_
      root_par := by rw [hold 0 (by omega)]; exact h.root_par
      root_topic := by rw [hold 0 (by omega)]; exact h.root_topic
      root_ch := by rw [hold 0 (by omega)]; exact h.root_ch
      root_res := by rw [hold 0 (by omega)]; exact h.root_res
      cent_par := by rw [hold 1 (by omega)]; exact h.cent_par
      cent_res := by rw [hold 1 (by omega)]; exact h.cent_res
      hold_par := by rw [hold 2 (by omega)]; exact h.hold_par
      hold_ch := by rw [hold 2 (by omega)]; exact h.hold_ch
      hold_res := by rw [hold 2 (by omega)]; exact h.hold_res
      hold_incr := by rw [hold 2 (by omega)]; exact h.hold_incr
      node_id := ?_
      node_res := ?_
      node_par := ?_
      ch_nodup := ?_
      ch_mem := ?_
      rank := ⟨rk, fun q c hc => hrk q c (child_allocState hc).2⟩ }
  · intro i hi
    simp only [allocState] at hi
    by_cases e : i = s.idc
    · subst e; exact hid.1
    · exact h.id_len i (by omega)
  · intro i j hi hj e
    simp only [allocState] at hi hj
    by_cases ei : i = s.idc
    · by_cases ej : j = s.idc
      · omega
      · subst ei; exact absurd e.symm (hid.2 j (by omega))
    · by_cases ej : j = s.idc
      · subst ej; exact absurd e (hid.2 i (by omega))
      · exact h.id_inj i j (by omega) (by omega) e
  · obtain ⟨l, hl, hl2⟩ := h.res_last
    refine ⟨l, ?_, ?_⟩
    · rw [hres _ hns.2.2.1.symm]; exact hl
    · simp only [allocState]; omega
  · intro k t hk
    by_cases e : k = env.GetId s.idc
    · subst e
      simp only [allocState, mapGet_mapSet_same, Option.some.injEq] at hk
      subst hk
      refine Or.inr (Or.inr (Or.inr (Or.inr ⟨hn3, ?_, ?_⟩)))
      · simp only [allocState]; omega
      · rw [hnew]
    · rw [hres k e] at hk
      rcases h.res_id k t hk with e1 | e1 | e1 | e1 | ⟨a, b, c⟩
      · exact Or.inl e1
      · exact Or.inr (Or.inl e1)
      · exact Or.inr (Or.inr (Or.inl e1))
      · exact Or.inr (Or.inr (Or.inr (Or.inl e1)))
      · refine Or.inr (Or.inr (Or.inr (Or.inr ⟨a, ?_, ?_⟩)))
        · simp only [allocState]; omega
        · rw [hold t b]; exact c
  · intro q h3 hq
    simp only [allocState] at hq
    by_cases e : q = s.next
    · subst e; rw [hnew]
      show env.GetId s.idc = env.GetId (s.next - 1)
      congr 1; omega
    · rw [hold q (by omega)]; exact h.node_id q h3 (by omega)
  · intro q h3 hq
    simp only [allocState] at hq
    by_cases e : q = s.next
    · subst e; rw [hnew]
    · rw [hold q (by omega)]; exact h.node_res q h3 (by omega)
  · intro q h3 hq
    simp only [allocState] at hq
    by_cases e : q = s.next
    · subst e; rw [hnew]
      refine ⟨p, rfl, hp1, ?_, hp2, by omega⟩
      simp only [allocState]; omega
    · rw [hold q (by omega)]
      obtain ⟨r, a, b, c, d, f⟩ := h.node_par q h3 (by omega)
      refine ⟨r, a, b, ?_, d, f⟩
      simp only [allocState]; omega
  · intro q l hl
    by_cases e : q = s.next
    · subst e; rw [hnew] at hl; cases hl
    · simp only [allocState, e, if_false] at hl
      exact h.ch_nodup q l hl
  · intro q c hc
    obtain ⟨hq, hc⟩ := child_allocState hc
    obtain ⟨c3, cn, cp, ci⟩ := h.ch_mem q c hc
    rw [hold c cn]
    refine ⟨c3, ?_, cp, ?_⟩
    · simp only [allocState]; omega
    · rw [hres]
      · exact ci
      · rw [h.node_id c c3 cn]
        exact hid.2 (c - 1) (by omega)

/-- Attaching a registered topic that is in no child list to the child list of the node
its parent link names keeps the invariant. -/
theorem inv_attach {env : Env} {s : State} (h : Inv env s) {tp par : Nat} (htp3 : 3 ≤ tp)
    (htpn : tp < s.next) (hch : (s.heap tp).Children = none) (hno : ∀ q, ¬ Child s q tp)
    (hpar : (s.heap tp).parent = some par) (hidx : mapGet s.res (s.heap tp).ID = some tp)
    (hp0 : par ≠ 0) {l : List Nat} (hl : ∀ c, c ∈ l ↔ c = tp ∨ Child s par c)
    (hnd : l.Nodup) : Inv env (s.setChildren par (some l)) := by
  obtain ⟨rk, hrk⟩ := h.rank
  obtain ⟨q0, hq0, hq1, hqn, hq2, hqt⟩ := h.node_par tp htp3 htpn
  rw [hpar] at hq0
  cases hq0
  have hchild : ∀ q c, Child (s.setChildren par (some l)) q c →
      (q = par ∧ c = tp) ∨ Child s q c := by
    rintro q c ⟨l1, hl1, hc⟩
    rw [setChildren_Children] at hl1
    by_cases e : q = par
    · subst e
      simp only [if_true, Option.some.injEq] at hl1
      subst hl1
      rcases (hl c).1 hc with e1 | e1
      · exact Or.inl ⟨rfl, e1⟩
      · exact Or.inr e1
    · simp only [e, if_false] at hl1
      exact Or.inr ⟨l1, hl1, hc⟩
  refine
    { next_ge := h.next_ge
      idc_eq := h.idc_eq
      len_ne0 := h.len_ne0
      len_ne4 := h.len_ne4
      id_len := h.id_len
      id_inj := h.id_inj
      res_root := h.res_root
      res_cent := h.res_cent
      res_incr := h.res_incr
      res_last := h.res_last
      res_id := ?_
      root_par := by rw [setChildren_parent]; exact h.root_par
      root_topic := by rw [setChildren_RootTopic]; exact h.root_topic
      root_ch := by rw [setChildren_Children, if_neg (Ne.symm hp0)]; exact h.root_ch
      root_res := by rw [setChildren_resources]; exact h.root_res
      cent_par := by rw [setChildren_parent]; exact h.cent_par
      cent_res := by rw [setChildren_resources]; exact h.cent_res
      hold_par := by rw [setChildren_parent]; exact h.hold_par
      hold_ch := by rw [setChildren_Children, if_neg (Ne.symm hq2)]; exact h.hold_ch
      hold_res := by rw [setChildren_resources]; exact h.hold_res
      hold_incr := by rw [setChildren_incr]; exact h.hold_incr
      node_id := ?_
      node_res := ?_
      node_par := ?_
      ch_nodup := ?_
      ch_mem := ?_
      rank := ⟨fun q => if q = tp then 0 else rk q + 1, ?_⟩ }
  · intro k t hk
    rw [setChildren_ID]
    exact h.res_id k t hk
  · intro q h3 hq
    rw [setChildren_ID]; exact h.node_id q h3 hq
  · intro q h3 hq
    rw [setChildren_resources]; exact h.node_res q h3 hq
  · intro q h3 hq
    rw [setChildren_parent]; exact h.node_par q h3 hq
  · intro q l1 hl1
    rw [setChildren_Children] at hl1
    by_cases e : q = par
    · subst e
      simp only [if_true, Option.some.injEq] at hl1
      subst hl1
      refine ⟨hnd, ?_⟩
      intro e
      have := (hl tp).2 (Or.inl rfl)
      rw [e] at this
      cases this
    · simp only [e, if_false] at hl1
      exact h.ch_nodup q l1 hl1
  · intro q c hc
    rw [setChildren_parent, setChildren_ID]
    rcases hchild q c hc with ⟨rfl, rfl⟩ | hc
    · exact ⟨htp3, htpn, hpar, hidx⟩
    · exact h.ch_mem q c hc
  · intro q c hc
    rcases hchild q c hc with ⟨rfl, rfl⟩ | hc
    · simp only [if_true, hqt, if_false]; omega
    · have hct : c ≠ tp := fun e => hno q (e ▸ hc)
      have hqt2 : q ≠ tp := by
        rintro rfl
        obtain ⟨l1, hl1, -⟩ := hc
        rw [hch] at hl1; cases hl1
      simp only [hct, hqt2, if_false]
      have := hrk q c hc
      omega

/-- Redirecting the parent link of a topic that is in no child list keeps the invariant. -/
theorem inv_setParent_detached {env : Env} {s : State} (h : Inv env s) {tp q : Nat}
    (htp3 : 3 ≤ tp) (hno : ∀ r, ¬ Child s r tp) (hq1 : 1 ≤ q) (hqn : q < s.next)
    (hq2 : q ≠ 2) (hqt : q ≠ tp) : Inv env (s.setParent tp (some q)) := by
  obtain ⟨rk, hrk⟩ := h.rank
  have hchild : ∀ r c, Child (s.setParent tp (some q)) r c → Child s r c := by
    rintro r c ⟨l1, hl1, hc⟩
    rw [setParent_Children] at hl1
    exact ⟨l1, hl1, hc⟩
  refine
    { next_ge := h.next_ge
      idc_eq := h.idc_eq
      len_ne0 := h.len_ne0
      len_ne4 := h.len_ne4
      id_len := h.id_len
      id_inj := h.id_inj
      res_root := h.res_root
      res_cent := h.res_cent
      res_incr := h.res_incr
      res_last := h.res_last
      res_id := ?_
      root_par := by
        rw [setParent_parent, if_neg (by omega)]; exact h.root_par
      root_topic := by rw [setParent_RootTopic]; exact h.root_topic
      root_ch := by rw [setParent_Children]; exact h.root_ch
      root_res := by rw [setParent_resources]; exact h.root_res
      cent_par := by
        rw [setParent_parent, if_neg (by omega)]; exact h.cent_par
      cent_res := by rw [setParent_resources]; exact h.cent_res
      hold_par := by
        rw [setParent_parent, if_neg (by omega)]; exact h.hold_par
      hold_ch := by rw [setParent_Children]; exact h.hold_ch
      hold_res := by rw [setParent_resources]; exact h.hold_res
      hold_incr := by rw [setParent_incr]; exact h.hold_incr
      node_id := ?_
      node_res := ?_
      node_par := ?_
      ch_nodup := ?_
      ch_mem := ?_
      rank := ⟨rk, fun r c hc => hrk r c (hchild r c hc)⟩ }
  · intro k t hk
    rw [setParent_ID]
    exact h.res_id k t hk
  · intro r h3 hr
    rw [setParent_ID]; exact h.node_id r h3 hr
  · intro r h3 hr
    rw [setParent_resources]; exact h.node_res r h3 hr
  · intro r h3 hr
    rw [setParent_parent]
    by_cases e : r = tp
    · subst e
      simp only [if_true]
      exact ⟨q, rfl, hq1, hqn, hq2, hqt⟩
    · simp only [e, if_false]
      exact h.node_par r h3 hr
  · intro r l1 hl1
    rw [setParent_Children] at hl1
    exact h.ch_nodup r l1 hl1
  · intro r c hc
    have hc1 := hchild r c hc
    have hct : c ≠ tp := fun e => hno r (e ▸ hc1)
    rw [setParent_parent, setParent_ID, if_neg hct]
    exact h.ch_mem r c hc1

/-! ### Parent mode -/

theorem foldl_setParent_next (k : List Nat) (tp : Nat) (s : State) :
    (k.foldl (fun a tc => a.setParent tc (some tp)) s).next = s.next := by
  induction k generalizing s with
  | nil => rfl
  | cons c k ih => simp only [List.foldl_cons]; rw [ih]; rfl

theorem foldl_setParent_res (k : List Nat) (tp : Nat) (s : State) :
    (k.foldl (fun a tc => a.setParent tc (some tp)) s).res = s.res := by
  induction k generalizing s with
  | nil => rfl
  | cons c k ih => simp only [List.foldl_cons]; rw [ih]; rfl

theorem foldl_setParent_idc (k : List Nat) (tp : Nat) (s : State) :
    (k.foldl (fun a tc => a.setParent tc (some tp)) s).idc = s.idc := by
  induction k generalizing s with
  | nil => rfl
  | cons c k ih => simp only [List.foldl_cons]; rw [ih]; rfl

theorem foldl_setParent_heap (k : List Nat) (tp : Nat) (s : State) (q : Nat) :
    (k.foldl (fun a tc => a.setParent tc (some tp)) s).heap q =
      if q ∈ k then { s.heap q with parent := some tp } else s.heap q := by
  induction k generalizing s with
  | nil => simp
  | cons c k ih =>
    simp only [List.foldl_cons]
    rw [ih]
    by_cases e : q = c
    · subst e; by_cases e2 : q ∈ k <;> simp [e2]
    · by_cases e2 : q ∈ k <;> simp [e, e2]

theorem reparentChildren_next (s : State) (tp : Nat) : (reparentChildren s tp).next = s.next := by
  unfold reparentChildren
  split
  · rfl
  · split_ifs
    · exact foldl_setParent_next _ _ _
    · rfl

theorem reparentChildren_res (s : State) (tp : Nat) : (reparentChildren s tp).res = s.res := by
  unfold reparentChildren
  split
  · rfl
  · split_ifs
    · exact foldl_setParent_res _ _ _
    · rfl

theorem reparentChildren_idc (s : State) (tp : Nat) : (reparentChildren s tp).idc = s.idc := by
  unfold reparentChildren
  split
  · rfl
  · split_ifs
    · exact foldl_setParent_idc _ _ _
    · rfl

theorem reparentChildren_heap (s : State) (tp q : Nat) :
    (reparentChildren s tp).heap q =
      if q ∈ (s.heap tp).Children.getD [] then { s.heap q with parent := some tp }
      else s.heap q := by
  unfold reparentChildren
  cases hk : (s.heap tp).Children with
  | none => simp
  | some k =>
    cases k with
    | nil => simp
    | cons c k =>
      simp only [List.length_cons, Nat.zero_lt_succ, if_true, Option.getD_some]
      exact foldl_setParent_heap _ _ _ _

theorem addParent_eq (s : State) {p tp : Nat} (hne : p ≠ tp) :
    ∃ s4 : State, addParent s p tp = reparentChildren s4 tp ∧ s4.next = s.next ∧
      s4.res = s.res ∧ s4.idc = s.idc ∧ ∀ q, s4.heap q = wrapHeap s p tp q := by
  have hne2 : tp ≠ p := Ne.symm hne
  refine ⟨_, rfl, rfl, rfl, rfl, ?_⟩
  intro r
  unfold wrapHeap
  by_cases e1 : r = p
  · subst e1; simp [hne]
  · by_cases e2 : r = tp
    · subst e2; simp [hne, hne2]
    · simp [e1, e2]

theorem addParent_heap (s : State) {p tp : Nat} (hne : p ≠ tp) (q : Nat) :
    (addParent s p tp).heap q =
      if q ∈ (s.heap p).Children.getD [] then { wrapHeap s p tp q with parent := some tp }
      else wrapHeap s p tp q := by
  obtain ⟨s4, e, -, -, -, hh⟩ := addParent_eq s hne
  rw [e, reparentChildren_heap, hh, hh]
  have : (wrapHeap s p tp tp).Children = (s.heap p).Children := by
    simp [wrapHeap, Ne.symm hne]
  rw [this]

theorem addParent_next (s : State) (p tp : Nat) : (addParent s p tp).next = s.next :=
  reparentChildren_next _ _

theorem addParent_res (s : State) (p tp : Nat) : (addParent s p tp).res = s.res :=
  reparentChildren_res _ _

theorem addParent_idc (s : State) (p tp : Nat) : (addParent s p tp).idc = s.idc :=
  reparentChildren_idc _ _

theorem addParent_ID (s : State) {p tp : Nat} (hne : p ≠ tp) (q : Nat) :
    ((addParent s p tp).heap q).ID = (s.heap q).ID := by
  rw [addParent_heap s hne]; unfold wrapHeap; split_ifs <;> simp_all

theorem addParent_resources (s : State) {p tp : Nat} (hne : p ≠ tp) (q : Nat) :
    ((addParent s p tp).heap q).resources = (s.heap q).resources := by
  rw [addParent_heap s hne]; unfold wrapHeap; split_ifs <;> simp_all

theorem addParent_RootTopic (s : State) {p tp : Nat} (hne : p ≠ tp) (q : Nat) :
    ((addParent s p tp).heap q).RootTopic = (s.heap q).RootTopic := by
  rw [addParent_heap s hne]; unfold wrapHeap; split_ifs <;> simp_all

theorem addParent_incr (s : State) {p tp : Nat} (hne : p ≠ tp) (q : Nat) :
    ((addParent s p tp).heap q).incr = (s.heap q).incr := by
  rw [addParent_heap s hne]; unfold wrapHeap; split_ifs <;> simp_all

theorem addParent_Title (s : State) {p tp : Nat} (hne : p ≠ tp) (q : Nat) :
    ((addParent s p tp).heap q).Title =
      if q = p then (s.heap tp).Title else if q = tp then (s.heap p).Title
      else (s.heap q).Title := by
  rw [addParent_heap s hne]; unfold wrapHeap; split_ifs <;> simp_all

theorem addParent_Children (s : State) {p tp : Nat} (hne : p ≠ tp) (q : Nat) :
    ((addParent s p tp).heap q).Children =
      if q = p then some [tp] else if q = tp then (s.heap p).Children
      else (s.heap q).Children := by
  rw [addParent_heap s hne]; unfold wrapHeap; split_ifs <;> simp_all

theorem addParent_parent (s : State) {p tp : Nat} (hne : p ≠ tp) (q : Nat) :
    ((addParent s p tp).heap q).parent =
      if q ∈ (s.heap p).Children.getD [] then some tp else (s.heap q).parent := by
  rw [addParent_heap s hne]; unfold wrapHeap; split_ifs <;> simp_all

theorem mem_getD_children {s : State} {p c : Nat} :
    c ∈ (s.heap p).Children.getD [] ↔ Child s p c := by
  unfold Child
  cases (s.heap p).Children with
  | none => simp
  | some l => simp

theorem child_addParent {s : State} {p tp : Nat} (hne : p ≠ tp) {q c : Nat}
    (hc : Child (addParent s p tp) q c) :
    (q = p ∧ c = tp) ∨ (q = tp ∧ Child s p c) ∨ (q ≠ p ∧ q ≠ tp ∧ Child s q c) := by
  obtain ⟨l, hl, hc⟩ := hc
  rw [addParent_Children s hne] at hl
  by_cases e1 : q = p
  · subst e1
    simp only [if_true, Option.some.injEq] at hl
    subst hl
    simp only [List.mem_singleton] at hc
    exact Or.inl ⟨rfl, hc⟩
  · by_cases e2 : q = tp
    · subst e2
      simp only [e1, if_false, if_true] at hl
      exact Or.inr (Or.inl ⟨rfl, l, hl, hc⟩)
    · simp only [e1, e2, if_false] at hl
      exact Or.inr (Or.inr ⟨e1, e2, l, hl, hc⟩)

/-- Parent mode keeps the invariant: `tp` is the registered new topic with parent `p`. -/
theorem inv_addParent {env : Env} {s : State} (h : Inv env s) {p tp : Nat} (hp3 : 3 ≤ p)
    (hpn : p < s.next) (htp3 : 3 ≤ tp) (htpn : tp < s.next)
    (hch : (s.heap tp).Children = none) (hno : ∀ q, ¬ Child s q tp)
    (hpar : (s.heap tp).parent = some p) (hidx : mapGet s.res (s.heap tp).ID = some tp) :
    Inv env (addParent s p tp) := by
  obtain ⟨rk, hrk⟩ := h.rank
  have hne : p ≠ tp := by
    obtain ⟨q0, hq0, -, -, -, hqt⟩ := h.node_par tp htp3 htpn
    rw [hpar] at hq0; cases hq0; exact hqt
  have hK : ∀ c, c ∈ (s.heap p).Children.getD [] → 3 ≤ c ∧ c < s.next ∧ c ≠ tp := by
    intro c hc
    rw [mem_getD_children] at hc
    obtain ⟨a, b, -, -⟩ := h.ch_mem p c hc
    exact ⟨a, b, fun e => hno p (e ▸ hc)⟩
  have hnotK : ∀ c, c < 3 → c ∉ (s.heap p).Children.getD [] := by
    intro c hc hm
    have := (hK c hm).1
    omega
  refine
    { next_ge := by rw [addParent_next]; exact h.next_ge
      idc_eq := by rw [addParent_next, addParent_idc]; exact h.idc_eq
      len_ne0 := h.len_ne0
      len_ne4 := h.len_ne4
      id_len := by rw [addParent_idc]; exact h.id_len
      id_inj := by rw [addParent_idc]; exact h.id_inj
      res_root := by rw [addParent_res]; exact h.res_root
      res_cent := by rw [addParent_res]; exact h.res_cent
      res_incr := by rw [addParent_res]; exact h.res_incr
      res_last := by rw [addParent_res, addParent_next]; exact h.res_last
      res_id := ?_
      root_par := by
        rw [addParent_parent s hne, if_neg (hnotK 0 (by omega))]; exact h.root_par
      root_topic := by rw [addParent_RootTopic s hne]; exact h.root_topic
      root_ch := by
        rw [addParent_Children s hne, if_neg (by omega), if_neg (by omega)]; exact h.root_ch
      root_res := by rw [addParent_resources s hne]; exact h.root_res
      cent_par := by
        rw [addParent_parent s hne, if_neg (hnotK 1 (by omega))]; exact h.cent_par
      cent_res := by rw [addParent_resources s hne]; exact h.cent_res
      hold_par := by
        rw [addParent_parent s hne, if_neg (hnotK 2 (by omega))]; exact h.hold_par
      hold_ch := by
        rw [addParent_Children s hne, if_neg (by omega), if_neg (by omega)]; exact h.hold_ch
      hold_res := by rw [addParent_resources s hne]; exact h.hold_res
      hold_incr := by rw [addParent_incr s hne]; exact h.hold_incr
      node_id := ?_
      node_res := ?_
      node_par := ?_
      ch_nodup := ?_
      ch_mem := ?_
      rank := ⟨fun q => if q = tp then 2 * rk p else 2 * rk q + 1, ?_⟩ }
  · intro k t hk
    rw [addParent_res] at hk
    rw [addParent_ID s hne, addParent_next]
    exact h.res_id k t hk
  · intro q h3 hq
    rw [addParent_next] at hq
    rw [addParent_ID s hne]; exact h.node_id q h3 hq
  · intro q h3 hq
    rw [addParent_next] at hq
    rw [addParent_resources s hne]; exact h.node_res q h3 hq
  · intro q h3 hq
    rw [addParent_next] at hq ⊢
    rw [addParent_parent s hne]
    split_ifs with e
    · exact ⟨tp, rfl, by omega, htpn, by omega, Ne.symm (hK q e).2.2⟩
    · exact h.node_par q h3 hq
  · intro q l hl
    rw [addParent_Children s hne] at hl
    by_cases e1 : q = p
    · subst e1
      simp only [if_true, Option.some.injEq] at hl
      subst hl
      simp
    · by_cases e2 : q = tp
      · subst e2
        simp only [e1, if_false, if_true] at hl
        exact h.ch_nodup p l hl
      · simp only [e1, e2, if_false] at hl
        exact h.ch_nodup q l hl
  · intro q c hc
    rw [addParent_next, addParent_parent s hne, addParent_ID s hne, addParent_res]
    rcases child_addParent hne hc with ⟨rfl, rfl⟩ | ⟨rfl, hc1⟩ | ⟨e1, e2, hc1⟩
    · rw [if_neg (fun hm => (hK c hm).2.2 rfl)]
      exact ⟨htp3, htpn, hpar, hidx⟩
    · rw [if_pos (mem_getD_children.2 hc1)]
      obtain ⟨a, b, -, d⟩ := h.ch_mem p c hc1
      exact ⟨a, b, rfl, d⟩
    · obtain ⟨a, b, c1, d⟩ := h.ch_mem q c hc1
      rw [if_neg]
      · exact ⟨a, b, c1, d⟩
      · intro hm
        rw [mem_getD_children] at hm
        obtain ⟨-, -, c2, -⟩ := h.ch_mem p c hm
        rw [c1] at c2
        exact e1 (Option.some.inj c2)
  · intro q c hc
    rcases child_addParent hne hc with ⟨rfl, rfl⟩ | ⟨rfl, hc1⟩ | ⟨e1, e2, hc1⟩
    · simp only [if_true, hne, if_false]; omega
    · have hct : c ≠ q := fun e => hno p (e ▸ hc1)
      simp only [hct, if_false, if_true]
      have := hrk p c hc1
      omega
    · have hct : c ≠ tp := fun e => hno q (e ▸ hc1)
      simp only [hct, e2, if_false]
      have := hrk q c hc1
      omega

/-! ### Sibling modes -/

theorem last_occurrence (P : Nat → Prop) (l : List Nat) :
    (∀ c ∈ l, ¬ P c) ∨ ∃ pre b post, l = pre ++ b :: post ∧ P b ∧ ∀ c ∈ post, ¬ P c := by
  induction l with
  | nil => left; simp
  | cons a l ih =>
    rcases ih with ih | ⟨pre, b, post, e, hb, hpost⟩
    · by_cases ha : P a
      · right; exact ⟨[], a, l, rfl, ha, ih⟩
      · left
        intro c hc
        rcases List.mem_cons.1 hc with rfl | hc
        · exact ha
        · exact ih c hc
    · right
      exact ⟨a :: pre, b, post, by rw [e]; rfl, hb, hpost⟩

theorem beforeLoop_perm (heap : Nat → Topic) (id : TopicID) (l : List Nat) (x : Nat) :
    (beforeLoop heap id ((l ++ [x]).length - 1) (l ++ [x])).Perm (x :: l) := by
  have e0 : (l ++ [x]).length - 1 = l.length := by simp
  rw [e0]
  rcases last_occurrence (fun c => (heap c).ID = id) l with hn | ⟨pre, b, post, e, hb, hpost⟩
  · rw [beforeLoop_front heap id x l [] hn]
    simp
  · subst e
    have e1 : (pre ++ b :: post).length = pre.length + 1 + post.length := by simp; omega
    have e2 : pre ++ b :: post ++ [x] = pre ++ b :: (post ++ x :: []) := by simp
    rw [e1, e2, beforeLoop_spec heap id pre b x hb post [] hpost]
    simp only [List.append_nil]
    exact List.perm_middle

theorem afterLoop_perm (heap : Nat → Topic) (id : TopicID) (l : List Nat) (x : Nat) :
    (afterLoop heap id ((l ++ [x]).length - 1) (l ++ [x])).Perm (x :: l) := by
  have e0 : (l ++ [x]).length - 1 = l.length := by simp
  rw [e0]
  rcases last_occurrence (fun c => (heap c).ID = id) l with hn | ⟨pre, b, post, e, hb, hpost⟩
  · rw [afterLoop_front heap id x l [] hn]
    simp
  · subst e
    have e1 : (pre ++ b :: post).length = pre.length + 1 + post.length := by simp; omega
    have e2 : pre ++ b :: post ++ [x] = pre ++ b :: (post ++ x :: []) := by simp
    rw [e1, e2, afterLoop_spec heap id pre b x hb post [] hpost]
    simp only [List.append_nil]
    have : pre ++ b :: x :: post = (pre ++ [b]) ++ x :: post := by simp
    rw [this]
    have h2 : pre ++ b :: post = (pre ++ [b]) ++ post := by simp
    rw [h2]
    exact List.perm_middle

/-- What `Add` leaves behind when it reaches line 154: the receiver has a parent. -/
theorem Add_some_eq (env : Env) (s : State) (p : Nat) (title : String) (modes : List AddMode)
    {par : Nat} (hpar : (s.heap p).parent = some par) :
    Add env s (some p) title modes =
      match autoTitle s p title with
      | none => none
      | some (s1, title1) =>
        match allocTopic env s1 p title1 with
        | none => none
        | some s2 =>
          if modes.headD SubMode = SubMode ∨ lookup s2 p CentKey = some p then
            some (addSub s2 p s1.next, some p)
          else if modes.headD SubMode = ParentMode then some (addParent s2 p s1.next, some s1.next)
          else some (addSibling s2 p s1.next par (modes.headD SubMode), some p) := by
  unfold Add
  simp only [hpar]
  cases modes <;> rfl

/-- A receiver with a parent link is the central topic or a created topic. -/
theorem Inv.recv_of_parent {env : Env} {s : State} (h : Inv env s) {p par : Nat}
    (hp : p < s.next) (hpar : (s.heap p).parent = some par) :
    1 ≤ p ∧ p ≠ 2 ∧ (s.heap p).resources = true ∧ 1 ≤ par + 1 ∧ par < s.next := by
  have h0 : p ≠ 0 := by rintro rfl; rw [h.root_par] at hpar; cases hpar
  have h2 : p ≠ 2 := by rintro rfl; rw [h.hold_par] at hpar; cases hpar
  refine ⟨by omega, h2, ?_, by omega, ?_⟩
  · by_cases e : p = 1
    · subst e; exact h.cent_res
    · exact h.node_res p (by omega) hp
  · by_cases e : p = 1
    · subst e; rw [h.cent_par] at hpar; cases hpar; have := h.next_ge; omega
    · obtain ⟨q, hq, -, hqn, -, -⟩ := h.node_par p (by omega) hp
      rw [hpar] at hq; cases hq; exact hqn

/-- Facts about the topic that lines 154-156 have just created. -/
theorem allocState_new {env : Env} {s : State} (h : Inv env s) (p : Nat) (title : String) :
    3 ≤ s.next ∧ s.next < (allocState env s p title).next ∧
    ((allocState env s p title).heap s.next).Children = none ∧
    (∀ q, ¬ Child (allocState env s p title) q s.next) ∧
    ((allocState env s p title).heap s.next).parent = some p ∧
    mapGet (allocState env s p title).res ((allocState env s p title).heap s.next).ID
      = some s.next := by
  refine ⟨h.next_ge, by simp [allocState], by simp [allocState], ?_, by simp [allocState], ?_⟩
  · intro q hc
    have := (h.ch_mem q s.next (child_allocState hc).2).2.1
    omega
  · simp [allocState, mapGet_mapSet_same]

theorem inv_addSub {env : Env} {s : State} (h : Inv env s) {p tp : Nat} (htp3 : 3 ≤ tp)
    (htpn : tp < s.next) (hch : (s.heap tp).Children = none) (hno : ∀ q, ¬ Child s q tp)
    (hpar : (s.heap tp).parent = some p) (hidx : mapGet s.res (s.heap tp).ID = some tp)
    (hp0 : p ≠ 0) : Inv env (addSub s p tp) := by
  unfold addSub
  cases hl : (s.heap p).Children with
  | none =>
    refine inv_attach h htp3 htpn hch hno hpar hidx hp0 ?_ (by simp)
    intro c
    simp only [List.mem_singleton, Child, hl]
    simp
  | some l =>
    refine inv_attach h htp3 htpn hch hno hpar hidx hp0 ?_ ?_
    · intro c
      simp only [List.mem_append, List.mem_singleton, Child, hl, Option.some.injEq,
        exists_eq_left']
      tauto
    · rw [List.nodup_append]
      refine ⟨(h.ch_nodup p l hl).1, by simp, ?_⟩
      intro a ha hb
      simp only [List.mem_singleton] at hb
      subst hb
      exact hno p ⟨l, hl, ha⟩

theorem inv_addSibling {env : Env} {s : State} (h : Inv env s) {p tp par : Nat}
    (hp3 : 3 ≤ p) (hpn : p < s.next) (hppar : (s.heap p).parent = some par)
    (htp3 : 3 ≤ tp) (htpn : tp < s.next) (hpt : par ≠ tp)
    (hch : (s.heap tp).Children = none) (hno : ∀ q, ¬ Child s q tp)
    (hidx : mapGet s.res (s.heap tp).ID = some tp) (mode : AddMode) :
    Inv env (addSibling s p tp par mode) := by
  obtain ⟨q, hq, hq1, hqn, hq2, hqp⟩ := h.node_par p hp3 hpn
  rw [hppar] at hq; cases hq
  have h1 : Inv env (s.setParent tp (some par)) :=
    inv_setParent_detached h htp3 hno hq1 hqn hq2 hpt
  have hch1 : ((s.setParent tp (some par)).heap tp).Children = none := by
    rw [setParent_Children]; exact hch
  have hno1 : ∀ q, ¬ Child (s.setParent tp (some par)) q tp := by
    rintro q ⟨l, hl, hc⟩
    rw [setParent_Children] at hl
    exact hno q ⟨l, hl, hc⟩
  have hpar1 : ((s.setParent tp (some par)).heap tp).parent = some par := by
    rw [setParent_parent, if_pos rfl]
  have hidx1 : mapGet (s.setParent tp (some par)).res ((s.setParent tp (some par)).heap tp).ID
      = some tp := by
    rw [setParent_ID]; exact hidx
  have hp0 : par ≠ 0 := by omega
  have hperm : ∀ l l1 : List Nat, ((s.setParent tp (some par)).heap par).Children = some l →
      l1.Perm (tp :: l) → Inv env ((s.setParent tp (some par)).setChildren par (some l1)) := by
    intro l l1 hl hp
    refine inv_attach h1 htp3 htpn hch1 hno1 hpar1 hidx1 hp0 ?_ ?_
    · intro c
      rw [hp.mem_iff]
      simp only [List.mem_cons, Child, hl, Option.some.injEq, exists_eq_left']
    · rw [hp.nodup_iff, List.nodup_cons]
      exact ⟨fun hm => hno1 par ⟨l, hl, hm⟩, (h1.ch_nodup par l hl).1⟩
  unfold addSibling
  simp only [hppar]
  cases hl : ((s.setParent tp (some par)).heap par).Children with
  | none =>
    refine inv_attach h1 htp3 htpn hch1 hno1 hpar1 hidx1 hp0 ?_ (by simp)
    intro c
    simp only [List.mem_singleton, Child, hl]
    simp
  | some l =>
    simp only []
    split_ifs
    · exact hperm l _ hl (beforeLoop_perm _ _ l tp)
    · exact hperm l _ hl (afterLoop_perm _ _ l tp)
    · exact h1

/-- `Add` keeps the invariant. -/
theorem inv_Add {env : Env} {s s1 : State} {r : Option Nat} (h : Inv env s)
    {st : Option Nat} (hst : Recv s st) (hid : FreshId env s.idc) {title : String}
    {modes : List AddMode} (e : Add env s st title modes = some (s1, r)) : Inv env s1 := by
  cases st with
  | none =>
    simp only [Add, Option.some.injEq, Prod.mk.injEq] at e
    rw [← e.1]; exact h
  | some p =>
    have hpn : p < s.next := hst
    cases hpar : (s.heap p).parent with
    | none =>
      simp only [Add, hpar, Option.some.injEq, Prod.mk.injEq] at e
      rw [← e.1]; exact h
    | some par =>
      rw [Add_some_eq env s p title modes hpar] at e
      obtain ⟨sa, t1, ha, -⟩ := autoTitle_isSome h p title
      rw [ha] at e
      simp only [] at e
      have hsh := autoTitle_sameShape ha
      have hA : Inv env sa := inv_of_sameShape h hsh
      have hpn1 : p < sa.next := by rw [hsh.next_eq]; exact hpn
      have hpar1 : (sa.heap p).parent = some par := by rw [hsh.par_eq]; exact hpar
      obtain ⟨hp1, hp2, hpr, -, hparn⟩ := hA.recv_of_parent hpn1 hpar1
      rw [allocTopic_eq env sa p t1 hpr] at e
      simp only [] at e
      have hid1 : FreshId env sa.idc := by rw [hsh.idc_eq]; exact hid
      have hB : Inv env (allocState env sa p t1) := inv_allocState hA hid1 hp1 hpn1 hp2 t1
      obtain ⟨n3, nn, nch, nno, npar, nidx⟩ := allocState_new hA p t1
      have hlook : lookup (allocState env sa p t1) p CentKey = some 1 := by
        have hr : ((allocState env sa p t1).heap p).resources = true := by
          have : p ≠ sa.next := by omega
          simp only [allocState, this, if_false]; exact hpr
        simp only [lookup, hr, if_true]
        exact hB.res_cent
      split_ifs at e with c1 c2
      · simp only [Option.some.injEq, Prod.mk.injEq] at e
        rw [← e.1]
        exact inv_addSub hB n3 nn nch nno npar nidx (by omega)
      · simp only [Option.some.injEq, Prod.mk.injEq] at e
        rw [← e.1]
        have hp3 : 3 ≤ p := by
          by_contra hlt
          have : p = 1 := by omega
          subst this
          exact c1 (Or.inr hlook)
        exact inv_addParent hB hp3 (by omega) n3 nn nch nno npar nidx
      · simp only [Option.some.injEq, Prod.mk.injEq] at e
        rw [← e.1]
        have hp3 : 3 ≤ p := by
          by_contra hlt
          have : p = 1 := by omega
          subst this
          exact c1 (Or.inr hlook)
        have hpar2 : ((allocState env sa p t1).heap p).parent = some par := by
          have : p ≠ sa.next := by omega
          simp only [allocState, this, if_false]; exact hpar1
        exact inv_addSibling hB hp3 (by omega) hpar2 n3 nn (by omega) nch nno nidx _

/-! ## Cascading removal -/

theorem Topic.clear_eq (t : Topic) (h : t.Children = none) : { t with Children := none } = t := by
  cases t; simp only [Topic.mk.injEq] at h ⊢; simp_all

theorem Purged.id_eq {s s1 : State} {C D : Nat → Prop} (h : Purged s s1 C D) (q : Nat) : (s1.heap q).ID = (s.heap q).ID := by
  by_cases c : C q
  · rw [h.heap_in q c]
  · rw [h.heap_out q c]

theorem Purged.resources_eq {s s1 : State} {C D : Nat → Prop} (h : Purged s s1 C D) (q : Nat) :
    (s1.heap q).resources = (s.heap q).resources := by
  by_cases c : C q
  · rw [h.heap_in q c]
  · rw [h.heap_out q c]

theorem Purged.parent_eq {s s1 : State} {C D : Nat → Prop} (h : Purged s s1 C D) (q : Nat) : (s1.heap q).parent = (s.heap q).parent := by
  by_cases c : C q
  · rw [h.heap_in q c]
  · rw [h.heap_out q c]

theorem Purged.rootTopic_eq {s s1 : State} {C D : Nat → Prop} (h : Purged s s1 C D) (q : Nat) :
    (s1.heap q).RootTopic = (s.heap q).RootTopic := by
  by_cases c : C q
  · rw [h.heap_in q c]
  · rw [h.heap_out q c]

theorem Purged.incr_eq {s s1 : State} {C D : Nat → Prop} (h : Purged s s1 C D) (q : Nat) : (s1.heap q).incr = (s.heap q).incr := by
  by_cases c : C q
  · rw [h.heap_in q c]
  · rw [h.heap_out q c]

theorem Purged.title_eq {s s1 : State} {C D : Nat → Prop} (h : Purged s s1 C D) (q : Nat) : (s1.heap q).Title = (s.heap q).Title := by
  by_cases c : C q
  · rw [h.heap_in q c]
  · rw [h.heap_out q c]

theorem Purged.children_in {s s1 : State} {C D : Nat → Prop} (h : Purged s s1 C D) {q : Nat} (c : C q) : (s1.heap q).Children = none := by
  rw [h.heap_in q c]

theorem Purged.children_out {s s1 : State} {C D : Nat → Prop} (h : Purged s s1 C D) {q : Nat} (c : ¬ C q) :
    (s1.heap q).Children = (s.heap q).Children := by
  rw [h.heap_out q c]

theorem Purged.child_old {s s1 : State} {C D : Nat → Prop} (h : Purged s s1 C D) {q c : Nat} (hc : Child s1 q c) :
    Child s q c ∧ ¬ C q := by
  obtain ⟨l, hl, hm⟩ := hc
  by_cases c1 : C q
  · rw [h.children_in c1] at hl; cases hl
  · rw [h.children_out c1] at hl; exact ⟨⟨l, hl, hm⟩, c1⟩

theorem Purged.child_new {s s1 : State} {C D : Nat → Prop} (h : Purged s s1 C D) {q c : Nat} (hc : Child s q c) (c1 : ¬ C q) :
    Child s1 q c := by
  obtain ⟨l, hl, hm⟩ := hc
  exact ⟨l, by rw [h.children_out c1]; exact hl, hm⟩

theorem Purged.inSubtree_old {s s1 : State} {C D : Nat → Prop} (h : Purged s s1 C D) {r q : Nat} (hq : InSubtree s1 r q) :
    InSubtree s r q :=
  Relation.ReflTransGen.mono (fun _ _ hc => (h.child_old hc).1) hq

/-- A path of `s` survives in `s1` unless it runs through a cleared topic. -/
theorem Purged.inSubtree_new {s s1 : State} {C D : Nat → Prop} (h : Purged s s1 C D) {r q : Nat} (hq : InSubtree s r q) :
    InSubtree s1 r q ∨ ∃ m, C m ∧ InSubtree s m q := by
  induction hq with
  | refl => exact Or.inl Relation.ReflTransGen.refl
  | tail hrm hmq ih =>
    rename_i m q
    rcases ih with ih | ⟨m1, hm1, hm2⟩
    · by_cases c : C m
      · exact Or.inr ⟨m, c, Relation.ReflTransGen.single hmq⟩
      · exact Or.inl (Relation.ReflTransGen.tail ih (h.child_new hmq c))
    · exact Or.inr ⟨m1, hm1, Relation.ReflTransGen.tail hm2 hmq⟩

theorem Purged.congr {s s1 : State} {C D C1 D1 : Nat → Prop} (h : Purged s s1 C D) (hC : ∀ q, C q ↔ C1 q) (hD : ∀ q, D q ↔ D1 q) :
    Purged s s1 C1 D1 where
  next_eq := h.next_eq
  idc_eq := h.idc_eq
  heap_in := fun q c => h.heap_in q ((hC q).2 c)
  heap_out := fun q c => h.heap_out q (fun c1 => c ((hC q).1 c1))
  res_in := fun k ⟨d, hd, e⟩ => h.res_in k ⟨d, (hD d).2 hd, e⟩
  res_out := fun k hk => h.res_out k (fun ⟨d, hd, e⟩ => hk ⟨d, (hD d).1 hd, e⟩)

theorem Purged.trans {s s1 s2 : State} {C1 D1 C2 D2 : Nat → Prop} (h : Purged s s1 C1 D1) (h2 : Purged s1 s2 C2 D2) :
    Purged s s2 (fun q => C1 q ∨ C2 q) (fun q => D1 q ∨ D2 q) where
  next_eq := by rw [h2.next_eq, h.next_eq]
  idc_eq := by rw [h2.idc_eq, h.idc_eq]
  heap_in := by
    intro q hq
    by_cases c2 : C2 q
    · rw [h2.heap_in q c2]
      by_cases c1 : C1 q
      · rw [h.heap_in q c1]
      · rw [h.heap_out q c1]
    · have c1 : C1 q := hq.resolve_right c2
      rw [h2.heap_out q c2, h.heap_in q c1]
  heap_out := by
    intro q hq
    rw [h2.heap_out q (fun c => hq (Or.inr c)), h.heap_out q (fun c => hq (Or.inl c))]
  res_in := by
    rintro k ⟨d, hd, e⟩
    by_cases e2 : ∃ d, D2 d ∧ (s1.heap d).ID = k
    · exact h2.res_in k e2
    · rw [h2.res_out k e2]
      rcases hd with hd | hd
      · exact h.res_in k ⟨d, hd, e⟩
      · exact absurd ⟨d, hd, by rw [h.id_eq]; exact e⟩ e2
  res_out := by
    intro k hk
    rw [h2.res_out k, h.res_out k]
    · rintro ⟨d, hd, e⟩; exact hk ⟨d, Or.inl hd, e⟩
    · rintro ⟨d, hd, e⟩; exact hk ⟨d, Or.inr hd, by rw [← h.id_eq]; exact e⟩

theorem Purged.hasRes_of {s s1 : State} {C D : Nat → Prop} (h : Purged s s1 C D) (hr : HasRes s) : HasRes s1 := by
  intro q c hc
  rw [h.resources_eq]
  exact hr q c (h.child_old hc).1

theorem Purged.rankOK_of {s s1 : State} {C D : Nat → Prop} (h : Purged s s1 C D) {rk : Nat → Nat} (hr : RankOK rk s) : RankOK rk s1 :=
  fun p c hc => hr p c (h.child_old hc).1


theorem purged_refl (s : State) : Purged s s (fun _ => False) (fun _ => False) where
  next_eq := rfl
  idc_eq := rfl
  heap_in := fun _ c => c.elim
  heap_out := fun _ _ => rfl
  res_in := fun _ ⟨_, hd, _⟩ => hd.elim
  res_out := fun _ _ => rfl

theorem purged_delRes (s : State) (p tp : Nat) (hr : (s.heap p).resources = true) :
    Purged s (delRes s p (s.heap tp).ID) (fun _ => False) (fun d => d = tp) where
  next_eq := by simp [delRes, hr]
  idc_eq := by simp [delRes, hr]
  heap_in := fun _ c => c.elim
  heap_out := fun _ _ => by simp [delRes, hr]
  res_in := by
    rintro k ⟨d, rfl, e⟩
    subst e
    simp only [delRes, hr, if_true]
    exact mapGet_mapDel_same _ _
  res_out := by
    intro k hk
    have : k ≠ (s.heap tp).ID := fun e => hk ⟨tp, rfl, e.symm⟩
    simp only [delRes, hr, if_true]
    exact mapGet_mapDel_ne _ this

theorem purged_setChildren_none (s : State) (p : Nat) :
    Purged s (s.setChildren p none) (fun q => q = p) (fun _ => False) where
  next_eq := rfl
  idc_eq := rfl
  heap_in := by rintro q rfl; simp
  heap_out := by intro q hq; simp [hq]
  res_in := fun _ ⟨_, hd, _⟩ => hd.elim
  res_out := fun _ _ => rfl

theorem inSubtree_iff_head {s : State} {p q : Nat} :
    InSubtree s p q ↔ q = p ∨ Descendant s p q := by
  constructor
  · intro h
    rcases Relation.ReflTransGen.cases_head h with e | ⟨c, hc, hq⟩
    · exact Or.inl e.symm
    · exact Or.inr ⟨c, hc, hq⟩
  · rintro (rfl | ⟨c, hc, hq⟩)
    · exact Relation.ReflTransGen.refl
    · exact Relation.ReflTransGen.head hc hq

theorem descendant_iff_below {s : State} {p : Nat} {l : List Nat}
    (hl : (s.heap p).Children = some l) (q : Nat) : Descendant s p q ↔ Below s l q := by
  constructor
  · rintro ⟨c, ⟨l1, hl1, hc⟩, hq⟩
    rw [hl] at hl1; cases hl1
    exact ⟨c, hc, hq⟩
  · rintro ⟨c, hc, hq⟩
    exact ⟨c, ⟨l, hl, hc⟩, hq⟩

theorem descendant_none {s : State} {p : Nat} (hl : (s.heap p).Children = none) (q : Nat) :
    ¬ Descendant s p q := by
  rintro ⟨c, ⟨l1, hl1, hc⟩, hq⟩
  rw [hl] at hl1; cases hl1

theorem child_congr {s t : State} (h : ∀ q, (t.heap q).Children = (s.heap q).Children)
    (p c : Nat) : Child t p c ↔ Child s p c := by
  unfold Child; rw [h]

theorem inSubtree_congr {s t : State} (h : ∀ q, (t.heap q).Children = (s.heap q).Children)
    (p c : Nat) : InSubtree t p c ↔ InSubtree s p c := by
  have : Child t = Child s := by
    funext a b; exact propext (child_congr h a b)
  unfold InSubtree; rw [this]

/-- The loop of `RemoveChildren`, given the specification of the recursive calls. -/
theorem removeChildren_loop (fuel : Nat) (p : Nat)
    (IH : ∀ (s : State) (q : Nat) (s1 : State), HasRes s →
      RemoveChildren fuel s (some q) = some s1 →
      Purged s s1 (InSubtree s q) (Descendant s q)) :
    ∀ (l : List Nat) (s s1 : State), HasRes s → (l ≠ [] → (s.heap p).resources = true) →
      l.foldlM (fun a tp => RemoveChildren fuel (delRes a p (a.heap tp).ID) (some tp)) s
        = some s1 →
      Purged s s1 (Below s l) (Below s l) := by
  intro l
  induction l with
  | nil =>
    intro s s1 _ _ e
    simp only [List.foldlM_nil, Option.pure_def, Option.some.injEq] at e
    subst e
    exact (purged_refl s).congr (fun q => by simp [Below]) (fun q => by simp [Below])
  | cons tp l ih =>
    intro s s1 hres hp e
    have hpr := hp (by simp)
    simp only [List.foldlM_cons, Option.bind_eq_bind] at e
    cases h2 : RemoveChildren fuel (delRes s p (s.heap tp).ID) (some tp) with
    | none => rw [h2] at e; cases e
    | some a2 =>
      rw [h2] at e
      simp only [Option.some_bind] at e
      have pd := purged_delRes s p tp hpr
      have hsame : ∀ q, ((delRes s p (s.heap tp).ID).heap q).Children = (s.heap q).Children :=
        fun q => by rw [pd.heap_out q (fun c => c)]
      have p2 := IH _ tp a2 (pd.hasRes_of hres) h2
      have p02 : Purged s a2 (InSubtree s tp) (InSubtree s tp) := by
        refine (pd.trans p2).congr ?_ ?_
        · intro q
          simp only [false_or]
          exact inSubtree_congr hsame tp q
        · intro q
          rw [@inSubtree_iff_head s tp q]
          unfold Descendant
          simp only [child_congr hsame, inSubtree_congr hsame]
      have hres2 := p02.hasRes_of hres
      have p3 := ih a2 s1 hres2 (fun _ => by rw [p02.resources_eq]; exact hpr) e
      refine (p02.trans p3).congr ?_ ?_ <;>
      · intro q
        constructor
        · rintro (h | ⟨r, hr, hq⟩)
          · exact ⟨tp, by simp, h⟩
          · exact ⟨r, by simp [hr], p02.inSubtree_old hq⟩
        · rintro ⟨r, hr, hq⟩
          rcases List.mem_cons.1 hr with rfl | hr
          · exact Or.inl hq
          · rcases p02.inSubtree_new hq with h | ⟨m, hm, hmq⟩
            · exact Or.inr ⟨r, hr, h⟩
            · exact Or.inl (Relation.ReflTransGen.trans hm hmq)

/-- What `RemoveChildren` does: the child lists of the whole subtree of `p` are cleared and
the identifiers of all proper descendants of `p` leave the index; nothing else changes. -/
theorem RemoveChildren_spec : ∀ (fuel : Nat) (s : State) (p : Nat) (s1 : State), HasRes s →
    RemoveChildren fuel s (some p) = some s1 →
    Purged s s1 (InSubtree s p) (Descendant s p) := by
  intro fuel
  induction fuel with
  | zero => intro s p s1 _ e; simp [RemoveChildren] at e
  | succ fuel IH =>
    intro s p s1 hres e
    simp only [RemoveChildren] at e
    cases hl : (s.heap p).Children with
    | none =>
      rw [hl] at e
      simp only [Option.some.injEq] at e
      subst e
      refine
        { next_eq := rfl, idc_eq := rfl, heap_in := ?_, heap_out := fun _ _ => rfl,
          res_in := ?_, res_out := fun _ _ => rfl }
      · intro q hq
        rcases inSubtree_iff_head.1 hq with rfl | hd
        · exact (Topic.clear_eq _ hl).symm
        · exact absurd hd (descendant_none hl q)
      · rintro k ⟨d, hd, -⟩
        exact absurd hd (descendant_none hl d)
    | some l =>
      rw [hl] at e
      simp only [] at e
      cases h2 : l.foldlM
          (fun a tp => RemoveChildren fuel (delRes a p (a.heap tp).ID) (some tp)) s with
      | none => rw [h2] at e; cases e
      | some a =>
        rw [h2] at e
        simp only [Option.some.injEq] at e
        subst e
        have hpr : l ≠ [] → (s.heap p).resources = true := by
          intro hne
          obtain ⟨c, hc⟩ := List.exists_mem_of_ne_nil l hne
          exact hres p c ⟨l, hl, hc⟩
        have p1 := removeChildren_loop fuel p IH l s a hres hpr h2
        refine (p1.trans (purged_setChildren_none a p)).congr ?_ ?_
        · intro q
          rw [@inSubtree_iff_head s p q, descendant_iff_below hl]
          tauto
        · intro q
          rw [descendant_iff_below hl]
          tauto

theorem delRes_heap (s : State) (p : Nat) (k : TopicID) : (delRes s p k).heap = s.heap := by
  unfold delRes; split_ifs <;> rfl

theorem delRes_next (s : State) (p : Nat) (k : TopicID) : (delRes s p k).next = s.next := by
  unfold delRes; split_ifs <;> rfl

theorem delRes_idc (s : State) (p : Nat) (k : TopicID) : (delRes s p k).idc = s.idc := by
  unfold delRes; split_ifs <;> rfl

theorem hasRes_congr {s t : State} (h : t.heap = s.heap) (hr : HasRes s) : HasRes t := by
  intro q c hc
  unfold Child at hc
  rw [h] at hc ⊢
  exact hr q c hc

theorem rankOK_congr {s t : State} {rk : Nat → Nat} (h : t.heap = s.heap) (hr : RankOK rk s) :
    RankOK rk t := by
  intro q c hc
  unfold Child at hc
  rw [h] at hc
  exact hr q c hc

/-- `RemoveChildren` returns as soon as the recursion budget exceeds the rank of the
receiver. -/
theorem RemoveChildren_terminates (rk : Nat → Nat) : ∀ (fuel : Nat) (s : State) (p : Nat),
    RankOK rk s → HasRes s → rk p < fuel → ∃ s1, RemoveChildren fuel s (some p) = some s1 := by
  intro fuel
  induction fuel with
  | zero => intro s p _ _ h; omega
  | succ fuel IH =>
    intro s p hrk hres hlt
    simp only [RemoveChildren]
    cases hl : (s.heap p).Children with
    | none => exact ⟨s, rfl⟩
    | some l =>
      simp only []
      have loop : ∀ (l1 : List Nat) (a : State), RankOK rk a → HasRes a →
          (∀ tp ∈ l1, rk tp < fuel) →
          ∃ a1, l1.foldlM
            (fun a tp => RemoveChildren fuel (delRes a p (a.heap tp).ID) (some tp)) a
              = some a1 := by
        intro l1
        induction l1 with
        | nil => intro a _ _ _; exact ⟨a, rfl⟩
        | cons tp l1 ih =>
          intro a hrka hresa hall
          have hrk1 : RankOK rk (delRes a p (a.heap tp).ID) :=
            rankOK_congr (delRes_heap _ _ _) hrka
          have hres1 : HasRes (delRes a p (a.heap tp).ID) :=
            hasRes_congr (delRes_heap _ _ _) hresa
          obtain ⟨a2, h2⟩ := IH _ tp hrk1 hres1 (hall tp (by simp))
          have p2 := RemoveChildren_spec fuel _ tp a2 hres1 h2
          obtain ⟨a3, h3⟩ := ih a2 (p2.rankOK_of hrk1) (p2.hasRes_of hres1)
            (fun t ht => hall t (by simp [ht]))
          refine ⟨a3, ?_⟩
          simp only [List.foldlM_cons, Option.bind_eq_bind, h2, Option.some_bind]
          exact h3
      obtain ⟨a1, h1⟩ := loop l s hrk hres (fun tp ht => by
        have := hrk p tp ⟨l, hl, ht⟩
        omega)
      rw [h1]
      exact ⟨_, rfl⟩

theorem Inv.hasRes {env : Env} {s : State} (h : Inv env s) : HasRes s := by
  intro q c hc
  obtain ⟨c3, cn, cp, -⟩ := h.ch_mem q c hc
  obtain ⟨q1, hq1, a, b, _, _⟩ := h.node_par c c3 cn
  rw [cp] at hq1; cases hq1
  exact (h.recv_of_parent cn cp |> fun _ => by
    by_cases e : q = 1
    · subst e; exact h.cent_res
    · have : q ≠ 2 := by assumption
      exact h.node_res q (by omega) b)

/-- Clearing child lists and deleting the identifiers of topics whose own parent list is
cleared keeps the invariant. -/
theorem inv_of_purged {env : Env} {s s1 : State} {C D : Nat → Prop} (h : Inv env s)
    (hp : Purged s s1 C D) (hD : ∀ d, D d → ∃ q, C q ∧ Child s q d) : Inv env s1 := by
  obtain ⟨rk, hrk⟩ := h.rank
  have hkeep : ∀ k, (k = rootKey ∨ k = CentKey ∨ k = lastKey ∨ k = incrKey) →
      mapGet s1.res k = mapGet s.res k := by
    intro k hk
    apply hp.res_out
    rintro ⟨d, hd, e⟩
    obtain ⟨q, -, hc⟩ := hD d hd
    obtain ⟨d3, dn, -, -⟩ := h.ch_mem q d hc
    have := h.node_not_sentinel d3 dn
    rw [e] at this
    rcases hk with rfl | rfl | rfl | rfl
    · exact this.1 rfl
    · exact this.2.1 rfl
    · exact this.2.2.1 rfl
    · exact this.2.2.2 rfl
  have hsub : ∀ k t, mapGet s1.res k = some t → mapGet s.res k = some t := by
    intro k t hk
    by_cases e : ∃ d, D d ∧ (s.heap d).ID = k
    · rw [hp.res_in k e] at hk; cases hk
    · rw [hp.res_out k e] at hk; exact hk
  have hch : ∀ q, (s.heap q).Children = none → (s1.heap q).Children = none := by
    intro q hq
    by_cases c : C q
    · exact hp.children_in c
    · rw [hp.children_out c]; exact hq
  refine
    { next_ge := by rw [hp.next_eq]; exact h.next_ge
      idc_eq := by rw [hp.next_eq, hp.idc_eq]; exact h.idc_eq
      len_ne0 := h.len_ne0
      len_ne4 := h.len_ne4
      id_len := by rw [hp.idc_eq]; exact h.id_len
      id_inj := by rw [hp.idc_eq]; exact h.id_inj
      res_root := by rw [hkeep _ (Or.inl rfl)]; exact h.res_root
      res_cent := by rw [hkeep _ (Or.inr (Or.inl rfl))]; exact h.res_cent
      res_incr := by rw [hkeep _ (Or.inr (Or.inr (Or.inr rfl)))]; exact h.res_incr
      res_last := by
        rw [hkeep _ (Or.inr (Or.inr (Or.inl rfl))), hp.next_eq]; exact h.res_last
      res_id := by
        intro k t hk
        rw [hp.next_eq, hp.id_eq]
        exact h.res_id k t (hsub k t hk)
      root_par := by rw [hp.parent_eq]; exact h.root_par
      root_topic := by rw [hp.rootTopic_eq]; exact h.root_topic
      root_ch := hch 0 h.root_ch
      root_res := by rw [hp.resources_eq]; exact h.root_res
      cent_par := by rw [hp.parent_eq]; exact h.cent_par
      cent_res := by rw [hp.resources_eq]; exact h.cent_res
      hold_par := by rw [hp.parent_eq]; exact h.hold_par
      hold_ch := hch 2 h.hold_ch
      hold_res := by rw [hp.resources_eq]; exact h.hold_res
      hold_incr := by rw [hp.incr_eq]; exact h.hold_incr
      node_id := by
        intro q h3 hq
        rw [hp.next_eq] at hq
        rw [hp.id_eq]; exact h.node_id q h3 hq
      node_res := by
        intro q h3 hq
        rw [hp.next_eq] at hq
        rw [hp.resources_eq]; exact h.node_res q h3 hq
      node_par := by
        intro q h3 hq
        rw [hp.next_eq] at hq ⊢
        rw [hp.parent_eq]; exact h.node_par q h3 hq
      ch_nodup := by
        intro q l hl
        by_cases c : C q
        · rw [hp.children_in c] at hl; cases hl
        · rw [hp.children_out c] at hl; exact h.ch_nodup q l hl
      ch_mem := by
        intro q c hc
        obtain ⟨hc0, hq⟩ := hp.child_old hc
        obtain ⟨c3, cn, cp, ci⟩ := h.ch_mem q c hc0
        rw [hp.next_eq, hp.parent_eq, hp.id_eq]
        refine ⟨c3, cn, cp, ?_⟩
        rw [hp.res_out]
        · exact ci
        · rintro ⟨d, hd, e⟩
          obtain ⟨q1, hq1, hc1⟩ := hD d hd
          obtain ⟨d3, dn, dp, -⟩ := h.ch_mem q1 d hc1
          have : d = c := h.node_id_inj d3 dn c3 cn e
          subst this
          rw [cp] at dp
          cases dp
          exact hq hq1
      rank := ⟨rk, hp.rankOK_of hrk⟩ }

theorem descendant_parent {s : State} {p d : Nat} (h : Descendant s p d) :
    ∃ q, InSubtree s p q ∧ Child s q d := by
  obtain ⟨c, hc, hd⟩ := h
  rcases Relation.ReflTransGen.cases_tail hd with e | ⟨m, hm, hmd⟩
  · subst e; exact ⟨p, Relation.ReflTransGen.refl, hc⟩
  · exact ⟨m, Relation.ReflTransGen.head hc hm, hmd⟩

/-- `RemoveChildren` keeps the invariant. -/
theorem inv_RemoveChildren {env : Env} {s s1 : State} (h : Inv env s) {fuel : Nat}
    {st : Option Nat} (e : RemoveChildren fuel s st = some s1) : Inv env s1 := by
  cases st with
  | none =>
    cases fuel with
    | zero => simp [RemoveChildren] at e
    | succ fuel =>
      simp only [RemoveChildren, Option.some.injEq] at e
      rw [← e]; exact h
  | some p =>
    exact inv_of_purged h (RemoveChildren_spec fuel s p s1 h.hasRes e)
      (fun d hd => descendant_parent hd)

/-! ### The in-place filter of `RemoveByID` -/

theorem State.ext_heap {s t : State} (hh : ∀ q, s.heap q = t.heap q) (hn : s.next = t.next)
    (hr : s.res = t.res) (hi : s.idc = t.idc) : s = t := by
  cases s; cases t
  simp only [State.mk.injEq]
  exact ⟨funext hh, hn, hr, hi⟩

theorem take_succ_set (arr : List Nat) (cur tp : Nat) (h : cur < arr.length) :
    (arr.set cur tp).take (cur + 1) = arr.take cur ++ [tp] := by
  induction arr generalizing cur with
  | nil => simp at h
  | cons a arr ih =>
    cases cur with
    | zero => simp
    | succ cur =>
      simp only [List.set_cons_succ, List.take_succ_cons, List.cons_append, List.cons.injEq,
        true_and]
      exact ih cur (by simpa using h)

theorem setChildren_setChildren (s : State) (p : Nat) (a b : Option (List Nat)) :
    (s.setChildren p a).setChildren p b = s.setChildren p b := by
  refine State.ext_heap ?_ rfl rfl rfl
  intro q
  by_cases e : q = p <;> simp [e]

theorem setChildren_self (s : State) (p : Nat) (a : Option (List Nat))
    (h : (s.heap p).Children = a) : s.setChildren p a = s := by
  refine State.ext_heap ?_ rfl rfl rfl
  intro q
  by_cases e : q = p
  · subst e
    simp only [setChildren_heap, if_true]
    cases hq : s.heap q
    rw [hq] at h
    simp only at h
    subst h
    rfl
  · simp [e]

theorem getD_of_drop_eq_cons {arr : List Nat} {i tp : Nat} {rest : List Nat}
    (h : arr.drop i = tp :: rest) : i < arr.length ∧ arr.getD i 0 = tp := by
  have hi : i < arr.length := by
    by_contra hlt
    rw [List.drop_eq_nil_of_le (by omega)] at h
    cases h
  refine ⟨hi, ?_⟩
  rw [List.getD_eq_getElem _ _ hi]
  have := List.drop_eq_getElem_cons hi
  rw [this] at h
  exact (List.cons.inj h).1

theorem drop_succ_of_drop_eq_cons {arr : List Nat} {i tp : Nat} {rest : List Nat}
    (h : arr.drop i = tp :: rest) : arr.drop (i + 1) = rest := by
  have : arr.drop (i + 1) = (arr.drop i).drop 1 := by
    rw [List.drop_drop]
  rw [this, h]; rfl

/-- A run of kept children: each is copied down to the write position. -/
theorem removeLoop_keep (fuel : Nat) (st topic : Nat) (cid : TopicID) :
    ∀ (rest more : List Nat) (i cur : Nat) (s : State) (arr : List Nat),
      (s.heap topic).Children = some arr → (∀ c ∈ rest, (s.heap c).ID ≠ cid) → cur ≤ i →
      arr.drop i = rest ++ more →
      ∃ arr1 : List Nat, arr1.length = arr.length ∧
        arr1.take (cur + rest.length) = arr.take cur ++ rest ∧
        arr1.drop (i + rest.length) = more ∧
        removeLoop fuel st topic cid (rest ++ more) i cur s =
          removeLoop fuel st topic cid more (i + rest.length) (cur + rest.length)
            (s.setChildren topic (some arr1)) := by
  intro rest
  induction rest with
  | nil =>
    intro more i cur s arr harr _ _ hdrop
    refine ⟨arr, rfl, by simp, by simpa using hdrop, ?_⟩
    rw [setChildren_self s topic _ harr]
    rfl
  | cons tp rest ih =>
    intro more i cur s arr harr hid hle hdrop
    obtain ⟨hi, hget⟩ := getD_of_drop_eq_cons (by simpa using hdrop)
    have hdrop1 : arr.drop (i + 1) = rest ++ more :=
      drop_succ_of_drop_eq_cons (by simpa using hdrop)
    have htp : (s.heap tp).ID ≠ cid := hid tp (by simp)
    have harr1 : ((s.setChildren topic (some (arr.set cur tp))).heap topic).Children
        = some (arr.set cur tp) := by simp
    have hid1 : ∀ c ∈ rest, ((s.setChildren topic (some (arr.set cur tp))).heap c).ID ≠ cid := by
      intro c hc
      rw [setChildren_ID]; exact hid c (by simp [hc])
    have hdrop2 : (arr.set cur tp).drop (i + 1) = rest ++ more := by
      rw [List.drop_set_of_lt _ _ (by omega)]; exact hdrop1
    obtain ⟨arr1, hlen, htake, hdr, hrun⟩ :=
      ih more (i + 1) (cur + 1) _ (arr.set cur tp) harr1 hid1 (by omega) hdrop2
    refine ⟨arr1, by rw [hlen]; simp, ?_, ?_, ?_⟩
    · have e1 : cur + (tp :: rest).length = cur + 1 + rest.length := by simp; omega
      rw [e1, htake]
      have : (arr.set cur tp).take (cur + 1) = arr.take cur ++ [tp] := by
        exact take_succ_set arr cur tp (by omega)
      rw [this]; simp
    · have e1 : i + (tp :: rest).length = i + 1 + rest.length := by simp; omega
      rw [e1]; exact hdr
    · have e1 : i + (tp :: rest).length = i + 1 + rest.length := by simp; omega
      have e2 : cur + (tp :: rest).length = cur + 1 + rest.length := by simp; omega
      rw [e1, e2, ← setChildren_setChildren s topic (some (arr.set cur tp)) (some arr1), ← hrun]
      simp only [List.cons_append, removeLoop, htp, ne_eq, not_false_eq_true, if_true, harr]
      rw [if_pos ⟨hi, by omega⟩, hget]
      rfl

/-! ### `RemoveByID` -/

theorem removeLoop_nomatch (fuel : Nat) (st topic : Nat) (cid : TopicID) (s : State)
    (l : List Nat) (hl : (s.heap topic).Children = some l)
    (hid : ∀ c ∈ l, (s.heap c).ID ≠ cid) :
    removeLoop fuel st topic cid l 0 0 s = some (s, l.length) := by
  obtain ⟨arr1, hlen, htake, -, hrun⟩ :=
    removeLoop_keep fuel st topic cid l [] 0 0 s l hl hid (le_refl _) (by simp)
  have : arr1 = l := by
    have h1 : arr1.take arr1.length = arr1 := List.take_length _
    rw [hlen] at h1
    simp only [Nat.zero_add, List.take_zero, List.nil_append] at htake
    rw [htake] at h1
    exact h1.symm
  subst this
  simp only [List.append_nil, Nat.zero_add] at hrun
  rw [hrun, setChildren_self s topic _ hl]
  rfl

/-- `RemoveByID` changes nothing and returns the receiver when the identifier is the center
key, when it resolves to no parent, or when no child of that parent carries it. -/
theorem RemoveByID_noop (fuel : Nat) (s : State) (p : Nat) (cid : TopicID)
    (h : cid = CentKey ∨ Parent s (some p) [cid] = none ∨
      ∃ topic, Parent s (some p) [cid] = some topic ∧
        ((s.heap topic).Children = none ∨
          ∃ l, (s.heap topic).Children = some l ∧ ∀ c ∈ l, (s.heap c).ID ≠ cid)) :
    RemoveByID fuel s (some p) cid = some (s, some p) := by
  unfold RemoveByID
  simp only []
  split_ifs with h0
  · rfl
  · rcases h with h | h | ⟨topic, ht, h⟩
    · exact absurd h h0
    · rw [h]
    · rw [ht]
      simp only []
      rcases h with h | ⟨l, hl, hid⟩
      · rw [h]
      · rw [hl]
        simp only []
        split_ifs
        · rfl
        · rw [removeLoop_nomatch fuel p topic cid s l hl hid]
          simp only [hl, if_true]

theorem inSubtree_cases_tail {s : State} {c m : Nat} (h : InSubtree s c m) :
    m = c ∨ ∃ q, InSubtree s c q ∧ Child s q m := by
  rcases Relation.ReflTransGen.cases_tail h with e | ⟨q, hq, hqm⟩
  · exact Or.inl e
  · exact Or.inr ⟨q, hq, hqm⟩

theorem inSubtree_rank {s : State} {rk : Nat → Nat} (hrk : RankOK rk s) {c m : Nat}
    (h : InSubtree s c m) : rk m ≤ rk c := by
  induction h with
  | refl => exact le_refl _
  | tail _ hc ih => have := hrk _ _ hc; omega

theorem Inv.inSubtree_node {env : Env} {s : State} (h : Inv env s) {c m : Nat}
    (hc3 : 3 ≤ c) (hcn : c < s.next) (hm : InSubtree s c m) : 3 ≤ m ∧ m < s.next := by
  rcases inSubtree_cases_tail hm with rfl | ⟨q, -, hq⟩
  · exact ⟨hc3, hcn⟩
  · obtain ⟨a, b, -, -⟩ := h.ch_mem q m hq
    exact ⟨a, b⟩

/-- A parent is not in the subtree of its child. -/
theorem Inv.parent_not_inSubtree {env : Env} {s : State} (h : Inv env s) {P c : Nat}
    (hc : Child s P c) : ¬ InSubtree s c P := by
  obtain ⟨rk, hrk⟩ := h.rank
  intro hP
  have h1 := inSubtree_rank hrk hP
  have h2 := hrk P c hc
  omega

/-- The cascade started by `RemoveByID` on the child `c`: `c` and its whole subtree leave
the index and lose their child lists. -/
theorem purged_cascade {s s2 : State} {p c : Nat} {fuel : Nat} (hres : HasRes s)
    (hpr : (s.heap p).resources = true)
    (e : RemoveChildren fuel (delRes s p (s.heap c).ID) (some c) = some s2) :
    Purged s s2 (InSubtree s c) (InSubtree s c) := by
  have pd := purged_delRes s p c hpr
  have hsame : ∀ q, ((delRes s p (s.heap c).ID).heap q).Children = (s.heap q).Children :=
    fun q => by rw [pd.heap_out q (fun c => c)]
  have p2 := RemoveChildren_spec fuel _ c s2 (pd.hasRes_of hres) e
  refine (pd.trans p2).congr ?_ ?_
  · intro q
    simp only [false_or]
    exact inSubtree_congr hsame c q
  · intro q
    rw [@inSubtree_iff_head s c q]
    unfold Descendant
    simp only [child_congr hsame, inSubtree_congr hsame]

/-- A state that keeps all fields but child lists and index, whose child lists are nil or
duplicate-free non-empty parts of the old ones, and whose index is a part of the old one
that still holds the sentinel entries and every listed child, satisfies the invariant. -/
theorem inv_shrink {env : Env} {s s1 : State} (h : Inv env s) (hn : s1.next = s.next)
    (hi : s1.idc = s.idc) (hid : ∀ q, (s1.heap q).ID = (s.heap q).ID)
    (hpar : ∀ q, (s1.heap q).parent = (s.heap q).parent)
    (hrs : ∀ q, (s1.heap q).resources = (s.heap q).resources)
    (hrt : ∀ q, (s1.heap q).RootTopic = (s.heap q).RootTopic)
    (hin : ∀ q, (s1.heap q).incr = (s.heap q).incr)
    (hch : ∀ q l, (s1.heap q).Children = some l →
      l.Nodup ∧ l ≠ [] ∧ ∀ c ∈ l, Child s q c ∧ mapGet s1.res (s.heap c).ID = some c)
    (hsent : ∀ k, (k = rootKey ∨ k = CentKey ∨ k = lastKey ∨ k = incrKey) →
      mapGet s1.res k = mapGet s.res k)
    (hsub : ∀ k t, mapGet s1.res k = some t → mapGet s.res k = some t) : Inv env s1 := by
  obtain ⟨rk, hrk⟩ := h.rank
  have hchild : ∀ q c, Child s1 q c → Child s q c := by
    rintro q c ⟨l, hl, hc⟩
    exact ((hch q l hl).2.2 c hc).1
  have hnone : ∀ q, (s.heap q).Children = none → (s1.heap q).Children = none := by
    intro q hq
    cases hl : (s1.heap q).Children with
    | none => rfl
    | some l =>
      obtain ⟨-, hne, hall⟩ := hch q l hl
      obtain ⟨c, hc⟩ := List.exists_mem_of_ne_nil l hne
      obtain ⟨⟨l0, hl0, -⟩, -⟩ := hall c hc
      rw [hq] at hl0; cases hl0
  refine
    { next_ge := by rw [hn]; exact h.next_ge
      idc_eq := by rw [hn, hi]; exact h.idc_eq
      len_ne0 := h.len_ne0
      len_ne4 := h.len_ne4
      id_len := by rw [hi]; exact h.id_len
      id_inj := by rw [hi]; exact h.id_inj
      res_root := by rw [hsent _ (Or.inl rfl)]; exact h.res_root
      res_cent := by rw [hsent _ (Or.inr (Or.inl rfl))]; exact h.res_cent
      res_incr := by rw [hsent _ (Or.inr (Or.inr (Or.inr rfl)))]; exact h.res_incr
      res_last := by
        rw [hsent _ (Or.inr (Or.inr (Or.inl rfl))), hn]; exact h.res_last
      res_id := by
        intro k t hk
        rw [hn, hid]
        exact h.res_id k t (hsub k t hk)
      root_par := by rw [hpar]; exact h.root_par
      root_topic := by rw [hrt]; exact h.root_topic
      root_ch := hnone 0 h.root_ch
      root_res := by rw [hrs]; exact h.root_res
      cent_par := by rw [hpar]; exact h.cent_par
      cent_res := by rw [hrs]; exact h.cent_res
      hold_par := by rw [hpar]; exact h.hold_par
      hold_ch := hnone 2 h.hold_ch
      hold_res := by rw [hrs]; exact h.hold_res
      hold_incr := by rw [hin]; exact h.hold_incr
      node_id := by
        intro q h3 hq
        rw [hn] at hq
        rw [hid]; exact h.node_id q h3 hq
      node_res := by
        intro q h3 hq
        rw [hn] at hq
        rw [hrs]; exact h.node_res q h3 hq
      node_par := by
        intro q h3 hq
        rw [hn] at hq ⊢
        rw [hpar]; exact h.node_par q h3 hq
      ch_nodup := fun q l hl => ⟨(hch q l hl).1, (hch q l hl).2.1⟩
      ch_mem := by
        rintro q c ⟨l, hl, hc⟩
        obtain ⟨hc0, hidx⟩ := (hch q l hl).2.2 c hc
        obtain ⟨c3, cn, cp, -⟩ := h.ch_mem q c hc0
        rw [hn, hpar, hid]
        exact ⟨c3, cn, cp, hidx⟩
      rank := ⟨rk, fun p c hc => hrk p c (hchild p c hc)⟩ }

theorem Inv.sibling_ids {env : Env} {s : State} (h : Inv env s) {P c : Nat}
    {pre post : List Nat} (hl : (s.heap P).Children = some (pre ++ c :: post)) :
    (∀ m ∈ pre, (s.heap m).ID ≠ (s.heap c).ID) ∧ (∀ m ∈ post, (s.heap m).ID ≠ (s.heap c).ID) ∧
      c ∉ pre ∧ c ∉ post ∧ (pre ++ post).Nodup := by
  have hnd := (h.ch_nodup P _ hl).1
  have hc : Child s P c := ⟨_, hl, by simp⟩
  obtain ⟨c3, cn, -, -⟩ := h.ch_mem P c hc
  have hnd2 : (c :: (pre ++ post)).Nodup := (List.perm_middle.nodup_iff).1 hnd
  rw [List.nodup_cons] at hnd2
  have hcpre : c ∉ pre := fun hm => hnd2.1 (by simp [hm])
  have hcpost : c ∉ post := fun hm => hnd2.1 (by simp [hm])
  refine ⟨?_, ?_, hcpre, hcpost, hnd2.2⟩
  · intro m hm e
    obtain ⟨m3, mn, -, -⟩ := h.ch_mem P m ⟨_, hl, by simp [hm]⟩
    exact hcpre (h.node_id_inj m3 mn c3 cn e ▸ hm)
  · intro m hm e
    obtain ⟨m3, mn, -, -⟩ := h.ch_mem P m ⟨_, hl, by simp [hm]⟩
    exact hcpost (h.node_id_inj m3 mn c3 cn e ▸ hm)

/-- `RemoveByID` on an identifier carried by the child `c` of `P`: the cascade runs on
`c`, then `P` keeps its other children in order and the focus moves to the central topic. -/
theorem RemoveByID_match {env : Env} {s : State} (h : Inv env s) {p P c : Nat}
    {pre post : List Nat} (hpr : (s.heap p).resources = true)
    (hP : Parent s (some p) [(s.heap c).ID] = some P)
    (hl : (s.heap P).Children = some (pre ++ c :: post)) (fuel : Nat) :
    RemoveByID fuel s (some p) (s.heap c).ID =
      (RemoveChildren fuel (delRes s p (s.heap c).ID) (some c)).map
        (fun s2 => (removedState s2 P (pre ++ post), some 1)) := by
  have hc : Child s P c := ⟨_, hl, by simp⟩
  obtain ⟨c3, cn, -, -⟩ := h.ch_mem P c hc
  obtain ⟨hpre, hpost, -, -, -⟩ := h.sibling_ids hl
  have h0 : (s.heap c).ID ≠ CentKey := (h.node_not_sentinel c3 cn).2.1
  have hlen : (pre ++ c :: post).length ≠ 0 := by simp
  unfold RemoveByID
  simp only [h0, if_false, hP, hl, hlen]
  obtain ⟨arr1, hlen1, htake1, hdrop1, hrun1⟩ :=
    removeLoop_keep fuel p P (s.heap c).ID pre (c :: post) 0 0 s _ hl hpre (le_refl _)
      (by simp)
  have harr1 : arr1 = pre ++ c :: post := by
    have := List.take_append_drop (0 + pre.length) arr1
    rw [htake1, hdrop1] at this
    simpa using this.symm
  subst harr1
  rw [hrun1, setChildren_self s P _ hl]
  simp only [removeLoop, ne_eq, not_true_eq_false, if_false]
  cases h2 : RemoveChildren fuel (delRes s p (s.heap c).ID) (some c) with
  | none => rfl
  | some s2 =>
    simp only [Option.map_some']
    have pc := purged_cascade h.hasRes hpr h2
    have hPout : ¬ InSubtree s c P := h.parent_not_inSubtree hc
    have hl2 : (s2.heap P).Children = some (pre ++ c :: post) := by
      rw [pc.children_out hPout]; exact hl
    have hpost2 : ∀ m ∈ post, (s2.heap m).ID ≠ (s.heap c).ID := by
      intro m hm; rw [pc.id_eq]; exact hpost m hm
    obtain ⟨arr2, hlen2, htake2, -, hrun2⟩ :=
      removeLoop_keep fuel p P (s.heap c).ID post [] (0 + pre.length + 1) (0 + pre.length) s2 _
        hl2 hpost2 (by omega) (by simp)
    simp only [List.append_nil] at hrun2
    rw [hrun2]
    simp only [removeLoop, setChildren_heap, if_true]
    have hne : ¬ (0 + pre.length + post.length = arr2.length) := by
      rw [hlen2]; simp
    rw [if_neg hne]
    have htk : arr2.take (0 + pre.length + post.length) = pre ++ post := by
      rw [htake2]; simp
    have hres2 : ∀ X, ((s2.setChildren P X).heap p).resources = true := by
      intro X
      rw [setChildren_resources, pc.resources_eq]; exact hpr
    have hcent : mapGet s2.res CentKey = some 1 := by
      rw [pc.res_out, h.res_cent]
      rintro ⟨d, hd, e⟩
      obtain ⟨d3, dn⟩ := h.inSubtree_node c3 cn hd
      exact (h.node_not_sentinel d3 dn).2.1 e
    have hOn : ∀ X, On (s2.setChildren P X) (some p) [CentKey] =
        ({ s2.setChildren P X with res := mapSet s2.res lastKey 1 }, some 1) := by
      intro X
      simp only [On, hres2 X, Bool.true_eq_false, if_false, setChildren_res, hcent]
    by_cases hz : pre ++ post = []
    · have hz0 : 0 + pre.length + post.length = 0 := by
        obtain ⟨e1, e2⟩ := List.append_eq_nil.1 hz
        rw [e1, e2]; rfl
      simp only [hz0, if_true, setChildren_setChildren, hOn, removedState, hz]
    · have hz0 : ¬ (0 + pre.length + post.length = 0) := by
        intro e
        apply hz
        have : (pre ++ post).length = 0 := by
          simp only [List.length_append]; omega
        exact List.length_eq_zero.1 this
      simp only [hz0, if_false, setChildren_setChildren, hOn, removedState, hz, htk]

/-- The state after a removal satisfies the invariant. -/
theorem inv_removedState {env : Env} {s s2 : State} (h : Inv env s) {P c : Nat}
    {pre post : List Nat} (hl : (s.heap P).Children = some (pre ++ c :: post))
    (pc : Purged s s2 (InSubtree s c) (InSubtree s c)) :
    Inv env (removedState s2 P (pre ++ post)) := by
  have hc : Child s P c := ⟨_, hl, by simp⟩
  obtain ⟨c3, cn, cpar, -⟩ := h.ch_mem P c hc
  obtain ⟨-, -, hcpre, hcpost, hnd⟩ := h.sibling_ids hl
  have hPout : ¬ InSubtree s c P := h.parent_not_inSubtree hc
  -- an identifier of a child that stays listed is not deleted
  have hkeep : ∀ q m, Child s q m → (q = P → m ≠ c) → ¬ InSubtree s c q →
      mapGet s2.res (s.heap m).ID = some m := by
    intro q m hqm hne hq
    obtain ⟨m3, mn, mpar, midx⟩ := h.ch_mem q m hqm
    rw [pc.res_out, midx]
    rintro ⟨d, hd, e⟩
    obtain ⟨d3, dn⟩ := h.inSubtree_node c3 cn hd
    have hdm : d = m := h.node_id_inj d3 dn m3 mn e
    subst hdm
    rcases inSubtree_cases_tail hd with e1 | ⟨q1, hq1, hq1d⟩
    · subst e1
      rw [cpar] at mpar
      exact hne (Option.some.inj mpar).symm rfl
    · obtain ⟨-, -, dpar, -⟩ := h.ch_mem q1 d hq1d
      rw [mpar] at dpar
      cases dpar
      exact hq hq1
  have h4 : Inv env (s2.setChildren P (if pre ++ post = [] then none else some (pre ++ post))) := by
    refine inv_shrink h pc.next_eq pc.idc_eq ?_ ?_ ?_ ?_ ?_ ?_ ?_ ?_
    · intro q; rw [setChildren_ID, pc.id_eq]
    · intro q; rw [setChildren_parent, pc.parent_eq]
    · intro q; rw [setChildren_resources, pc.resources_eq]
    · intro q; rw [setChildren_RootTopic, pc.rootTopic_eq]
    · intro q; rw [setChildren_incr, pc.incr_eq]
    · intro q l hql
      rw [setChildren_Children] at hql
      by_cases e : q = P
      · subst e
        simp only [if_true] at hql
        split_ifs at hql with hz
        cases hql
        refine ⟨hnd, hz, ?_⟩
        intro m hm
        have hmc : m ≠ c := by
          rintro rfl
          rcases List.mem_append.1 hm with hm | hm
          · exact hcpre hm
          · exact hcpost hm
        have hqm : Child s q m := ⟨_, hl, by
          rcases List.mem_append.1 hm with hm | hm
          · simp [hm]
          · simp [hm]⟩
        exact ⟨hqm, hkeep q m hqm (fun _ => hmc) hPout⟩
      · simp only [e, if_false] at hql
        have hq : ¬ InSubtree s c q := by
          intro hq
          rw [pc.children_in hq] at hql; cases hql
        rw [pc.children_out hq] at hql
        refine ⟨(h.ch_nodup q l hql).1, (h.ch_nodup q l hql).2, ?_⟩
        intro m hm
        exact ⟨⟨l, hql, hm⟩, hkeep q m ⟨l, hql, hm⟩ (fun e1 => absurd e1 e) hq⟩
    · intro k hk
      rw [setChildren_res]
      apply pc.res_out
      rintro ⟨d, hd, e⟩
      obtain ⟨d3, dn⟩ := h.inSubtree_node c3 cn hd
      have := h.node_not_sentinel d3 dn
      rw [e] at this
      rcases hk with rfl | rfl | rfl | rfl
      · exact this.1 rfl
      · exact this.2.1 rfl
      · exact this.2.2.1 rfl
      · exact this.2.2.2 rfl
    · intro k t hk
      rw [setChildren_res] at hk
      by_cases e : ∃ d, InSubtree s c d ∧ (s.heap d).ID = k
      · rw [pc.res_in k e] at hk; cases hk
      · rw [pc.res_out k e] at hk; exact hk
  have h1 : 1 < (s2.setChildren P (if pre ++ post = [] then none else some (pre ++ post))).next := by
    have := h4.next_ge; omega
  exact inv_setLast h4 h1

/-- The two outcomes of `RemoveByID` in a sheet: nothing happens, or the identifier is
carried by a child `c` of the parent `P` that the index gives for it, and `c` is removed. -/
theorem RemoveByID_cases {env : Env} {s : State} (h : Inv env s) (fuel : Nat) (p : Nat)
    (cid : TopicID) :
    RemoveByID fuel s (some p) cid = some (s, some p) ∨
    ∃ P c pre post, (s.heap p).resources = true ∧ cid ≠ CentKey ∧ mapGet s.res cid = some c ∧
      (s.heap c).ID = cid ∧ (s.heap c).parent = some P ∧
      (s.heap P).Children = some (pre ++ c :: post) ∧
      RemoveByID fuel s (some p) cid =
        (RemoveChildren fuel (delRes s p cid) (some c)).map
          (fun s2 => (removedState s2 P (pre ++ post), some 1)) := by
  by_cases h0 : cid = CentKey
  · exact Or.inl (RemoveByID_noop fuel s p cid (Or.inl h0))
  cases hpr : (s.heap p).resources with
  | false =>
    refine Or.inl (RemoveByID_noop fuel s p cid (Or.inr (Or.inl ?_)))
    simp [Parent, lookup, hpr]
  | true =>
    cases ht : mapGet s.res cid with
    | none =>
      refine Or.inl (RemoveByID_noop fuel s p cid (Or.inr (Or.inl ?_)))
      simp [Parent, lookup, hpr, ht]
    | some t =>
      have hPar : Parent s (some p) [cid] = (s.heap t).parent := by
        simp [Parent, lookup, hpr, ht]
      cases hP : (s.heap t).parent with
      | none =>
        exact Or.inl (RemoveByID_noop fuel s p cid (Or.inr (Or.inl (by rw [hPar, hP]))))
      | some P =>
        rw [hP] at hPar
        cases hl : (s.heap P).Children with
        | none =>
          exact Or.inl (RemoveByID_noop fuel s p cid (Or.inr (Or.inr ⟨P, hPar, Or.inl hl⟩)))
        | some l =>
          by_cases hex : ∃ c ∈ l, (s.heap c).ID = cid
          · obtain ⟨c, hc, hid⟩ := hex
            obtain ⟨pre, post, rfl⟩ := List.append_of_mem hc
            obtain ⟨c3, cn, cpar, cidx⟩ := h.ch_mem P c ⟨_, hl, hc⟩
            have htc : t = c := by
              rw [hid, ht] at cidx
              exact Option.some.inj cidx
            subst htc
            subst hid
            exact Or.inr ⟨P, t, pre, post, rfl, h0, rfl, rfl, hP, hl,
              RemoveByID_match h hpr hPar hl fuel⟩
          · refine Or.inl (RemoveByID_noop fuel s p cid
              (Or.inr (Or.inr ⟨P, hPar, Or.inr ⟨l, hl, ?_⟩⟩)))
            intro c hc e
            exact hex ⟨c, hc, e⟩

/-- `RemoveByID` keeps the invariant. -/
theorem inv_RemoveByID {env : Env} {s s1 : State} {r : Option Nat} (h : Inv env s)
    {fuel : Nat} {st : Option Nat} {cid : TopicID}
    (e : RemoveByID fuel s st cid = some (s1, r)) : Inv env s1 := by
  cases st with
  | none =>
    simp only [RemoveByID, Option.some.injEq, Prod.mk.injEq] at e
    rw [← e.1]; exact h
  | some p =>
    rcases RemoveByID_cases h fuel p cid with h1 | ⟨P, c, pre, post, hpr, -, -, hid, -, hl, h1⟩
    · rw [h1] at e
      simp only [Option.some.injEq, Prod.mk.injEq] at e
      rw [← e.1]; exact h
    · rw [h1] at e
      cases h2 : RemoveChildren fuel (delRes s p cid) (some c) with
      | none => rw [h2] at e; cases e
      | some s2 =>
        rw [h2] at e
        simp only [Option.map_some', Option.some.injEq, Prod.mk.injEq] at e
        rw [← e.1]
        subst hid
        exact inv_removedState h hl (purged_cascade h.hasRes hpr h2)

/-- Every state of a sheet satisfies the invariant. -/
theorem Reach.inv {env : Env} {s : State} (h : Reach env s) : Inv env s := by
  induction h with
  | newSheet a b sc henv => exact inv_NewSheet henv a b sc
  | add _ st title modes hst hid e ih => exact inv_Add ih hst hid e
  | onId _ st cids _ ih => exact inv_On ih st cids
  | onTitle _ order st title _ ih => exact inv_On ih st _
  | removeByID _ fuel st cid _ e ih => exact inv_RemoveByID ih e
  | remove _ fuel order st title _ e ih => exact inv_RemoveByID ih e
  | removeChildren _ fuel st _ e ih => exact inv_RemoveChildren ih e

/-! ## What `Add` does in a sheet -/

theorem autoTitle_run {env : Env} {s : State} (h : Inv env s) {p : Nat}
    (hpr : (s.heap p).resources = true) (t : String) :
    ∃ sa t1, autoTitle s p t = some (sa, t1) ∧ SameShape s sa ∧
      (∀ q, (sa.heap q).Title = (s.heap q).Title) ∧ (t ≠ "" → sa = s ∧ t1 = t) ∧
      (t = "" → ∃ v, (s.heap 2).incr = some v ∧ t1 = "Topic " ++ toString (wrap64 (v + 1))) := by
  by_cases ht : t = ""
  · cases hv : (s.heap 2).incr with
    | none => exact absurd hv h.hold_incr
    | some v =>
      have e : autoTitle s p t = some (s.setTopic 2 { s.heap 2 with incr := some (wrap64 (v + 1)) },
          "Topic " ++ toString (wrap64 (v + 1))) := by
        simp [autoTitle, ht, lookup, hpr, h.res_incr, hv]
      refine ⟨_, _, e, autoTitle_sameShape e, ?_, fun hne => absurd ht hne, fun _ => ⟨v, rfl, rfl⟩⟩
      intro q
      by_cases hq : q = 2 <;> simp [hq]
  · have e : autoTitle s p t = some (s, t) := by simp [autoTitle, ht]
    exact ⟨s, t, e, sameShape_refl s, fun _ => rfl, fun _ => ⟨rfl, rfl⟩, fun e => absurd e ht⟩

/-- In a sheet `Add` on a receiver with a parent does not panic; its three branches. -/
theorem Add_run {env : Env} {s : State} (h : Inv env s) (hid : FreshId env s.idc)
    {p par : Nat} (hpn : p < s.next) (hpar : (s.heap p).parent = some par) (t : String)
    (modes : List AddMode) :
    ∃ sa t1, SameShape s sa ∧ (∀ q, (sa.heap q).Title = (s.heap q).Title) ∧
      (t ≠ "" → sa = s ∧ t1 = t) ∧
      (t = "" → ∃ v, (s.heap 2).incr = some v ∧ t1 = "Topic " ++ toString (wrap64 (v + 1))) ∧
      Add env s (some p) t modes =
        if modes.headD SubMode = SubMode ∨ p = 1 then
          some (addSub (allocState env sa p t1) p s.next, some p)
        else if modes.headD SubMode = ParentMode then
          some (addParent (allocState env sa p t1) p s.next, some s.next)
        else some (addSibling (allocState env sa p t1) p s.next par (modes.headD SubMode),
          some p) := by
  obtain ⟨hp1, hp2, hpr, -, -⟩ := h.recv_of_parent hpn hpar
  obtain ⟨sa, t1, ha, hsh, htitle, hne, hemp⟩ := autoTitle_run h hpr t
  refine ⟨sa, t1, hsh, htitle, hne, hemp, ?_⟩
  have hA : Inv env sa := inv_of_sameShape h hsh
  have hpr1 : (sa.heap p).resources = true := by rw [hsh.rs_eq]; exact hpr
  rw [Add_some_eq env s p t modes hpar, ha]
  simp only []
  rw [allocTopic_eq env sa p t1 hpr1]
  simp only []
  have hlook : lookup (allocState env sa p t1) p CentKey = some 1 := by
    have hr : ((allocState env sa p t1).heap p).resources = true := by
      have : p ≠ sa.next := by rw [hsh.next_eq]; omega
      simp only [allocState, this, if_false]; exact hpr1
    have hns := not_sentinel_of_len h.len_ne0 h.len_ne4 hid.1
    unfold lookup
    rw [hr, if_pos rfl]
    simp only [allocState]
    rw [hsh.idc_eq, mapGet_mapSet_ne _ _ hns.2.1.symm]
    exact hA.res_cent
  rw [hlook, hsh.next_eq]
  have : (some 1 = some p) = (p = 1) := by
    apply propext
    constructor
    · intro e; exact (Option.some.inj e).symm
    · intro e; rw [e]
  simp only [this]

/-- The new topic right after lines 154-156, in terms of the state before the call. -/
theorem allocState_fields (env : Env) {s sa : State} (hsh : SameShape s sa) (p : Nat)
    (t1 : String) :
    (allocState env sa p t1).next = s.next + 1 ∧
    (allocState env sa p t1).res = mapSet s.res (env.GetId s.idc) s.next ∧
    (allocState env sa p t1).heap s.next =
      { ID := env.GetId s.idc, Title := t1, resources := true, parent := some p } ∧
    (∀ q, q ≠ s.next → (allocState env sa p t1).heap q = sa.heap q) := by
  refine ⟨?_, ?_, ?_, ?_⟩
  · simp [allocState, hsh.next_eq]
  · simp [allocState, hsh.next_eq, hsh.idc_eq, hsh.res_eq]
  · simp [allocState, hsh.next_eq, hsh.idc_eq]
  · intro q hq
    simp [allocState, hsh.next_eq, hq]

/-- The state after a Before or After insertion next to the child `B` of `P`. -/
theorem addSibling_spec {env : Env} {s : State} (sa : State) (h : Inv env s) (hsh : SameShape s sa)
    {B P : Nat} {pre post : List Nat} (hl : (s.heap P).Children = some (pre ++ B :: post))
    (t1 : String) (mode : AddMode) (hm : mode = BeforeMode ∨ mode = AfterMode) :
    ((addSibling (allocState env sa B t1) B s.next P mode).heap P).Children =
      some (if mode = BeforeMode then pre ++ s.next :: B :: post
            else pre ++ B :: s.next :: post) ∧
    ((addSibling (allocState env sa B t1) B s.next P mode).heap s.next).ID
      = env.GetId s.idc ∧
    ((addSibling (allocState env sa B t1) B s.next P mode).heap s.next).parent = some P ∧
    ((addSibling (allocState env sa B t1) B s.next P mode).heap s.next).Title = t1 ∧
    (addSibling (allocState env sa B t1) B s.next P mode).res
      = mapSet s.res (env.GetId s.idc) s.next := by
  have hc : Child s P B := ⟨_, hl, by simp⟩
  obtain ⟨b3, bn, bpar, -⟩ := h.ch_mem P B hc
  obtain ⟨-, hpost, -, -, -⟩ := h.sibling_ids hl
  obtain ⟨q, hq, -, hPn, -, -⟩ := h.node_par B b3 bn
  rw [bpar] at hq; cases hq
  obtain ⟨en, er, enew, eold⟩ := allocState_fields env hsh B t1
  have hBne : B ≠ s.next := by omega
  have hPne : P ≠ s.next := by omega
  have hBpar : ((allocState env sa B t1).heap B).parent = some P := by
    rw [eold B hBne, hsh.par_eq]; exact bpar
  have hPch : (((allocState env sa B t1).setParent s.next (some P)).heap P).Children
      = some (pre ++ B :: post) := by
    rw [setParent_Children, eold P hPne, hsh.ch_eq]; exact hl
  have hidB : ∀ c, c < s.next →
      (((allocState env sa B t1).setParent s.next (some P)).heap c).ID = (s.heap c).ID := by
    intro c hc
    rw [setParent_ID, eold c (by omega), hsh.id_eq]
  have hpost1 : ∀ c ∈ post,
      (((allocState env sa B t1).setParent s.next (some P)).heap c).ID ≠
        (((allocState env sa B t1).setParent s.next (some P)).heap B).ID := by
    intro c hc
    have hcn : c < s.next := (h.ch_mem P c ⟨_, hl, by simp [hc]⟩).2.1
    rw [hidB c hcn, hidB B bn]
    exact hpost c hc
  have hlen : (pre ++ B :: post ++ [s.next]).length - 1 = pre.length + 1 + post.length := by
    simp; omega
  have hshape : pre ++ B :: post ++ [s.next] = pre ++ B :: (post ++ s.next :: []) := by simp
  unfold addSibling
  simp only [hBpar, hPch]
  rcases hm with rfl | rfl
  · rw [if_pos rfl, hlen, hshape, beforeLoop_spec _ _ pre B s.next rfl post [] hpost1]
    simp only [List.append_nil, if_true, setChildren_Children, setChildren_ID, setChildren_parent,
      setChildren_Title, setChildren_res, setParent_ID, setParent_parent, setParent_Title,
      setParent_res, enew, er]
    exact ⟨trivial, trivial, trivial, trivial, trivial⟩
  · have hna : ¬ (AfterMode = BeforeMode) := by decide
    rw [if_neg hna, if_pos rfl, hlen, hshape, afterLoop_spec _ _ pre B s.next rfl post [] hpost1]
    simp only [List.append_nil, if_true, setChildren_Children, setChildren_ID, setChildren_parent,
      setChildren_Title, setChildren_res, setParent_ID, setParent_parent, setParent_Title,
      setParent_res, enew, er, hna, if_false]
    exact ⟨trivial, trivial, trivial, trivial, trivial⟩

/-- A fresh identifier is not yet a key of the index. -/
theorem Inv.fresh_not_key {env : Env} {s : State} (h : Inv env s) (hid : FreshId env s.idc) :
    mapGet s.res (env.GetId s.idc) = none := by
  cases hk : mapGet s.res (env.GetId s.idc) with
  | none => rfl
  | some p =>
    exfalso
    have hns := not_sentinel_of_len h.len_ne0 h.len_ne4 hid.1
    rcases h.res_id _ p hk with e | e | e | e | ⟨p3, pn, e⟩
    · exact hns.1 e
    · exact hns.2.1 e
    · exact hns.2.2.1 e
    · exact hns.2.2.2 e
    · rw [h.node_id p p3 pn] at e
      exact hid.2 (p - 1) (by have := h.idc_eq; omega) e

/-! ## Worked examples are states of a sheet -/

theorem demoEnv_ok : EnvOK demoEnv := by decide

theorem demoS0_reach : Reach demoEnv demoS0 := Reach.newSheet "S" "C" [] demoEnv_ok

theorem demoA_reach : Reach demoEnv demoA :=
  Reach.add demoS0_reach (some 1) "A" [] (by decide) (by decide)
    (show Add demoEnv demoS0 (some 1) "A" [] = some (demoA, some 1) from rfl)

theorem demoAB_reach : Reach demoEnv demoAB :=
  Reach.add demoA_reach (some 1) "B" [] (by decide) (by decide)
    (show Add demoEnv demoA (some 1) "B" [] = some (demoAB, some 1) from rfl)

theorem demoABC_reach : Reach demoEnv demoABC :=
  Reach.add demoAB_reach (some 1) "C" [] (by decide) (by decide)
    (show Add demoEnv demoAB (some 1) "C" [] = some (demoABC, some 1) from rfl)

theorem demoChain_reach : Reach demoEnv demoChain :=
  Reach.add demoA_reach (some 3) "B" [] (by decide) (by decide)
    (show Add demoEnv demoA (some 3) "B" [] = some (demoChain, some 3) from rfl)

theorem demoOld_reach : Reach demoEnv demoOld :=
  Reach.add demoS0_reach (some 1) "Old" [] (by decide) (by decide)
    (show Add demoEnv demoS0 (some 1) "Old" [] = some (demoOld, some 1) from rfl)

theorem demoFocus_reach : Reach demoEnv demoFocus :=
  Reach.onId demoChain_reach (some 1) ["id000003"] (by decide)

/-! ## The claims -/

/-- C1 (counterexample): with children [A, B, C] of the central topic, `B.Add("", Before)`
creates the topic at address 6 between A and B, but its title is the synthesized
"Topic 1", not the empty title that was passed. -/
theorem C1_counterexample :
    ∃ s1, Add demoEnv demoABC (some 4) "" [BeforeMode] = some (s1, some 4) ∧
      (s1.heap 1).Children = some [3, 6, 4, 5] ∧ (s1.heap 6).Title = "Topic 1" ∧
      (s1.heap 6).Title ≠ "" :=
  ⟨stateOf (Add demoEnv demoABC (some 4) "" [BeforeMode]), rfl, by decide, by decide,
    by decide⟩

/-- C1 (amended): in every state of a sheet, for a topic `B` in the child list
`pre ++ [B] ++ post` of `P`, `B.Add(t, BeforeMode)` does not panic, returns `B`, and leaves
the child list of `P` equal to `pre ++ [X, B] ++ post`, where `X` is the newly allocated
topic: its identifier is the one `GetId` returned (not a key of the index before, and
registered for `X` afterwards), its parent link is `P`, which is the parent of `B`, and its
title is `t` when `t` is non-empty and the synthesized "Topic k" when `t` is empty. -/
theorem C1_before_insertion {env : Env} {s : State} (h : Reach env s)
    (hid : FreshId env s.idc) {B P : Nat} {pre post : List Nat}
    (hl : (s.heap P).Children = some (pre ++ B :: post)) (t : String) :
    ∃ s1, Add env s (some B) t [BeforeMode] = some (s1, some B) ∧
      (s.heap B).parent = some P ∧
      (s1.heap P).Children = some (pre ++ s.next :: B :: post) ∧
      (s1.heap s.next).ID = env.GetId s.idc ∧ mapGet s.res (env.GetId s.idc) = none ∧
      mapGet s1.res (env.GetId s.idc) = some s.next ∧
      (s1.heap s.next).parent = some P ∧
      (t ≠ "" → (s1.heap s.next).Title = t) ∧
      (t = "" → ∃ v, (s.heap 2).incr = some v ∧
        (s1.heap s.next).Title = "Topic " ++ toString (wrap64 (v + 1))) := by
  have hI := h.inv
  obtain ⟨b3, bn, bpar, -⟩ := hI.ch_mem P B ⟨_, hl, by simp⟩
  obtain ⟨sa, t1, hsh, -, hne, hemp, hrun⟩ := Add_run hI hid bn bpar t [BeforeMode]
  have hm1 : ¬ (([BeforeMode] : List AddMode).headD SubMode = SubMode ∨ B = 1) := by
    rintro (e | e)
    · exact absurd e (by decide)
    · omega
  have hm2 : ¬ (([BeforeMode] : List AddMode).headD SubMode = ParentMode) := by decide
  rw [if_neg hm1, if_neg hm2] at hrun
  have hh : ([BeforeMode] : List AddMode).headD SubMode = BeforeMode := rfl
  rw [hh] at hrun
  obtain ⟨e1, e2, e3, e4, e5⟩ :=
    addSibling_spec sa hI hsh hl t1 BeforeMode (Or.inl rfl)
  refine ⟨_, hrun, bpar, ?_, e2, hI.fresh_not_key hid, ?_, e3, ?_, ?_⟩
  · rw [e1, if_pos rfl]
  · show mapGet (addSibling (allocState env sa B t1) B s.next P BeforeMode).res _ = _
    rw [e5, mapGet_mapSet_same]
  · intro ht
    show ((addSibling (allocState env sa B t1) B s.next P BeforeMode).heap s.next).Title = t
    rw [e4, (hne ht).2]
  · intro ht
    obtain ⟨v, hv, hv2⟩ := hemp ht
    exact ⟨v, hv, by
      show ((addSibling (allocState env sa B t1) B s.next P BeforeMode).heap s.next).Title = _
      rw [e4, hv2]⟩

/-- C1 (witness): children [A, B, C], `B.Add("X", Before)` gives [A, X, B, C]. -/
theorem C1_witness :
    ∃ s1, Add demoEnv demoABC (some 4) "X" [BeforeMode] = some (s1, some 4) ∧
      (s1.heap 1).Children = some [3, 6, 4, 5] ∧ (s1.heap 6).Title = "X" := by
  obtain ⟨s1, e, -, hc, -, -, -, -, ht, -⟩ :=
    C1_before_insertion demoABC_reach (by decide)
      (show (demoABC.heap 1).Children = some ([3] ++ 4 :: [5]) from by decide) "X"
  exact ⟨s1, e, hc, ht (by decide)⟩

/-- C2 (counterexample): with children [A, B, C] of the central topic, `B.Add("", After)`
creates the topic at address 6 between B and C, but its title is the synthesized
"Topic 1", not the empty title that was passed. -/
theorem C2_counterexample :
    ∃ s1, Add demoEnv demoABC (some 4) "" [AfterMode] = some (s1, some 4) ∧
      (s1.heap 1).Children = some [3, 4, 6, 5] ∧ (s1.heap 6).Title = "Topic 1" ∧
      (s1.heap 6).Title ≠ "" :=
  ⟨stateOf (Add demoEnv demoABC (some 4) "" [AfterMode]), rfl, by decide, by decide,
    by decide⟩

/-- C2 (amended): in every state of a sheet, for a topic `B` in the child list
`pre ++ [B] ++ post` of `P` (with `pre` or `post` possibly empty), `B.Add(t, AfterMode)`
does not panic, returns `B`, and leaves the child list of `P` equal to
`pre ++ [B, Y] ++ post`, where `Y` is the newly allocated topic: its identifier is the one
`GetId` returned (not a key of the index before, and registered for `Y` afterwards), its
parent link is `P`, which is the parent of `B`, and its title is `t` when `t` is non-empty
and the synthesized "Topic k" when `t` is empty. -/
theorem C2_after_insertion {env : Env} {s : State} (h : Reach env s)
    (hid : FreshId env s.idc) {B P : Nat} {pre post : List Nat}
    (hl : (s.heap P).Children = some (pre ++ B :: post)) (t : String) :
    ∃ s1, Add env s (some B) t [AfterMode] = some (s1, some B) ∧
      (s.heap B).parent = some P ∧
      (s1.heap P).Children = some (pre ++ B :: s.next :: post) ∧
      (s1.heap s.next).ID = env.GetId s.idc ∧ mapGet s.res (env.GetId s.idc) = none ∧
      mapGet s1.res (env.GetId s.idc) = some s.next ∧
      (s1.heap s.next).parent = some P ∧
      (t ≠ "" → (s1.heap s.next).Title = t) ∧
      (t = "" → ∃ v, (s.heap 2).incr = some v ∧
        (s1.heap s.next).Title = "Topic " ++ toString (wrap64 (v + 1))) := by
  have hI := h.inv
  obtain ⟨b3, bn, bpar, -⟩ := hI.ch_mem P B ⟨_, hl, by simp⟩
  obtain ⟨sa, t1, hsh, -, hne, hemp, hrun⟩ := Add_run hI hid bn bpar t [AfterMode]
  have hm1 : ¬ (([AfterMode] : List AddMode).headD SubMode = SubMode ∨ B = 1) := by
    rintro (e | e)
    · exact absurd e (by decide)
    · omega
  have hm2 : ¬ (([AfterMode] : List AddMode).headD SubMode = ParentMode) := by decide
  rw [if_neg hm1, if_neg hm2] at hrun
  have hh : ([AfterMode] : List AddMode).headD SubMode = AfterMode := rfl
  rw [hh] at hrun
  obtain ⟨e1, e2, e3, e4, e5⟩ := addSibling_spec sa hI hsh hl t1 AfterMode (Or.inr rfl)
  have hna : ¬ (AfterMode = BeforeMode) := by decide
  refine ⟨_, hrun, bpar, ?_, e2, hI.fresh_not_key hid, ?_, e3, ?_, ?_⟩
  · rw [e1, if_neg hna]
  · show mapGet (addSibling (allocState env sa B t1) B s.next P AfterMode).res _ = _
    rw [e5, mapGet_mapSet_same]
  · intro ht
    show ((addSibling (allocState env sa B t1) B s.next P AfterMode).heap s.next).Title = t
    rw [e4, (hne ht).2]
  · intro ht
    obtain ⟨v, hv, hv2⟩ := hemp ht
    exact ⟨v, hv, by
      show ((addSibling (allocState env sa B t1) B s.next P AfterMode).heap s.next).Title = _
      rw [e4, hv2]⟩

/-- C2 (witness): children [A, B, C], `B.Add("Y", After)` gives [A, B, Y, C]. -/
theorem C2_witness :
    ∃ s1, Add demoEnv demoABC (some 4) "Y" [AfterMode] = some (s1, some 4) ∧
      (s1.heap 1).Children = some [3, 4, 6, 5] ∧ (s1.heap 6).Title = "Y" := by
  obtain ⟨s1, e, -, hc, -, -, -, -, ht, -⟩ :=
    C2_after_insertion demoABC_reach (by decide)
      (show (demoABC.heap 1).Children = some ([3] ++ 4 :: [5]) from by decide) "Y"
  exact ⟨s1, e, hc, ht (by decide)⟩

/-- C3: in every state of a sheet, for a topic `S` other than the central topic that has a
parent `P`, `S.Add(t, ParentMode)` with non-empty `t` does not panic and returns the newly
allocated topic `N`; afterwards `N` carries the former title of `S` and `S` carries `t`,
the child list of `N` is the former child list of `S` (nil when that was nil), the child
list of `S` is `[N]`, the parent link of `N` is `S`, every former child of `S` has parent
link `N`, and the parent link of `S` and the child list of `P` are unchanged. -/
theorem C3_parent_insertion {env : Env} {s : State} (h : Reach env s)
    (hid : FreshId env s.idc) {S P : Nat} (hS : S < s.next) (hcent : S ≠ 1)
    (hpar : (s.heap S).parent = some P) {t : String} (ht : t ≠ "") :
    ∃ s1, Add env s (some S) t [ParentMode] = some (s1, some s.next) ∧
      (s1.heap s.next).Title = (s.heap S).Title ∧ (s1.heap S).Title = t ∧
      (s1.heap s.next).Children = (s.heap S).Children ∧
      (s1.heap S).Children = some [s.next] ∧
      (s1.heap s.next).parent = some S ∧
      (∀ c, Child s S c → (s1.heap c).parent = some s.next) ∧
      (s1.heap S).parent = some P ∧
      (s1.heap P).Children = (s.heap P).Children := by
  have hI := h.inv
  obtain ⟨hp1, hp2, -, -, hPn⟩ := hI.recv_of_parent hS hpar
  have hS3 : 3 ≤ S := by omega
  obtain ⟨q, hq, -, -, -, hqS⟩ := hI.node_par S hS3 hS
  rw [hpar] at hq; cases hq
  obtain ⟨sa, t1, hsh, -, hne, -, hrun⟩ := Add_run hI hid hS hpar t [ParentMode]
  obtain ⟨rfl, rfl⟩ := hne ht
  have hm1 : ¬ (([ParentMode] : List AddMode).headD SubMode = SubMode ∨ S = 1) := by
    rintro (e | e)
    · exact absurd e (by decide)
    · exact hcent e
  have hm2 : ([ParentMode] : List AddMode).headD SubMode = ParentMode := rfl
  rw [if_neg hm1, if_pos hm2] at hrun
  obtain ⟨-, -, enew, eold⟩ := allocState_fields env (sameShape_refl sa) S t1
  have hSne : S ≠ sa.next := by omega
  have hPne : P ≠ sa.next := by omega
  have hK : ((allocState env sa S t1).heap S).Children = (sa.heap S).Children := by
    rw [eold S hSne]
  have hnotK : ∀ c, c ∈ (sa.heap S).Children.getD [] → c ≠ sa.next ∧ c ≠ S := by
    intro c hc
    rw [mem_getD_children] at hc
    obtain ⟨-, cn, cpar, -⟩ := hI.ch_mem S c hc
    refine ⟨by omega, ?_⟩
    rintro rfl
    obtain ⟨q, hq, -, -, -, hqc⟩ := hI.node_par c hS3 hS
    rw [cpar] at hq; cases hq
    exact hqc rfl
  refine ⟨_, hrun, ?_, ?_, ?_, ?_, ?_, ?_, ?_, ?_⟩
  · show ((addParent (allocState env sa S t1) S sa.next).heap sa.next).Title = _
    rw [addParent_Title _ hSne, if_neg (Ne.symm hSne), if_pos rfl, eold S hSne]
  · show ((addParent (allocState env sa S t1) S sa.next).heap S).Title = _
    rw [addParent_Title _ hSne, if_pos rfl, enew]
  · show ((addParent (allocState env sa S t1) S sa.next).heap sa.next).Children = _
    rw [addParent_Children _ hSne, if_neg (Ne.symm hSne), if_pos rfl, hK]
  · show ((addParent (allocState env sa S t1) S sa.next).heap S).Children = _
    rw [addParent_Children _ hSne, if_pos rfl]
  · show ((addParent (allocState env sa S t1) S sa.next).heap sa.next).parent = _
    rw [addParent_parent _ hSne, hK, if_neg (fun hm => (hnotK _ hm).1 rfl), enew]
  · intro c hc
    show ((addParent (allocState env sa S t1) S sa.next).heap c).parent = _
    rw [addParent_parent _ hSne, hK, if_pos (mem_getD_children.2 hc)]
  · show ((addParent (allocState env sa S t1) S sa.next).heap S).parent = _
    rw [addParent_parent _ hSne, hK, if_neg (fun hm => (hnotK _ hm).2 rfl), eold S hSne]
    exact hpar
  · show ((addParent (allocState env sa S t1) S sa.next).heap P).Children = _
    rw [addParent_Children _ hSne, if_neg hqS, if_neg hPne, eold P hPne]

/-- C3 (witness): in the chain central → A → B, `A.Add("W", ParentMode)` returns the new
topic 5, which takes over the title "A" and the child B. -/
theorem C3_witness :
    ∃ s1, Add demoEnv demoChain (some 3) "W" [ParentMode] = some (s1, some 5) ∧
      (s1.heap 5).Title = "A" ∧ (s1.heap 3).Title = "W" ∧
      (s1.heap 5).Children = some [4] ∧ (s1.heap 3).Children = some [5] ∧
      (s1.heap 4).parent = some 5 ∧ (s1.heap 1).Children = some [3] := by
  obtain ⟨s1, e, h1, h2, h3, h4, -, h6, -, h8⟩ :=
    C3_parent_insertion demoChain_reach (by decide) (show 3 < demoChain.next from by decide)
      (by decide) (show (demoChain.heap 3).parent = some 1 from by decide)
      (show "W" ≠ "" from by decide)
  exact ⟨s1, e, h1, h2, h3, h4, h6 4 ⟨[4], by decide, by simp⟩, h8⟩

/-- C4 (counterexample): for the leaf "Old" (address 3), `Add("New", ParentMode)` returns
the new topic 4, whose title is "Old" but which has no child at all: it is the only child
of the topic titled "New". -/
theorem C4_counterexample :
    ∃ s1, Add demoEnv demoOld (some 3) "New" [ParentMode] = some (s1, some 4) ∧
      (s1.heap 4).Title = "Old" ∧ (s1.heap 4).Children = none ∧
      (s1.heap 3).Title = "New" ∧ (s1.heap 3).Children = some [4] :=
  ⟨stateOf (Add demoEnv demoOld (some 3) "New" [ParentMode]), rfl, by decide, by decide,
    by decide, by decide⟩

/-- C4 (amended): in every state of a sheet, for a leaf `S` other than the central topic
(it has a parent and no child list) and every non-empty title `t`, the node `R` returned by
`S.Add(t, ParentMode)` is the new topic; it has the former title of `S`, it has no
children, its parent link is `S`, and `S` now has the title `t` and `R` as its only child. -/
theorem C4_parent_on_leaf {env : Env} {s : State} (h : Reach env s)
    (hid : FreshId env s.idc) {S P : Nat} (hS : S < s.next) (hcent : S ≠ 1)
    (hpar : (s.heap S).parent = some P) (hleaf : (s.heap S).Children = none) {t : String}
    (ht : t ≠ "") :
    ∃ s1 R, Add env s (some S) t [ParentMode] = some (s1, some R) ∧ R = s.next ∧
      (s1.heap R).Title = (s.heap S).Title ∧ (s1.heap R).Children = none ∧
      (s1.heap R).parent = some S ∧ (s1.heap S).Title = t ∧
      (s1.heap S).Children = some [R] := by
  have hI := h.inv
  obtain ⟨hp1, hp2, -, -, hPn⟩ := hI.recv_of_parent hS hpar
  obtain ⟨sa, t1, hsh, -, hne, -, hrun⟩ := Add_run hI hid hS hpar t [ParentMode]
  obtain ⟨rfl, rfl⟩ := hne ht
  have hm1 : ¬ (([ParentMode] : List AddMode).headD SubMode = SubMode ∨ S = 1) := by
    rintro (e | e)
    · exact absurd e (by decide)
    · exact hcent e
  have hm2 : ([ParentMode] : List AddMode).headD SubMode = ParentMode := rfl
  rw [if_neg hm1, if_pos hm2] at hrun
  obtain ⟨-, -, enew, eold⟩ := allocState_fields env (sameShape_refl sa) S t1
  have hSne : S ≠ sa.next := by omega
  have hK : ((allocState env sa S t1).heap S).Children = none := by
    rw [eold S hSne]; exact hleaf
  refine ⟨_, sa.next, hrun, rfl, ?_, ?_, ?_, ?_, ?_⟩
  · show ((addParent (allocState env sa S t1) S sa.next).heap sa.next).Title = _
    rw [addParent_Title _ hSne, if_neg (Ne.symm hSne), if_pos rfl, eold S hSne]
  · show ((addParent (allocState env sa S t1) S sa.next).heap sa.next).Children = _
    rw [addParent_Children _ hSne, if_neg (Ne.symm hSne), if_pos rfl, hK]
  · show ((addParent (allocState env sa S t1) S sa.next).heap sa.next).parent = _
    rw [addParent_parent _ hSne, hK]
    simp only [Option.getD_none, List.not_mem_nil, if_false]
    rw [enew]
  · show ((addParent (allocState env sa S t1) S sa.next).heap S).Title = _
    rw [addParent_Title _ hSne, if_pos rfl, enew]
  · show ((addParent (allocState env sa S t1) S sa.next).heap S).Children = _
    rw [addParent_Children _ hSne, if_pos rfl]

/-- C4 (witness): the leaf "Old" under the central topic. -/
theorem C4_witness :
    ∃ s1 R, Add demoEnv demoOld (some 3) "New" [ParentMode] = some (s1, some R) ∧ R = 4 ∧
      (s1.heap R).Title = "Old" ∧ (s1.heap R).Children = none ∧
      (s1.heap R).parent = some 3 ∧ (s1.heap 3).Title = "New" ∧
      (s1.heap 3).Children = some [R] :=
  C4_parent_on_leaf demoOld_reach (by decide) (show 3 < demoOld.next from by decide)
    (by decide) (show (demoOld.heap 3).parent = some 1 from by decide) (by decide)
    (show "New" ≠ "" from by decide)

theorem filter_ne_middle (pre post : List Nat) (T : Nat) (h1 : T ∉ pre) (h2 : T ∉ post) :
    (pre ++ T :: post).filter (fun c => decide (c ≠ T)) = pre ++ post := by
  have e1 : pre.filter (fun c => decide (c ≠ T)) = pre := by
    rw [List.filter_eq_self]
    intro a ha
    simp only [ne_eq, decide_not, Bool.not_eq_true', decide_eq_false_iff_not]
    rintro rfl; exact h1 ha
  have e2 : post.filter (fun c => decide (c ≠ T)) = post := by
    rw [List.filter_eq_self]
    intro a ha
    simp only [ne_eq, decide_not, Bool.not_eq_true', decide_eq_false_iff_not]
    rintro rfl; exact h2 ha
  rw [List.filter_append, List.filter_cons, e1, e2]
  simp

theorem removedState_children (s2 : State) (P : Nat) (l : List Nat) :
    ((removedState s2 P l).heap P).Children = if l = [] then none else some l := by
  simp [removedState]

theorem removedState_res (s2 : State) (P : Nat) (l : List Nat) :
    (removedState s2 P l).res = mapSet s2.res lastKey 1 := rfl

/-- C5: in every state of a sheet, for a topic `T` in the child list `l` of `P` and a
receiver that holds the shared index, `RemoveByID(T.ID)` returns once the recursion budget
is large enough; it leaves the child list of `P` equal to `l` without `T`, in the same
order (nil when nothing is left); afterwards the identifier of `T` and of every descendant
of `T` is no key of the index, and every key of content-identifier length that is not the
identifier of `T` or of a descendant of `T` has its old entry. -/
theorem C5_cascading_removal {env : Env} {s : State} (h : Reach env s) {T P p : Nat}
    {l : List Nat} (hl : (s.heap P).Children = some l) (hT : T ∈ l)
    (hpr : (s.heap p).resources = true) :
    ∃ n, ∀ fuel, n ≤ fuel →
      ∃ s1, RemoveByID fuel s (some p) (s.heap T).ID = some (s1, some 1) ∧
        (s1.heap P).Children =
          (if l.filter (fun c => decide (c ≠ T)) = [] then none
           else some (l.filter (fun c => decide (c ≠ T)))) ∧
        (∀ d, InSubtree s T d → mapGet s1.res (s.heap d).ID = none) ∧
        (∀ k, goLen k = env.TopicIdLen → (¬ ∃ d, InSubtree s T d ∧ (s.heap d).ID = k) →
          mapGet s1.res k = mapGet s.res k) := by
  have hI := h.inv
  obtain ⟨rk, hrk⟩ := hI.rank
  obtain ⟨pre, post, rfl⟩ := List.append_of_mem hT
  obtain ⟨t3, tn, tpar, tidx⟩ := hI.ch_mem P T ⟨_, hl, hT⟩
  obtain ⟨-, -, hpre, hpost, -⟩ := hI.sibling_ids hl
  have hPar : Parent s (some p) [(s.heap T).ID] = some P := by
    simp [Parent, lookup, hpr, tidx, tpar]
  refine ⟨rk T + 1, fun fuel hf => ?_⟩
  obtain ⟨s2, h2⟩ := RemoveChildren_terminates rk fuel (delRes s p (s.heap T).ID) T
    (rankOK_congr (delRes_heap _ _ _) hrk) (hasRes_congr (delRes_heap _ _ _) hI.hasRes)
    (by omega)
  have pc := purged_cascade hI.hasRes hpr h2
  have hlast : ∀ k, goLen k = env.TopicIdLen →
      mapGet (mapSet s2.res lastKey 1) k = mapGet s2.res k := by
    intro k hk
    exact mapGet_mapSet_ne _ _ (not_sentinel_of_len hI.len_ne0 hI.len_ne4 hk).2.2.1
  refine ⟨removedState s2 P (pre ++ post), ?_, ?_, ?_, ?_⟩
  · rw [RemoveByID_match hI hpr hPar hl fuel, h2]
    rfl
  · rw [removedState_children, filter_ne_middle pre post T hpre hpost]
  · intro d hd
    obtain ⟨d3, dn⟩ := hI.inSubtree_node t3 tn hd
    rw [removedState_res, hlast _ (hI.node_len d3 dn)]
    exact pc.res_in _ ⟨d, hd, rfl⟩
  · intro k hk hno
    rw [removedState_res, hlast k hk]
    exact pc.res_out k hno

/-- C5 (witness): in the chain central → A → B, `RemoveByID(A.ID)` called on the central
topic leaves the central topic without children and both identifiers out of the index. -/
theorem C5_witness :
    ∃ n, ∀ fuel, n ≤ fuel →
      ∃ s1, RemoveByID fuel demoChain (some 1) "id000002" = some (s1, some 1) ∧
        (s1.heap 1).Children = none ∧ mapGet s1.res "id000002" = none ∧
        mapGet s1.res "id000003" = none := by
  obtain ⟨n, hn⟩ := C5_cascading_removal demoChain_reach
    (show (demoChain.heap 1).Children = some [3] from by decide)
    (show 3 ∈ [3] from by decide) (show (demoChain.heap 1).resources = true from by decide)
  refine ⟨n, fun fuel hf => ?_⟩
  obtain ⟨s1, e, hc, hin, -⟩ := hn fuel hf
  refine ⟨s1, e, hc, hin 3 Relation.ReflTransGen.refl, ?_⟩
  exact hin 4 (Relation.ReflTransGen.single ⟨[4], by decide, by decide⟩)

/-- What a `RemoveByID` call that returns has done: either it took a child out of a child
list, the last-focused entry is the central topic and the call returns the central topic;
or the state is unchanged and the receiver is returned. -/
theorem RemoveByID_focus {env : Env} {s s1 : State} {r : Option Nat} (hI : Inv env s)
    {fuel : Nat} {st : Option Nat} {cid : TopicID}
    (e : RemoveByID fuel s st cid = some (s1, r)) :
    ((∃ q c, Child s q c ∧ ¬ Child s1 q c) →
      mapGet s1.res lastKey = some 1 ∧ mapGet s1.res CentKey = some 1 ∧ r = some 1) ∧
    ((¬ ∃ q c, Child s q c ∧ ¬ Child s1 q c) →
      r = st ∧ mapGet s1.res lastKey = mapGet s.res lastKey ∧ s1 = s) := by
  have hI1 : Inv env s1 := inv_RemoveByID hI e
  have hnoop : s1 = s → r = st →
      ((∃ q c, Child s q c ∧ ¬ Child s1 q c) →
        mapGet s1.res lastKey = some 1 ∧ mapGet s1.res CentKey = some 1 ∧ r = some 1) ∧
      ((¬ ∃ q c, Child s q c ∧ ¬ Child s1 q c) →
        r = st ∧ mapGet s1.res lastKey = mapGet s.res lastKey ∧ s1 = s) := by
    rintro rfl rfl
    refine ⟨?_, fun _ => ⟨rfl, rfl, rfl⟩⟩
    rintro ⟨q, c, hc, hn⟩
    exact absurd hc hn
  cases st with
  | none =>
    simp only [RemoveByID, Option.some.injEq, Prod.mk.injEq] at e
    exact hnoop e.1.symm e.2.symm
  | some p =>
    rcases RemoveByID_cases hI fuel p cid with h1 | ⟨P, c, pre, post, hpr, -, -, hid, -, hl, h1⟩
    · rw [h1] at e
      simp only [Option.some.injEq, Prod.mk.injEq] at e
      exact hnoop e.1.symm e.2.symm
    · rw [h1] at e
      cases h2 : RemoveChildren fuel (delRes s p cid) (some c) with
      | none => rw [h2] at e; cases e
      | some s2 =>
        rw [h2] at e
        simp only [Option.map_some', Option.some.injEq, Prod.mk.injEq] at e
        obtain ⟨rfl, rfl⟩ := e
        obtain ⟨-, -, hcpre, hcpost, -⟩ := hI.sibling_ids hl
        have hrem : ∃ q c, Child s q c ∧ ¬ Child (removedState s2 P (pre ++ post)) q c := by
          refine ⟨P, c, ⟨_, hl, by simp⟩, ?_⟩
          rintro ⟨l1, hl1, hc1⟩
          rw [removedState_children] at hl1
          split_ifs at hl1
          cases hl1
          rcases List.mem_append.1 hc1 with hm | hm
          · exact hcpre hm
          · exact hcpost hm
        refine ⟨fun _ => ⟨?_, hI1.res_cent, rfl⟩, fun hn => absurd hrem hn⟩
        rw [removedState_res, mapGet_mapSet_same]

/-- `RemoveByID` returns once the recursion budget is large enough. -/
theorem RemoveByID_returns {env : Env} {s : State} (h : Inv env s) (st : Option Nat)
    (cid : TopicID) :
    ∃ n, ∀ fuel, n ≤ fuel → ∃ s1 r, RemoveByID fuel s st cid = some (s1, r) := by
  obtain ⟨rk, hrk⟩ := h.rank
  cases st with
  | none => exact ⟨0, fun fuel _ => ⟨s, none, by simp [RemoveByID]⟩⟩
  | some p =>
    refine ⟨(mapGet s.res cid).elim 0 (fun c => rk c + 1), fun fuel hf => ?_⟩
    rcases RemoveByID_cases h fuel p cid with h1 | ⟨P, c, pre, post, hpr, -, hc, -, -, -, h1⟩
    · exact ⟨s, some p, h1⟩
    · rw [hc] at hf
      obtain ⟨s2, h2⟩ := RemoveChildren_terminates rk fuel (delRes s p cid) c
        (rankOK_congr (delRes_heap _ _ _) hrk) (hasRes_congr (delRes_heap _ _ _) h.hasRes)
        (by simp only [Option.elim] at hf; omega)
      exact ⟨removedState s2 P (pre ++ post), some 1, by rw [h1, h2]; rfl⟩

/-- A `RemoveByID` call that returns, made on a receiver that holds the shared index with
the identifier of a topic `c` in the child list of `P`, takes `c` out of that list. -/
theorem RemoveByID_removes {env : Env} {s s1 : State} {r : Option Nat} (hI : Inv env s)
    {fuel p P c : Nat} (hpr : (s.heap p).resources = true) (hc : Child s P c)
    (e : RemoveByID fuel s (some p) (s.heap c).ID = some (s1, r)) : ¬ Child s1 P c := by
  obtain ⟨l, hl, hm⟩ := hc
  obtain ⟨pre, post, rfl⟩ := List.append_of_mem hm
  obtain ⟨-, -, tpar, tidx⟩ := hI.ch_mem P c ⟨_, hl, hm⟩
  obtain ⟨-, -, hcpre, hcpost, -⟩ := hI.sibling_ids hl
  have hPar : Parent s (some p) [(s.heap c).ID] = some P := by
    simp [Parent, lookup, hpr, tidx, tpar]
  rw [RemoveByID_match hI hpr hPar hl fuel] at e
  cases h2 : RemoveChildren fuel (delRes s p (s.heap c).ID) (some c) with
  | none => rw [h2] at e; cases e
  | some s2 =>
    rw [h2] at e
    simp only [Option.map_some', Option.some.injEq, Prod.mk.injEq] at e
    obtain ⟨rfl, -⟩ := e
    rintro ⟨l1, hl1, hc1⟩
    rw [removedState_children] at hl1
    split_ifs at hl1
    cases hl1
    rcases List.mem_append.1 hc1 with hm1 | hm1
    · exact hcpre hm1
    · exact hcpost hm1

/-- C6: in every state of a sheet and for every receiver (nil included) and identifier,
`RemoveByID` returns once the recursion budget is large enough, and then: if the call took
a child out of a child list, the last-focused entry is the central topic (the entry under
the center key) and the call returns the central topic; if it took no child out of any
list, it returns the receiver and the state, the last-focused entry included, is
unchanged. The first case is the one of a receiver that holds the shared index and an
identifier carried by a topic `c` in the child list of some `P`: then `c` is no longer in
that list. -/
theorem C6_focus_reset {env : Env} {s : State} (h : Reach env s) (st : Option Nat)
    (cid : TopicID) :
    ∃ n, ∀ fuel, n ≤ fuel →
      ∃ s1 r, RemoveByID fuel s st cid = some (s1, r) ∧
        ((∃ q c, Child s q c ∧ ¬ Child s1 q c) →
          mapGet s1.res lastKey = some 1 ∧ mapGet s1.res CentKey = some 1 ∧ r = some 1) ∧
        ((¬ ∃ q c, Child s q c ∧ ¬ Child s1 q c) →
          r = st ∧ mapGet s1.res lastKey = mapGet s.res lastKey ∧ s1 = s) ∧
        (∀ p P c, st = some p → (s.heap p).resources = true → Child s P c →
          cid = (s.heap c).ID → ¬ Child s1 P c) := by
  have hI := h.inv
  obtain ⟨n, hn⟩ := RemoveByID_returns hI st cid
  refine ⟨n, fun fuel hf => ?_⟩
  obtain ⟨s1, r, e⟩ := hn fuel hf
  obtain ⟨ha, hb⟩ := RemoveByID_focus hI e
  refine ⟨s1, r, e, ha, hb, ?_⟩
  rintro p P c rfl hpr hc rfl
  exact RemoveByID_removes hI hpr hc e

/-- C6 (witness): in the chain central → A → B with the focus on B, `RemoveByID(A.ID)`
called on B returns; it takes A out of the child list of the central topic, returns the
central topic and leaves the focus on it. -/
theorem C6_witness :
    mapGet demoFocus.res lastKey = some 4 ∧
    ∃ n, ∀ fuel, n ≤ fuel →
      ∃ s1 r, RemoveByID fuel demoFocus (some 4) "id000002" = some (s1, r) ∧
        ¬ Child s1 1 3 ∧
        mapGet s1.res lastKey = some 1 ∧ mapGet s1.res CentKey = some 1 ∧ r = some 1 := by
  refine ⟨by decide, ?_⟩
  obtain ⟨n, hn⟩ := C6_focus_reset demoFocus_reach (some 4) "id000002"
  refine ⟨n, fun fuel hf => ?_⟩
  obtain ⟨s1, r, e, ha, -, hc⟩ := hn fuel hf
  have hch : Child demoFocus 1 3 := ⟨[3], by decide, by decide⟩
  have hno : ¬ Child s1 1 3 := hc 4 1 3 rfl (by decide) hch (by decide)
  exact ⟨s1, r, e, hno, ha ⟨1, 3, hch, hno⟩⟩

/-- C7: in every state of a sheet (reached from `NewSheet` by any calls of `Add`, `Remove`,
`RemoveByID`, `RemoveChildren`, `On` and `OnTitle` with fresh identifiers), the entry under
the center key is the topic `NewSheet` returned, the parent link of that topic is the sheet
root (the entry under the root key), it is the `RootTopic` of the sheet root, and
`RemoveByID(CentKey)` changes nothing and returns the receiver. -/
theorem C7_central_protected {env : Env} {s : State} (h : Reach env s) :
    (∀ a b sc, mapGet s.res CentKey = (NewSheet env a b sc).2) ∧
    (∀ c, mapGet s.res CentKey = some c →
      (s.heap c).parent = mapGet s.res rootKey ∧ mapGet s.res rootKey = some 0 ∧
      (s.heap 0).RootTopic = some c) ∧
    (∀ fuel st, RemoveByID fuel s st CentKey = some (s, st)) := by
  have hI := h.inv
  refine ⟨fun a b sc => hI.res_cent, ?_, ?_⟩
  · intro c hc
    rw [hI.res_cent] at hc
    cases hc
    exact ⟨by rw [hI.cent_par, hI.res_root], hI.res_root, hI.root_topic⟩
  · intro fuel st
    cases st with
    | none => rfl
    | some p => simp [RemoveByID]

/-- C7 (witness): the state after removing A from the chain central → A → B. -/
theorem C7_witness :
    mapGet (stateOf (RemoveByID 3 demoChain (some 4) "id000002")).res CentKey = some 1 :=
  (C7_central_protected (Reach.removeByID demoChain_reach 3 (some 4) "id000002" (by decide)
    (show RemoveByID 3 demoChain (some 4) "id000002" =
      some (stateOf (RemoveByID 3 demoChain (some 4) "id000002"), some 1) from rfl))).1
    "S" "C" []

/-- A topic reached from the central topic, other than the central topic, is in a child
list. -/
theorem attached_child {s : State} {c : Nat} (hc : Attached s c) (hne : c ≠ 1) :
    ∃ q, Child s q c := by
  rcases inSubtree_cases_tail hc with e | ⟨q, -, hq⟩
  · exact absurd e hne
  · exact ⟨q, hq⟩

/-- The topic created by `Add` is registered under the identifier drawn by the call. -/
theorem Add_registers {env : Env} {s s1 : State} {r : Option Nat} (h : Inv env s)
    (hid : FreshId env s.idc) {p par : Nat} (hpn : p < s.next)
    (hpar : (s.heap p).parent = some par) {title : String} {modes : List AddMode}
    (e : Add env s (some p) title modes = some (s1, r)) :
    mapGet s1.res (env.GetId s.idc) = some s.next ∧ (s1.heap s.next).ID = env.GetId s.idc := by
  obtain ⟨sa, t1, hsh, -, -, -, hrun⟩ := Add_run h hid hpn hpar title modes
  obtain ⟨-, er, enew, eold⟩ := allocState_fields env hsh p t1
  have hpne : p ≠ s.next := by omega
  rw [hrun] at e
  split_ifs at e with c1 c2
  · simp only [Option.some.injEq, Prod.mk.injEq] at e
    rw [← e.1]
    unfold addSub
    split <;>
    · rw [setChildren_res, setChildren_ID, er, enew, mapGet_mapSet_same]
      exact ⟨rfl, rfl⟩
  · simp only [Option.some.injEq, Prod.mk.injEq] at e
    rw [← e.1, addParent_res, addParent_ID _ hpne, er, enew, mapGet_mapSet_same]
    exact ⟨rfl, rfl⟩
  · simp only [Option.some.injEq, Prod.mk.injEq] at e
    rw [← e.1]
    unfold addSibling
    simp only []
    split
    · rw [setChildren_res, setChildren_ID, setParent_res, setParent_ID, er, enew,
        mapGet_mapSet_same]
      exact ⟨rfl, rfl⟩
    · split_ifs <;>
        simp only [setChildren_res, setChildren_ID, setParent_res, setParent_ID, er, enew,
          mapGet_mapSet_same, and_self]

/-- C8: in every state of a sheet, every topic that can be reached from the central topic
through child lists, other than the central topic itself, is stored in the index under its
own identifier; and when `Add`, called on a receiver that has a parent, returns, the topic
it created is in the index under its new identifier. -/
theorem C8_index_consistency {env : Env} {s : State} (h : Reach env s) :
    (∀ c, Attached s c → c ≠ 1 → mapGet s.res (s.heap c).ID = some c) ∧
    (∀ (p par : Nat) (title : String) (modes : List AddMode) (s1 : State) (r : Option Nat),
      p < s.next → (s.heap p).parent = some par → FreshId env s.idc →
      Add env s (some p) title modes = some (s1, r) →
      mapGet s1.res (s1.heap s.next).ID = some s.next ∧
        (s1.heap s.next).ID = env.GetId s.idc) := by
  have hI := h.inv
  constructor
  · intro c hc hne
    obtain ⟨q, hq⟩ := attached_child hc hne
    exact (hI.ch_mem q c hq).2.2.2
  · intro p par title modes s1 r hpn hpar hid e
    obtain ⟨e1, e2⟩ := Add_registers hI hid hpn hpar e
    exact ⟨by rw [e2]; exact e1, e2⟩

/-- C8 (witness): in the chain central → A → B, the topic B is found under its identifier. -/
theorem C8_witness : mapGet demoChain.res (demoChain.heap 4).ID = some 4 :=
  (C8_index_consistency demoChain_reach).1 4
    (Relation.ReflTransGen.tail
      (Relation.ReflTransGen.single (show Child demoChain 1 3 from ⟨[3], by decide, by decide⟩))
      (show Child demoChain 3 4 from ⟨[4], by decide, by decide⟩)) (by decide)

/-- C9: in every state of a sheet, every topic that can be reached from the central topic
through child lists, other than the central topic, occurs exactly once in the child list of
the node its parent link names, and in the child list of no other node. -/
theorem C9_parent_link_integrity {env : Env} {s : State} (h : Reach env s) {c : Nat}
    (hc : Attached s c) (hne : c ≠ 1) :
    ∃ q l, (s.heap c).parent = some q ∧ (s.heap q).Children = some l ∧ l.count c = 1 ∧
      ∀ q1 l1, (s.heap q1).Children = some l1 → c ∈ l1 → q1 = q := by
  have hI := h.inv
  obtain ⟨q, l, hl, hm⟩ := attached_child hc hne
  obtain ⟨-, -, cpar, -⟩ := hI.ch_mem q c ⟨l, hl, hm⟩
  refine ⟨q, l, cpar, hl, List.count_eq_one_of_mem (hI.ch_nodup q l hl).1 hm, ?_⟩
  intro q1 l1 hl1 hm1
  obtain ⟨-, -, cpar1, -⟩ := hI.ch_mem q1 c ⟨l1, hl1, hm1⟩
  rw [cpar] at cpar1
  exact (Option.some.inj cpar1).symm

/-- C9 (witness): the topic B of the chain central → A → B. -/
theorem C9_witness :
    ∃ q l, (demoChain.heap 4).parent = some q ∧ (demoChain.heap q).Children = some l ∧
      l.count 4 = 1 ∧ ∀ q1 l1, (demoChain.heap q1).Children = some l1 → 4 ∈ l1 → q1 = q :=
  C9_parent_link_integrity demoChain_reach
    (Relation.ReflTransGen.tail
      (Relation.ReflTransGen.single (show Child demoChain 1 3 from ⟨[3], by decide, by decide⟩))
      (show Child demoChain 3 4 from ⟨[4], by decide, by decide⟩)) (by decide)

/-- C10 (counterexample): on the sheet `NewSheet("S", "C")`, `CId("C")` called on the
central topic returns the last-focused key "last", not the center key "". -/
theorem C10_counterexample :
    CId demoEnv demoS0 [incrKey, lastKey, CentKey, rootKey] (NewSheet demoEnv "S" "C" []).2 "C"
        = lastKey ∧
      lastKey ≠ CentKey := by
  decide

/-- C10 (amended): for every sheet created by `NewSheet(S, C)` with a non-empty central
title `C`, with `TopicIdLen` different from the lengths 0 and 4 of the sentinel keys, and
for every order in which the map is visited, `CId(C)` called on the returned central topic
returns the last-focused key, whose entry is the central topic at that moment. -/
theorem C10_cid_central_title (env : Env) (S C : String) (sc : List StructureClass)
    (order : List TopicID) (hC : C ≠ "") (h0 : env.TopicIdLen ≠ 0) (h4 : env.TopicIdLen ≠ 4) :
    CId env (NewSheet env S C sc).1 order (NewSheet env S C sc).2 C = lastKey ∧
      mapGet (NewSheet env S C sc).1.res lastKey = (NewSheet env S C sc).2 := by
  constructor
  · show CId env (NewSheet env S C sc).1 order (some 1) C = lastKey
    unfold CId
    rw [if_neg hC]
    simp only []
    split
    · next id hfound =>
      exfalso
      have hp := List.find?_some hfound
      by_cases hlen : goLen id = env.TopicIdLen
      · have hns := not_sentinel_of_len h0 h4 hlen
        have hnone : lookup (NewSheet env S C sc).1 1 id = none := by
          simp only [lookup, NewSheet]
          simp only [OfNat.one_ne_ofNat, if_false, if_true]
          rw [mapGet_mapSet_ne _ _ hns.2.2.2, mapGet_mapSet_ne _ _ hns.2.2.1,
            mapGet_mapSet_ne _ _ hns.2.1, mapGet_mapSet_ne _ _ hns.1]
          rfl
        rw [hnone] at hp
        cases hp
      · split at hp
        · simp [hlen] at hp
        · cases hp
    · rfl
  · have k6 : lastKey ≠ incrKey := by decide
    simp only [NewSheet]
    rw [mapGet_mapSet_ne _ _ k6, mapGet_mapSet_same]

/-- C10 (witness): the sheet `NewSheet("S", "C")` with identifiers of length 8. -/
theorem C10_witness :
    CId demoEnv (NewSheet demoEnv "S" "C" []).1 [rootKey, CentKey, lastKey, incrKey]
        (NewSheet demoEnv "S" "C" []).2 "C" = lastKey ∧
      mapGet (NewSheet demoEnv "S" "C" []).1.res lastKey = (NewSheet demoEnv "S" "C" []).2 :=
  C10_cid_central_title demoEnv "S" "C" [] [rootKey, CentKey, lastKey, incrKey] (by decide)
    (by decide) (by decide)

/-! ## Navigation and lookup -/

theorem On_hit {s : State} {p t : Nat} {id : TopicID} (hpr : (s.heap p).resources = true)
    (ht : mapGet s.res id = some t) :
    On s (some p) [id] = ({ s with res := mapSet s.res lastKey t }, some t) := by
  simp [On, hpr, ht]

theorem On_miss {s : State} {p : Nat} {id : TopicID} (hpr : (s.heap p).resources = true)
    (ht : mapGet s.res id = none) : On s (some p) [id] = (s, mapGet s.res lastKey) := by
  simp [On, hpr, ht]

theorem On_default (s : State) (st : Option Nat) : On s st [] = On s st [CentKey] := by
  cases st <;> rfl

/-- C11: in every state of a sheet, `CId("")` is the center key on any receiver, and `On()`
without argument, `On(CId(""))` and `OnTitle("")`, called on any topic that holds the
shared index, each return the central topic (the node `NewSheet` returned, stored under the
center key) and leave the last-focused entry equal to it. -/
theorem C11_navigation_to_centre {env : Env} {s : State} (h : Reach env s) {p : Nat}
    (hpr : (s.heap p).resources = true) (order : List TopicID) (st : Option Nat) :
    CId env s order st "" = CentKey ∧
    (∀ a b sc, (NewSheet env a b sc).2 = some 1) ∧ mapGet s.res CentKey = some 1 ∧
    ((On s (some p) []).2 = some 1 ∧ mapGet (On s (some p) []).1.res lastKey = some 1) ∧
    ((On s (some p) [CId env s order (some p) ""]).2 = some 1 ∧
      mapGet (On s (some p) [CId env s order (some p) ""]).1.res lastKey = some 1) ∧
    ((OnTitle env s order (some p) "").2 = some 1 ∧
      mapGet (OnTitle env s order (some p) "").1.res lastKey = some 1) := by
  have hI := h.inv
  have hc : ∀ st, CId env s order st "" = CentKey := fun st => by simp [CId]
  have hon : On s (some p) [CentKey] = ({ s with res := mapSet s.res lastKey 1 }, some 1) :=
    On_hit hpr hI.res_cent
  have key : (On s (some p) [CentKey]).2 = some 1 ∧
      mapGet (On s (some p) [CentKey]).1.res lastKey = some 1 := by
    rw [hon]; exact ⟨rfl, mapGet_mapSet_same _ _ _⟩
  refine ⟨hc st, fun _ _ _ => rfl, hI.res_cent, ?_, ?_, ?_⟩
  · rw [On_default]; exact key
  · rw [hc]; exact key
  · unfold OnTitle; rw [hc]; exact key

/-- C11 (witness): after `On(A.ID)` in the chain central → A → B, `On()` called on B goes
back to the central topic. -/
theorem C11_witness :
    (On (On demoChain (some 1) ["id000002"]).1 (some 4) []).2 = some 1 ∧
      mapGet (On (On demoChain (some 1) ["id000002"]).1 (some 4) []).1.res lastKey = some 1 :=
  (C11_navigation_to_centre (Reach.onId demoChain_reach (some 1) ["id000002"] (by decide))
    (show ((On demoChain (some 1) ["id000002"]).1.heap 4).resources = true from by decide)
    [] none).2.2.2.1

theorem find_some_spec {α : Type} (f : α → Bool) (l : List α) {a : α}
    (h : l.find? f = some a) : a ∈ l ∧ f a = true :=
  ⟨List.mem_of_find?_eq_some h, List.find?_some h⟩

/-- The test made by `CId` and `CIds` on a key, for a receiver that holds the index. -/
theorem titleTest_iff {env : Env} {s : State} {p : Nat} (hpr : (s.heap p).resources = true)
    (t : String) (k : TopicID) : titleTest env s p t k = true ↔ TitleMatch env s t k := by
  unfold TitleMatch titleTest lookup
  rw [hpr, if_pos rfl]
  cases hk : mapGet s.res k with
  | none => simp
  | some q => simp

theorem CId_some (env : Env) (s : State) (order : List TopicID) (p : Nat) {t : String}
    (ht : t ≠ "") :
    CId env s order (some p) t = (order.find? (titleTest env s p t)).getD lastKey := by
  unfold CId
  rw [if_neg ht]
  show (match order.find? (titleTest env s p t) with
    | some id => id
    | none => lastKey) = _
  cases order.find? (titleTest env s p t) <;> rfl

theorem CIds_some (env : Env) (s : State) (order : List TopicID) (p : Nat) {t : String}
    (ht : t ≠ "") :
    CIds env s order (some p) t =
      if (order.filter (titleTest env s p t)).length = 0 then [lastKey]
      else order.filter (titleTest env s p t) := by
  unfold CIds
  rw [if_neg ht]
  rfl

/-- C12: for every non-empty title `t`, every receiver that holds the shared index and every
order in which the map is visited: if some key of content-identifier length maps to a topic
titled `t`, then `CId(t)` returns a key with that property, and otherwise it returns the
last-focused key; a returned title match is never one of the four sentinel keys. -/
theorem C12_cid_result (env : Env) (s : State) (order : List TopicID) {p : Nat}
    {t : String} (hpr : (s.heap p).resources = true) (ht : t ≠ "")
    (hord : IterOrder s order) :
    ((∃ k, TitleMatch env s t k) → TitleMatch env s t (CId env s order (some p) t)) ∧
    ((¬ ∃ k, TitleMatch env s t k) → CId env s order (some p) t = lastKey) ∧
    (env.TopicIdLen ≠ 0 → env.TopicIdLen ≠ 4 → TitleMatch env s t (CId env s order (some p) t) →
      CId env s order (some p) t ≠ rootKey ∧ CId env s order (some p) t ≠ CentKey ∧
      CId env s order (some p) t ≠ lastKey ∧ CId env s order (some p) t ≠ incrKey) := by
  refine ⟨?_, ?_, ?_⟩
  · rintro ⟨k, hk⟩
    rw [CId_some env s order p ht]
    cases hfound : order.find? (titleTest env s p t) with
    | some id => exact (titleTest_iff hpr t id).1 (find_some_spec _ _ hfound).2
    | none =>
      exfalso
      rw [List.find?_eq_none] at hfound
      have hmem : k ∈ order := by
        rw [hord.2 k]
        obtain ⟨-, q, hq, -⟩ := hk
        rw [hq]; rfl
      exact hfound k hmem ((titleTest_iff hpr t k).2 hk)
  · intro hno
    rw [CId_some env s order p ht]
    cases hfound : order.find? (titleTest env s p t) with
    | some id =>
      exact absurd ⟨id, (titleTest_iff hpr t id).1 (find_some_spec _ _ hfound).2⟩ hno
    | none => rfl
  · intro h0 h4 hm
    exact not_sentinel_of_len h0 h4 hm.1

theorem mapGet_isSome_iff (m : List (TopicID × Nat)) (k : TopicID) :
    (mapGet m k).isSome ↔ k ∈ mapKeys m := by
  induction m with
  | nil => simp [mapGet, mapKeys]
  | cons e m ih =>
    obtain ⟨k1, v⟩ := e
    by_cases h : k1 = k
    · simp [mapGet, mapKeys, h]
    · have h2 : k ≠ k1 := fun e => h e.symm
      simp only [mapGet, h, if_false, ih, mapKeys, List.map_cons, List.mem_cons, h2, false_or]

/-- The keys of the map, when they are pairwise distinct, are an order of visit. -/
theorem iterOrder_mapKeys (s : State) (h : (mapKeys s.res).Nodup) :
    IterOrder s (mapKeys s.res) :=
  ⟨h, fun k => (mapGet_isSome_iff s.res k).symm⟩

/-- C12 (witness): two topics titled "Dup"; `CId("Dup")` returns one of their keys. -/
theorem C12_witness :
    TitleMatch demoEnv demoDup "Dup" (CId demoEnv demoDup (mapKeys demoDup.res) (some 1) "Dup") :=
  (C12_cid_result demoEnv demoDup (mapKeys demoDup.res)
    (show (demoDup.heap 1).resources = true from by decide) (show "Dup" ≠ "" from by decide)
    (iterOrder_mapKeys demoDup (by decide))).1
    ⟨"id000002", by decide, 3, by decide, by decide⟩

/-- C13: for every non-empty title `t`, every receiver that holds the shared index and every
order in which the map is visited: when some key is a title match (content-identifier
length, topic titled `t`), `CIds(t)` returns exactly the title matches, each once; when
there is none it returns `[lastKey]`; and `CIds("")` returns `[CentKey]`. -/
theorem C13_cids_result (env : Env) (s : State) (order : List TopicID) {p : Nat}
    {t : String} (hpr : (s.heap p).resources = true) (ht : t ≠ "")
    (hord : IterOrder s order) :
    ((∃ k, TitleMatch env s t k) →
      (CIds env s order (some p) t).Nodup ∧
      ∀ k, k ∈ CIds env s order (some p) t ↔ TitleMatch env s t k) ∧
    ((¬ ∃ k, TitleMatch env s t k) → CIds env s order (some p) t = [lastKey]) ∧
    (∀ st, CIds env s order st "" = [CentKey]) := by
  have hmem : ∀ k, k ∈ order.filter (titleTest env s p t) ↔ TitleMatch env s t k := by
    intro k
    rw [List.mem_filter, titleTest_iff hpr t k]
    constructor
    · exact fun h => h.2
    · intro hk
      refine ⟨?_, hk⟩
      rw [hord.2 k]
      obtain ⟨-, q, hq, -⟩ := hk
      rw [hq]; rfl
  refine ⟨?_, ?_, fun st => by simp [CIds]⟩
  · rintro ⟨k, hk⟩
    have hne : ¬ ((order.filter (titleTest env s p t)).length = 0) := by
      intro h0
      have := (hmem k).2 hk
      rw [List.length_eq_zero.1 h0] at this
      cases this
    rw [CIds_some env s order p ht, if_neg hne]
    exact ⟨hord.1.filter _, hmem⟩
  · intro hno
    rw [CIds_some env s order p ht, if_pos]
    rw [List.length_eq_zero, List.eq_nil_iff_forall_not_mem]
    intro k hk
    exact hno ⟨k, (hmem k).1 hk⟩

/-- C13 (witness): two topics titled "Dup" give a two-element result with both keys. -/
theorem C13_witness :
    (CIds demoEnv demoDup (mapKeys demoDup.res) (some 1) "Dup").Nodup ∧
      "id000002" ∈ CIds demoEnv demoDup (mapKeys demoDup.res) (some 1) "Dup" ∧
      "id000003" ∈ CIds demoEnv demoDup (mapKeys demoDup.res) (some 1) "Dup" ∧
      (CIds demoEnv demoDup (mapKeys demoDup.res) (some 1) "Dup").length = 2 := by
  obtain ⟨hnd, hm⟩ := (C13_cids_result demoEnv demoDup (mapKeys demoDup.res)
    (show (demoDup.heap 1).resources = true from by decide) (show "Dup" ≠ "" from by decide)
    (iterOrder_mapKeys demoDup (by decide))).1 ⟨"id000002", by decide, 3, by decide, by decide⟩
  exact ⟨hnd, (hm _).2 ⟨by decide, 3, by decide, by decide⟩,
    (hm _).2 ⟨by decide, 4, by decide, by decide⟩, by decide⟩

/-- C14: for a receiver that holds the shared index and any identifier `id`: if `id` is a
key, `On(id)` returns the topic stored under it, makes it the last-focused entry and changes
no other entry and no topic; if `id` is not a key, `On(id)` returns what is stored as
last-focused and changes nothing.  On a receiver whose index is nil, `On` returns the
receiver and changes nothing. -/
theorem C14_on_hit_miss (s : State) (p : Nat) (id : TopicID) :
    ((s.heap p).resources = true →
      (∀ t, mapGet s.res id = some t →
        (On s (some p) [id]).2 = some t ∧
        mapGet (On s (some p) [id]).1.res lastKey = some t ∧
        (∀ k, k ≠ lastKey → mapGet (On s (some p) [id]).1.res k = mapGet s.res k) ∧
        (On s (some p) [id]).1.heap = s.heap) ∧
      (mapGet s.res id = none → On s (some p) [id] = (s, mapGet s.res lastKey))) ∧
    ((s.heap p).resources = false → ∀ cids, On s (some p) cids = (s, some p)) := by
  constructor
  · intro hpr
    constructor
    · intro t ht
      rw [On_hit hpr ht]
      exact ⟨rfl, mapGet_mapSet_same _ _ _, fun k hk => mapGet_mapSet_ne _ _ hk, rfl⟩
    · exact fun ht => On_miss hpr ht
  · intro hpr cids
    simp [On, hpr]

/-- C14 (witness): in the chain central → A → B, `On(A.ID)` called on B returns A and
focuses it; `On("nope")` returns the focused central topic. -/
theorem C14_witness :
    ((On demoChain (some 4) ["id000002"]).2 = some 3 ∧
        mapGet (On demoChain (some 4) ["id000002"]).1.res lastKey = some 3) ∧
      On demoChain (some 4) ["nope"] = (demoChain, some 1) := by
  have h := (C14_on_hit_miss demoChain 4 "id000002").1 (by decide)
  have h2 := ((C14_on_hit_miss demoChain 4 "nope").1 (by decide)).2 (by decide)
  obtain ⟨a, b, -, -⟩ := h.1 3 (by decide)
  exact ⟨⟨a, b⟩, h2⟩

/-! ## Sub mode and refused insertions -/

/-- The state after a Sub insertion under `p`. -/
theorem addSub_spec (env : Env) {s : State} (sa : State)
    (hsh : SameShape s sa) {p : Nat} (hpn : p < s.next) (t1 : String) :
    ((addSub (allocState env sa p t1) p s.next).heap p).Children =
      some ((s.heap p).Children.getD [] ++ [s.next]) ∧
    ((addSub (allocState env sa p t1) p s.next).heap s.next) =
      { ID := env.GetId s.idc, Title := t1, resources := true, parent := some p } ∧
    (addSub (allocState env sa p t1) p s.next).res = mapSet s.res (env.GetId s.idc) s.next ∧
    (∀ q, q ≠ p → q ≠ s.next → (addSub (allocState env sa p t1) p s.next).heap q = sa.heap q) ∧
    ((addSub (allocState env sa p t1) p s.next).heap p).Title = (sa.heap p).Title ∧
    ((addSub (allocState env sa p t1) p s.next).heap p).parent = (s.heap p).parent ∧
    (addSub (allocState env sa p t1) p s.next).next = s.next + 1 ∧
    (addSub (allocState env sa p t1) p s.next).idc = s.idc + 1 := by
  obtain ⟨en, er, enew, eold⟩ := allocState_fields env hsh p t1
  have hpne : p ≠ s.next := by omega
  have hch : ((allocState env sa p t1).heap p).Children = (s.heap p).Children := by
    rw [eold p hpne, hsh.ch_eq]
  have hidc : (allocState env sa p t1).idc = s.idc + 1 := by
    simp [allocState, hsh.idc_eq]
  unfold addSub
  rw [hch]
  cases hl : (s.heap p).Children with
  | none =>
    simp only [Option.getD_none, List.nil_append]
    refine ⟨by simp, ?_, er, ?_, ?_, ?_, en, hidc⟩
    · rw [setChildren_heap, if_neg (Ne.symm hpne), enew]
    · intro q hq1 hq2
      rw [setChildren_heap, if_neg hq1, eold q hq2]
    · rw [setChildren_Title, eold p hpne]
    · rw [setChildren_parent, eold p hpne, hsh.par_eq]
  | some l =>
    simp only [Option.getD_some]
    refine ⟨by simp, ?_, er, ?_, ?_, ?_, en, hidc⟩
    · rw [setChildren_heap, if_neg (Ne.symm hpne), enew]
    · intro q hq1 hq2
      rw [setChildren_heap, if_neg hq1, eold q hq2]
    · rw [setChildren_Title, eold p hpne]
    · rw [setChildren_parent, eold p hpne, hsh.par_eq]

/-- C16: in every state of a sheet, for every title `t` and every mode `m`, `Add(t, m)` on
the central topic gives exactly the result of `Add(t, SubMode)`: the same returned node (the
central topic) and the same state, in which the new topic is the last child of the central
topic, the title and parent link of the central topic are unchanged and the sheet root has
no child list. -/
theorem C16_mode_coercion {env : Env} {s : State} (h : Reach env s)
    (hid : FreshId env s.idc) (t : String) (m : AddMode) :
    Add env s (some 1) t [m] = Add env s (some 1) t [SubMode] ∧
    ∃ s1, Add env s (some 1) t [m] = some (s1, some 1) ∧
      (s1.heap 1).Children = some ((s.heap 1).Children.getD [] ++ [s.next]) ∧
      (s1.heap s.next).parent = some 1 ∧
      (s1.heap 1).Title = (s.heap 1).Title ∧ (s1.heap 1).parent = (s.heap 1).parent ∧
      (s1.heap 0).Children = none := by
  have hI := h.inv
  have h1 : 1 < s.next := by have := hI.next_ge; omega
  obtain ⟨sa, t1, hsh, htitle, -, -, hrun⟩ := Add_run hI hid h1 hI.cent_par t [m]
  obtain ⟨sb, t2, -, -, -, -, hrun2⟩ := Add_run hI hid h1 hI.cent_par t [SubMode]
  rw [if_pos (Or.inr rfl)] at hrun hrun2
  have hdet : Add env s (some 1) t [m] = Add env s (some 1) t [SubMode] := by
    rw [Add_some_eq env s 1 t [m] hI.cent_par, Add_some_eq env s 1 t [SubMode] hI.cent_par]
    cases ha : autoTitle s 1 t with
    | none => rfl
    | some r =>
      obtain ⟨s2, t3⟩ := r
      simp only []
      cases hb : allocTopic env s2 1 t3 with
      | none => rfl
      | some s3 =>
        simp only []
        have hsh2 := autoTitle_sameShape ha
        have hr2 : (s2.heap 1).resources = true := by rw [hsh2.rs_eq]; exact hI.cent_res
        rw [allocTopic_eq env s2 1 t3 hr2] at hb
        cases hb
        have hns := not_sentinel_of_len hI.len_ne0 hI.len_ne4 hid.1
        have hlook : lookup (allocState env s2 1 t3) 1 CentKey = some 1 := by
          have hr : ((allocState env s2 1 t3).heap 1).resources = true := by
            have : (1 : Nat) ≠ s2.next := by rw [hsh2.next_eq]; omega
            simp only [allocState, this, if_false]; exact hr2
          unfold lookup
          rw [hr, if_pos rfl]
          simp only [allocState]
          rw [hsh2.idc_eq, mapGet_mapSet_ne _ _ hns.2.1.symm, hsh2.res_eq]
          exact hI.res_cent
        rw [if_pos (Or.inr hlook), if_pos (Or.inr hlook)]
  obtain ⟨e1, e2, -, e4, e5, e6, -, -⟩ := addSub_spec env sa hsh h1 t1
  refine ⟨hdet, _, hrun, e1, ?_, ?_, e6, ?_⟩
  · show ((addSub (allocState env sa 1 t1) 1 s.next).heap s.next).parent = some 1
    rw [e2]
  · show ((addSub (allocState env sa 1 t1) 1 s.next).heap 1).Title = _
    rw [e5, htitle]
  · show ((addSub (allocState env sa 1 t1) 1 s.next).heap 0).Children = none
    rw [e4 0 (by omega) (by omega), hsh.ch_eq]
    exact hI.root_ch

/-- C16 (witness): `Add("X", Parent)` on the central topic with children [A, B, C] appends. -/
theorem C16_witness :
    ∃ s1, Add demoEnv demoABC (some 1) "X" [ParentMode] = some (s1, some 1) ∧
      (s1.heap 1).Children = some [3, 4, 5, 6] ∧ (s1.heap 0).Children = none := by
  obtain ⟨-, s1, e, hc, -, -, -, h0⟩ :=
    C16_mode_coercion demoABC_reach (by decide) "X" ParentMode
  exact ⟨s1, e, hc, h0⟩

/-- C17: in every state of a sheet, for a topic `P` that has a parent and every non-empty
title `t`, `P.Add(t)` and `P.Add(t, SubMode)` give the same result: they do not panic,
return `P`, and leave the child list of `P` equal to its former list (empty when nil)
followed by `N`, where `N` is the newly allocated topic with the identifier `GetId`
returned (not a key of the index before, registered for `N` afterwards), title `t`, parent
link `P` and no child list; the last-focused entry is unchanged. -/
theorem C17_sub_insertion {env : Env} {s : State} (h : Reach env s)
    (hid : FreshId env s.idc) {P par : Nat} (hP : P < s.next)
    (hpar : (s.heap P).parent = some par) {t : String} (ht : t ≠ "") :
    Add env s (some P) t [] = Add env s (some P) t [SubMode] ∧
    ∃ s1, Add env s (some P) t [] = some (s1, some P) ∧
      (s1.heap P).Children = some ((s.heap P).Children.getD [] ++ [s.next]) ∧
      (s1.heap s.next).ID = env.GetId s.idc ∧ mapGet s.res (env.GetId s.idc) = none ∧
      mapGet s1.res (env.GetId s.idc) = some s.next ∧
      (s1.heap s.next).Title = t ∧ (s1.heap s.next).parent = some P ∧
      (s1.heap s.next).Children = none ∧
      mapGet s1.res lastKey = mapGet s.res lastKey := by
  have hI := h.inv
  obtain ⟨sa, t1, hsh, -, hne, -, hrun⟩ := Add_run hI hid hP hpar t []
  obtain ⟨rfl, rfl⟩ := hne ht
  have hc0 : (([] : List AddMode).headD SubMode = SubMode ∨ P = 1) := Or.inl rfl
  rw [if_pos hc0] at hrun
  have hsame : Add env sa (some P) t1 [] = Add env sa (some P) t1 [SubMode] := by
    rw [Add_some_eq env sa P t1 [] hpar, Add_some_eq env sa P t1 [SubMode] hpar]
    rfl
  obtain ⟨e1, e2, e3, -, -, -, -, -⟩ := addSub_spec env sa (sameShape_refl sa) hP t1
  have hns := not_sentinel_of_len hI.len_ne0 hI.len_ne4 hid.1
  refine ⟨hsame, _, hrun, e1, ?_, hI.fresh_not_key hid, ?_, ?_, ?_, ?_, ?_⟩
  · show ((addSub (allocState env sa P t1) P sa.next).heap sa.next).ID = _
    rw [e2]
  · show mapGet (addSub (allocState env sa P t1) P sa.next).res _ = _
    rw [e3, mapGet_mapSet_same]
  · show ((addSub (allocState env sa P t1) P sa.next).heap sa.next).Title = _
    rw [e2]
  · show ((addSub (allocState env sa P t1) P sa.next).heap sa.next).parent = _
    rw [e2]
  · show ((addSub (allocState env sa P t1) P sa.next).heap sa.next).Children = _
    rw [e2]
  · show mapGet (addSub (allocState env sa P t1) P sa.next).res _ = _
    rw [e3, mapGet_mapSet_ne _ _ hns.2.2.1.symm]

/-- C17 (witness): `central.Add("child")` on a new sheet gives one child titled "child"
whose parent is the central topic. -/
theorem C17_witness :
    ∃ s1, Add demoEnv demoS0 (some 1) "child" [] = some (s1, some 1) ∧
      (s1.heap 1).Children = some [3] ∧ (s1.heap 3).Title = "child" ∧
      (s1.heap 3).parent = some 1 := by
  obtain ⟨-, s1, e, hc, -, -, -, ht, hp, -, -⟩ :=
    C17_sub_insertion demoS0_reach (by decide) (show 1 < demoS0.next from by decide)
      (show (demoS0.heap 1).parent = some 0 from by decide) (show "child" ≠ "" from by decide)
  exact ⟨s1, e, hc, ht, hp⟩

/-- C18: for every state, title and mode list, `Add` on a nil receiver returns nil, and `Add`
on a receiver whose parent link is nil returns the receiver; in both cases the state is
unchanged: no identifier is drawn, the index, the counter and all child lists are as
before. -/
theorem C18_add_refused (env : Env) (s : State) (title : String) (modes : List AddMode) :
    Add env s none title modes = some (s, none) ∧
    ∀ p, (s.heap p).parent = none → Add env s (some p) title modes = some (s, some p) := by
  refine ⟨rfl, fun p hp => ?_⟩
  simp only [Add, hp]

/-- C18 (witness): `Add("", Before)` on the sheet root of the chain central → A → B. -/
theorem C18_witness :
    Add demoEnv demoChain (some 0) "" [BeforeMode] = some (demoChain, some 0) :=
  (C18_add_refused demoEnv demoChain "" [BeforeMode]).2 0 (by decide)

/-- C19: in every state of a sheet and for every topic `T`, `T.RemoveChildren()` returns
once the recursion budget is large enough; afterwards `T` has no child list, the
identifier of no proper descendant of `T` is a key of the index, every key that is not the
identifier of a proper descendant of `T` has its old entry, in particular the four sentinel
keys and, for a created topic `T`, the identifier of `T` itself. -/
theorem C19_removeChildren_post {env : Env} {s : State} (h : Reach env s) (T : Nat) :
    ∃ n, ∀ fuel, n ≤ fuel →
      ∃ s1, RemoveChildren fuel s (some T) = some s1 ∧
        (s1.heap T).Children = none ∧
        (∀ d, Descendant s T d → mapGet s1.res (s.heap d).ID = none) ∧
        (∀ k, (¬ ∃ d, Descendant s T d ∧ (s.heap d).ID = k) →
          mapGet s1.res k = mapGet s.res k) ∧
        (∀ k, k = rootKey ∨ k = CentKey ∨ k = lastKey ∨ k = incrKey →
          mapGet s1.res k = mapGet s.res k) ∧
        (3 ≤ T → T < s.next → mapGet s1.res (s.heap T).ID = mapGet s.res (s.heap T).ID) := by
  have hI := h.inv
  obtain ⟨rk, hrk⟩ := hI.rank
  refine ⟨rk T + 1, fun fuel hf => ?_⟩
  obtain ⟨s1, e⟩ := RemoveChildren_terminates rk fuel s T hrk hI.hasRes (by omega)
  have sp := RemoveChildren_spec fuel s T s1 hI.hasRes e
  have hdesc : ∀ d, Descendant s T d → 3 ≤ d ∧ d < s.next := by
    intro d hd
    obtain ⟨q, -, hq⟩ := descendant_parent hd
    obtain ⟨a, b, -, -⟩ := hI.ch_mem q d hq
    exact ⟨a, b⟩
  refine ⟨s1, e, sp.children_in Relation.ReflTransGen.refl,
    fun d hd => sp.res_in _ ⟨d, hd, rfl⟩, fun k hk => sp.res_out k hk, ?_, ?_⟩
  · intro k hk
    apply sp.res_out
    rintro ⟨d, hd, e1⟩
    obtain ⟨d3, dn⟩ := hdesc d hd
    have := hI.node_not_sentinel d3 dn
    rw [e1] at this
    rcases hk with rfl | rfl | rfl | rfl
    · exact this.1 rfl
    · exact this.2.1 rfl
    · exact this.2.2.1 rfl
    · exact this.2.2.2 rfl
  · intro t3 tn
    apply sp.res_out
    rintro ⟨d, hd, e1⟩
    obtain ⟨d3, dn⟩ := hdesc d hd
    have hdT : d = T := hI.node_id_inj d3 dn t3 tn e1
    subst hdT
    obtain ⟨c, hc, hcd⟩ := hd
    have h1 := inSubtree_rank hrk hcd
    have h2 := hrk d c hc
    omega

/-- C19 (witness): `A.RemoveChildren()` in the chain central → A → B removes B from the
index and keeps A in it. -/
theorem C19_witness :
    ∃ n, ∀ fuel, n ≤ fuel →
      ∃ s1, RemoveChildren fuel demoChain (some 3) = some s1 ∧
        (s1.heap 3).Children = none ∧ mapGet s1.res "id000003" = none ∧
        mapGet s1.res "id000002" = some 3 := by
  obtain ⟨n, hn⟩ := C19_removeChildren_post demoChain_reach 3
  refine ⟨n, fun fuel hf => ?_⟩
  obtain ⟨s1, e, hc, hin, -, -, hT⟩ := hn fuel hf
  refine ⟨s1, e, hc, ?_, ?_⟩
  · exact hin 4 ⟨4, ⟨[4], by decide, by decide⟩, Relation.ReflTransGen.refl⟩
  · have : mapGet s1.res "id000002" = mapGet demoChain.res "id000002" :=
      hT (by decide) (by decide)
    rw [this]
    decide

/-- C20: in every state of a sheet, for every receiver (nil included), every recursion
budget, every order in which the map is visited and every non-empty title `t` that no
entry under a key of content-identifier length carries, `Remove(t)` resolves the title to
the last-focused key, returns the receiver and leaves the whole state (child lists, index
entries, last-focused entry) unchanged. -/
theorem C20_remove_unknown_title {env : Env} {s : State} (h : Reach env s) (fuel : Nat)
    (order : List TopicID) (st : Option Nat) {t : String} (ht : t ≠ "")
    (hno : ¬ ∃ k, TitleMatch env s t k) :
    CId env s order st t = lastKey ∧ Remove env fuel s order st t = some (s, st) := by
  have hI := h.inv
  have hcid : CId env s order st t = lastKey := by
    cases st with
    | none => simp [CId, ht]
    | some p =>
      rw [CId_some env s order p ht]
      cases hfound : order.find? (titleTest env s p t) with
      | none => rfl
      | some id =>
        exfalso
        have htest := (find_some_spec _ _ hfound).2
        by_cases hpr : (s.heap p).resources = true
        · exact hno ⟨id, (titleTest_iff hpr t id).1 htest⟩
        · unfold titleTest lookup at htest
          simp [hpr] at htest
  refine ⟨hcid, ?_⟩
  unfold Remove
  rw [hcid]
  cases st with
  | none => rfl
  | some p =>
    rcases RemoveByID_cases hI fuel p lastKey with h1 | ⟨P, c, pre, post, -, -, -, hid, -, hl, -⟩
    · exact h1
    · exfalso
      obtain ⟨c3, cn, -, -⟩ := hI.ch_mem P c ⟨_, hl, by simp⟩
      exact (hI.node_not_sentinel c3 cn).2.2.1 hid

/-- C20 (witness): `Remove("NoSuchTitle")` called on B in the chain central → A → B. -/
theorem C20_witness :
    CId demoEnv demoChain (mapKeys demoChain.res) (some 4) "NoSuchTitle" = lastKey ∧
      Remove demoEnv 0 demoChain (mapKeys demoChain.res) (some 4) "NoSuchTitle"
        = some (demoChain, some 4) :=
  C20_remove_unknown_title demoChain_reach 0 (mapKeys demoChain.res) (some 4)
    (show "NoSuchTitle" ≠ "" from by decide) (by
      rintro ⟨k, hlen, q, hq, htitle⟩
      have hq3 : q = 3 ∨ q = 4 := by
        have hI := demoChain_reach.inv
        rcases hI.res_id k q hq with e | e | e | e | ⟨q3, qn, -⟩
        · subst e; exact absurd hlen (by decide)
        · subst e; exact absurd hlen (by decide)
        · subst e; exact absurd hlen (by decide)
        · subst e; exact absurd hlen (by decide)
        · have : demoChain.next = 5 := by decide
          omega
      rcases hq3 with rfl | rfl
      · exact absurd htitle (by decide)
      · exact absurd htitle (by decide))

/-! ## Auto-numbered titles -/

theorem digitChar_value (k : Nat) (hk : k < 10) : (Nat.digitChar k).toNat - 48 = k := by
  interval_cases k <;> rfl

theorem digitsValue_toDigitsCore : ∀ (fuel n : Nat) (ds : List Char), n < fuel →
    (Nat.toDigitsCore 10 fuel n ds).foldl (fun acc c => 10 * acc + (c.toNat - 48)) 0
      = ds.foldl (fun acc c => 10 * acc + (c.toNat - 48)) n := by
  intro fuel
  induction fuel with
  | zero => intro n ds h; omega
  | succ fuel ih =>
    intro n ds h
    simp only [Nat.toDigitsCore]
    split_ifs with h0
    · simp only [List.foldl_cons, Nat.mul_zero, Nat.zero_add]
      rw [digitChar_value _ (Nat.mod_lt _ (by omega))]
      congr 1
      omega
    · rw [ih (n / 10) _ (by omega)]
      simp only [List.foldl_cons]
      rw [digitChar_value _ (Nat.mod_lt _ (by omega))]
      congr 1
      omega

theorem digitsValue_repr (n : Nat) : digitsValue (Nat.repr n).data = n := by
  unfold digitsValue Nat.repr Nat.toDigits
  show List.foldl _ 0 (Nat.toDigitsCore 10 (n + 1) n []) = n
  rw [digitsValue_toDigitsCore (n + 1) n [] (by omega)]
  rfl

/-- Decimal numerals of different numbers are different strings. -/
theorem natToString_injective {a b : Nat} (h : toString a = toString b) : a = b := by
  have h1 : Nat.repr a = Nat.repr b := h
  have := congrArg (fun s => digitsValue s.data) h1
  simpa [digitsValue_repr] using this

/-- Synthesized titles of different numbers are different. -/
theorem autoTitle_ne {a b : Nat} (h : a ≠ b) :
    "Topic " ++ toString a ≠ "Topic " ++ toString b := by
  intro e
  apply h
  apply natToString_injective
  have e1 := congrArg String.data e
  simp only [String.data_append] at e1
  exact String.ext (List.append_cancel_left e1)

theorem wrap64_small (n : Nat) (hn : n + 1 < 2 ^ 63) : wrap64 ((n : Int) + 1) = (n : Int) + 1 := by
  unfold wrap64
  omega

theorem toString_succ (n : Nat) : toString ((n : Int) + 1) = toString (n + 1) := by
  have : (n : Int) + 1 = Int.ofNat (n + 1) := by simp
  rw [this]
  rfl

theorem ReachN.reach {env : Env} {n : Nat} {s : State} (h : ReachN env n s) : Reach env s := by
  induction h with
  | newSheet a b sc henv => exact Reach.newSheet a b sc henv
  | add _ st title modes hst hid e ih => exact Reach.add ih st title modes hst hid e
  | onId _ st cids hst ih => exact Reach.onId ih st cids hst
  | onTitle _ order st title hst ih => exact Reach.onTitle ih order st title hst
  | removeByID _ fuel st cid hst e ih => exact Reach.removeByID ih fuel st cid hst e
  | remove _ fuel order st title hst e ih => exact Reach.remove ih fuel order st title hst e
  | removeChildren _ fuel st hst e ih => exact Reach.removeChildren ih fuel st hst e

theorem On_heap (s : State) (st : Option Nat) (cids : List TopicID) :
    (On s st cids).1.heap = s.heap := by
  unfold On
  cases st with
  | none => rfl
  | some p =>
    simp only []
    split_ifs
    · rfl
    · split <;> rfl

theorem addSub_incr (s : State) (p tp q : Nat) :
    ((addSub s p tp).heap q).incr = (s.heap q).incr := by
  unfold addSub
  split <;> rw [setChildren_incr]

theorem addSibling_incr (s : State) (p tp par : Nat) (mode : AddMode) (q : Nat) :
    ((addSibling s p tp par mode).heap q).incr = (s.heap q).incr := by
  unfold addSibling
  simp only []
  split
  · rw [setChildren_incr, setParent_incr]
  · split_ifs
    · rw [setChildren_incr, setParent_incr]
    · rw [setChildren_incr, setParent_incr]
    · rw [setParent_incr]

theorem addSub_Title (s : State) (p tp q : Nat) :
    ((addSub s p tp).heap q).Title = (s.heap q).Title := by
  unfold addSub
  split <;> rw [setChildren_Title]

theorem addSibling_Title (s : State) (p tp par : Nat) (mode : AddMode) (q : Nat) :
    ((addSibling s p tp par mode).heap q).Title = (s.heap q).Title := by
  unfold addSibling
  simp only []
  split
  · rw [setChildren_Title, setParent_Title]
  · split_ifs
    · rw [setChildren_Title, setParent_Title]
    · rw [setChildren_Title, setParent_Title]
    · rw [setParent_Title]

/-- The branches of `Add` in a sheet, given the outcome of the title synthesis. -/
theorem Add_branches {env : Env} {s sa : State} {t1 : String} (h : Inv env s)
    (hid : FreshId env s.idc) {p par : Nat} (hpn : p < s.next)
    (hpar : (s.heap p).parent = some par) {t : String} (modes : List AddMode)
    (ha : autoTitle s p t = some (sa, t1)) :
    Add env s (some p) t modes =
      if modes.headD SubMode = SubMode ∨ p = 1 then
        some (addSub (allocState env sa p t1) p s.next, some p)
      else if modes.headD SubMode = ParentMode then
        some (addParent (allocState env sa p t1) p s.next, some s.next)
      else some (addSibling (allocState env sa p t1) p s.next par (modes.headD SubMode),
        some p) := by
  obtain ⟨sb, t2, hsh, htitle, hne, hemp, hrun⟩ := Add_run h hid hpn hpar t modes
  have hsa := autoTitle_sameShape ha
  obtain ⟨hp1, hp2, hpr, -, -⟩ := h.recv_of_parent hpn hpar
  have hpr1 : (sa.heap p).resources = true := by rw [hsa.rs_eq]; exact hpr
  have hlook : lookup (allocState env sa p t1) p CentKey = some 1 := by
    have hr : ((allocState env sa p t1).heap p).resources = true := by
      have : p ≠ sa.next := by rw [hsa.next_eq]; omega
      simp only [allocState, this, if_false]; exact hpr1
    have hns := not_sentinel_of_len h.len_ne0 h.len_ne4 hid.1
    unfold lookup
    rw [hr, if_pos rfl]
    simp only [allocState]
    rw [hsa.idc_eq, mapGet_mapSet_ne _ _ hns.2.1.symm, hsa.res_eq]
    exact h.res_cent
  rw [Add_some_eq env s p t modes hpar, ha]
  simp only []
  rw [allocTopic_eq env sa p t1 hpr1]
  simp only []
  rw [hlook, hsa.next_eq]
  have : (some 1 = some p) = (p = 1) := by
    apply propext
    constructor
    · intro e; exact (Option.some.inj e).symm
    · intro e; rw [e]
  simp only [this]

/-- What an `Add` call that reaches line 154 leaves behind: the counter is the one after the
title synthesis, and the title used lands on the new topic, or, in Parent mode on a
receiver other than the central topic, on the receiver. -/
theorem Add_counter_title {env : Env} {s sa s1 : State} {t1 : String} {r : Option Nat}
    (h : Inv env s) (hid : FreshId env s.idc) {p par : Nat} (hpn : p < s.next)
    (hpar : (s.heap p).parent = some par) {t : String} {modes : List AddMode}
    (ha : autoTitle s p t = some (sa, t1)) (e : Add env s (some p) t modes = some (s1, r)) :
    (s1.heap 2).incr = (sa.heap 2).incr ∧
    (s1.heap (if modes.headD SubMode = ParentMode ∧ p ≠ 1 then p else s.next)).Title = t1 := by
  have hsa := autoTitle_sameShape ha
  obtain ⟨-, -, enew, eold⟩ := allocState_fields env hsa p t1
  have h2 : (2 : Nat) ≠ s.next := by have := h.next_ge; omega
  have hpne : p ≠ s.next := by omega
  rw [Add_branches h hid hpn hpar modes ha] at e
  split_ifs at e with c1 c2
  · simp only [Option.some.injEq, Prod.mk.injEq] at e
    rw [← e.1]
    have hc : ¬ (modes.headD SubMode = ParentMode ∧ p ≠ 1) := by
      rintro ⟨a, b⟩
      rcases c1 with c1 | c1
      · rw [a] at c1; exact absurd c1 (by decide)
      · exact b c1
    rw [if_neg hc, addSub_incr, addSub_Title, eold 2 h2, enew]
    exact ⟨rfl, rfl⟩
  · simp only [Option.some.injEq, Prod.mk.injEq] at e
    rw [← e.1]
    have hc : modes.headD SubMode = ParentMode ∧ p ≠ 1 := ⟨c2, fun e1 => c1 (Or.inr e1)⟩
    rw [if_pos hc, addParent_incr _ hpne, addParent_Title _ hpne, if_pos rfl, eold 2 h2, enew]
    exact ⟨rfl, rfl⟩
  · simp only [Option.some.injEq, Prod.mk.injEq] at e
    rw [← e.1]
    have hc : ¬ (modes.headD SubMode = ParentMode ∧ p ≠ 1) := fun a => c2 a.1
    rw [if_neg hc, addSibling_incr, addSibling_Title, eold 2 h2, enew]
    exact ⟨rfl, rfl⟩

/-- `RemoveByID` does not touch the counter. -/
theorem RemoveByID_incr {env : Env} {s s1 : State} {r : Option Nat} (h : Inv env s)
    {fuel : Nat} {st : Option Nat} {cid : TopicID}
    (e : RemoveByID fuel s st cid = some (s1, r)) : (s1.heap 2).incr = (s.heap 2).incr := by
  cases st with
  | none =>
    simp only [RemoveByID, Option.some.injEq, Prod.mk.injEq] at e
    rw [← e.1]
  | some p =>
    rcases RemoveByID_cases h fuel p cid with h1 | ⟨P, c, pre, post, hpr, -, -, hid, -, hl, h1⟩
    · rw [h1] at e
      simp only [Option.some.injEq, Prod.mk.injEq] at e
      rw [← e.1]
    · rw [h1] at e
      cases h2 : RemoveChildren fuel (delRes s p cid) (some c) with
      | none => rw [h2] at e; cases e
      | some s2 =>
        rw [h2] at e
        simp only [Option.map_some', Option.some.injEq, Prod.mk.injEq] at e
        rw [← e.1]
        subst hid
        have pc := purged_cascade h.hasRes hpr h2
        show ((s2.setChildren P _).heap 2).incr = _
        rw [setChildren_incr, pc.incr_eq]

/-- `RemoveChildren` does not touch the counter. -/
theorem RemoveChildren_incr {env : Env} {s s1 : State} (h : Inv env s) {fuel : Nat}
    {st : Option Nat} (e : RemoveChildren fuel s st = some s1) :
    (s1.heap 2).incr = (s.heap 2).incr := by
  cases st with
  | none =>
    cases fuel with
    | zero => simp [RemoveChildren] at e
    | succ fuel =>
      simp only [RemoveChildren, Option.some.injEq] at e
      rw [← e]
  | some p => exact (RemoveChildren_spec fuel s p s1 h.hasRes e).incr_eq 2

/-- The counter of a sheet holds the number of auto-titled insertions made so far (below
the range of a Go `int`). -/
theorem ReachN.counter {env : Env} {n : Nat} {s : State} (h : ReachN env n s) :
    n < 2 ^ 63 → (s.heap 2).incr = some (n : Int) := by
  induction h with
  | newSheet a b sc henv => intro _; rfl
  | @add n s s1 r h0 st title modes hst hid e ih =>
    intro hn
    have hI := h0.reach.inv
    have ih1 := ih (by omega)
    cases st with
    | none =>
      simp only [Add, Option.some.injEq, Prod.mk.injEq] at e
      rw [← e.1]
      simpa [autoCount] using ih1
    | some p =>
      have hpn : p < s.next := hst
      cases hpar : (s.heap p).parent with
      | none =>
        simp only [Add, hpar, Option.some.injEq, Prod.mk.injEq] at e
        rw [← e.1]
        simpa [autoCount, hpar] using ih1
      | some par =>
        obtain ⟨-, -, hpr, -, -⟩ := hI.recv_of_parent hpn hpar
        obtain ⟨sa, t1, ha, -, -, hne, hemp⟩ := autoTitle_run hI hpr title
        obtain ⟨hc, -⟩ := Add_counter_title hI hid hpn hpar ha e
        rw [hc]
        by_cases ht : title = ""
        · subst ht
          have hcount : autoCount s (some p) "" = 1 := by simp [autoCount, hpar]
          rw [hcount] at hn ⊢
          have e2 : autoTitle s p "" = some (s.setTopic 2
              { s.heap 2 with incr := some (wrap64 ((n : Int) + 1)) },
              "Topic " ++ toString (wrap64 ((n : Int) + 1))) := by
            simp [autoTitle, lookup, hpr, hI.res_incr, ih1]
          rw [ha] at e2
          simp only [Option.some.injEq, Prod.mk.injEq] at e2
          rw [e2.1, setTopic_heap, if_pos rfl, wrap64_small n hn]
          simp
        · have hcount : autoCount s (some p) title = 0 := by simp [autoCount, ht]
          rw [hcount]
          rw [(hne ht).1]
          exact ih1
  | onId _ st cids _ ih => intro hn; rw [On_heap]; exact ih hn
  | onTitle _ order st title _ ih => intro hn; unfold OnTitle; rw [On_heap]; exact ih hn
  | removeByID h0 fuel st cid _ e ih =>
    intro hn; rw [RemoveByID_incr h0.reach.inv e]; exact ih hn
  | remove h0 fuel order st title _ e ih =>
    intro hn; rw [RemoveByID_incr h0.reach.inv e]; exact ih hn
  | removeChildren h0 fuel st _ e ih =>
    intro hn; rw [RemoveChildren_incr h0.reach.inv e]; exact ih hn

/-- Claim C15 (auto-numbered titles). In a sheet on which `n` calls of `Add` with an empty
title on a receiver with a parent have been made so far, interleaved in any way with other
`Add` calls, navigation and removals, the counter holds `n`. A further `Add` with an empty
title on any receiver `p` that has a parent, in any mode, returns, is the `(n + 1)`-th such
call, leaves the counter at `n + 1` and synthesizes the title "Topic (n + 1)": the title
is on the new topic, or, in Parent mode on a receiver other than the central topic (where
the titles are swapped), on the receiver. Titles synthesized for different counts are
different. The count stays in the range of a Go `int` (`n + 1 < 2 ^ 63`). -/
theorem C15_auto_numbering {env : Env} {n : Nat} {s : State} (h : ReachN env n s)
    (hn : n + 1 < 2 ^ 63) (hid : FreshId env s.idc) {p par : Nat} (hp : p < s.next)
    (hpar : (s.heap p).parent = some par) (modes : List AddMode) :
    (s.heap 2).incr = some (n : Int) ∧
    ∃ s1 r, Add env s (some p) "" modes = some (s1, r) ∧ ReachN env (n + 1) s1 ∧
      (s1.heap 2).incr = some ((n : Int) + 1) ∧
      (s1.heap (if modes.headD SubMode = ParentMode ∧ p ≠ 1 then p else s.next)).Title
        = "Topic " ++ toString (n + 1) ∧
      ∀ m : Nat, m ≠ n + 1 → "Topic " ++ toString m ≠ "Topic " ++ toString (n + 1) := by
  have hI := h.reach.inv
  have hcnt := h.counter (by omega)
  obtain ⟨-, -, hpr, -, -⟩ := hI.recv_of_parent hp hpar
  have e2 : autoTitle s p "" = some (s.setTopic 2
      { s.heap 2 with incr := some (wrap64 ((n : Int) + 1)) },
      "Topic " ++ toString (wrap64 ((n : Int) + 1))) := by
    simp [autoTitle, lookup, hpr, hI.res_incr, hcnt]
  rw [wrap64_small n hn, toString_succ] at e2
  have hb := Add_branches hI hid hp hpar modes e2
  obtain ⟨s1, r, e⟩ : ∃ s1 r, Add env s (some p) "" modes = some (s1, r) := by
    rw [hb]; split_ifs <;> exact ⟨_, _, rfl⟩
  have hcount : autoCount s (some p) "" = 1 := by simp [autoCount, hpar]
  have hr := ReachN.add h (some p) "" modes hp hid e
  rw [hcount] at hr
  obtain ⟨hc, ht⟩ := Add_counter_title hI hid hp hpar e2 e
  refine ⟨hcnt, s1, r, e, hr, ?_, ht, fun m hm => autoTitle_ne hm⟩
  rw [hc, setTopic_heap, if_pos rfl]

/-- Witness for C15: after one auto-titled `Add` and one `Add` with the title "X", an `Add`
with an empty title in Before mode on the first child of the central topic makes the new
topic (address 5) "Topic 2". -/
theorem C15_witness :
    (demoAutoX.heap 2).incr = some (1 : Int) ∧
    ∃ s1 r, Add demoEnv demoAutoX (some 3) "" [BeforeMode] = some (s1, r) ∧
      ReachN demoEnv 2 s1 ∧ (s1.heap 2).incr = some (2 : Int) ∧
      (s1.heap 5).Title = "Topic 2" ∧
      ∀ m : Nat, m ≠ 2 → "Topic " ++ toString m ≠ "Topic 2" :=
  C15_auto_numbering
    (show ReachN demoEnv 1 demoAutoX from
      ReachN.add
        (show ReachN demoEnv 1 demoAuto from
          ReachN.add (ReachN.newSheet "S" "C" [] demoEnv_ok) (some 1) "" [] (by decide)
            (by decide)
            (show Add demoEnv (NewSheet demoEnv "S" "C" []).1 (some 1) "" []
              = some (demoAuto, some 1) from rfl))
        (some 1) "X" [] (by decide) (by decide)
        (show Add demoEnv demoAuto (some 1) "X" [] = some (demoAutoX, some 1) from rfl))
    (by norm_num) (by decide) (show 3 < demoAutoX.next by decide)
    (show (demoAutoX.heap 3).parent = some 1 by decide) [BeforeMode]

end Xmind
